import Mathlib

/-!
Verification development for the `derangements` repository.

Shallow embedding of the library's generators:
* `FastPermutations` / `fastPermutations` / `fpNext`   — src/fast_permutations.rs
* `DistinctPermutations` / `distinctPermutations` / `dpNext` — src/fast_permutations.rs
* `DistinctDerangements` / `distinctDerangements` / `ddNextF` — src/derangements_iter.rs
* `derangements_range`, `derangements_range_fast`      — src/derangements.rs
* `DRI` / `derangementsByRange` / `driNext`            — src/derangements_range.rs
* `derangementsFn`                                     — src/derangements.rs (filter over
  itertools permutations, the latter modelled)

Machine integers (`usize`) are modelled as `Nat`; Rust saturating subtraction is `Nat`
subtraction.  Fallible iterator recursion is modelled with explicit fuel.
-/

namespace DerangementsLib

open List

/-- Rotate the element at position `s` to the front, shifting the elements before it
one position to the right (the "prefix shift" loop of `FastPermutations::next`).
For `s < l.length` this is exactly the Rust loop; `d` is the default returned by
out-of-bounds reads (unreachable there, see the C10 theorem). -/
def shiftToFront (l : List α) (d : α) (s : Nat) : List α :=
  l.getD s d :: (l.take s ++ l.drop (s + 1))

/-- State of the `FastPermutations` iterator (src/fast_permutations.rs, lines 4-11). -/
structure FastPermutations (α : Type) where
  buffer : List Nat
  values : List α
  start : Bool
  index : Nat
  k : Nat
  deriving Repr, DecidableEq

/-- `fast_permutations` constructor (src/fast_permutations.rs, lines 42-58):
values are sorted ascending (`sort_unstable`), the position buffer is
`(0..length).rev()`, and `index = length.saturating_sub(2)`. -/
def fastPermutations [LinearOrder α] (vals : List α) (k : Nat) : FastPermutations α :=
  let values := vals.insertionSort (· ≤ ·)
  let length := values.length
  { buffer := (List.range length).reverse
    values := values
    start := true
    index := length - 2
    k := k }

/-- `FastPermutations::next` (src/fast_permutations.rs, lines 77-121).
Returns the emitted item (if any) together with the successor state. -/
def fpNext [LinearOrder α] [Inhabited α] (s : FastPermutations α) :
    Option (List α) × FastPermutations α :=
  if s.start then
    (some (s.values.take s.k), { s with start := false })
  else if ¬ s.index + 2 < s.buffer.length ∧
      (s.buffer.length ≤ s.index + 1 ∨
        s.buffer.getD 0 0 ≤ s.buffer.getD (s.index + 1) 0) then
    (none, s)
  else
    let shiftIndex :=
      if s.index + 2 < s.buffer.length ∧
          s.buffer.getD (s.index + 2) 0 ≤ s.buffer.getD s.index 0 then
        s.index + 2
      else
        s.index + 1
    let buffer := shiftToFront s.buffer 0 shiftIndex
    let values := shiftToFront s.values default shiftIndex
    let index := if buffer.getD 0 0 < buffer.getD 1 0 then 0 else s.index + 1
    (some (values.take s.k), { s with buffer := buffer, values := values, index := index })

/-- Drive `fpNext` with the given fuel, collecting the emitted arrangements in order
and stopping at the first exhaustion signal. -/
def fpRun [LinearOrder α] [Inhabited α] : Nat → FastPermutations α → List (List α)
  | 0, _ => []
  | fuel + 1, s =>
    match fpNext s with
    | (none, _) => []
    | (some x, s1) => x :: fpRun fuel s1

/-- Iterate the state transition of `fpNext` (ignoring emissions). -/
def fpIter [LinearOrder α] [Inhabited α] : Nat → FastPermutations α → FastPermutations α
  | 0, s => s
  | fuel + 1, s => fpIter fuel (fpNext s).2

/-- State of the `DistinctPermutations` iterator (src/fast_permutations.rs, lines 124-129). -/
structure DistinctPermutations (α : Type) where
  buffer : List α
  start : Bool
  index : Nat
  deriving Repr, DecidableEq

/-- `distinct_permutations` constructor (src/fast_permutations.rs, lines 148-161):
the buffer is the input sorted descending (`sort_unstable_by(|a, b| b.cmp(a))`). -/
def distinctPermutations [LinearOrder α] (vals : List α) : DistinctPermutations α :=
  let buffer := vals.insertionSort (· ≥ ·)
  { buffer := buffer
    start := true
    index := buffer.length - 2 }

/-- `DistinctPermutations::next` (src/fast_permutations.rs, lines 170-212). -/
def dpNext [LinearOrder α] [Inhabited α] (s : DistinctPermutations α) :
    Option (List α) × DistinctPermutations α :=
  if s.start then
    (some s.buffer, { s with start := false })
  else if ¬ s.index + 2 < s.buffer.length ∧
      (s.buffer.length ≤ s.index + 1 ∨
        s.buffer.getD 0 default ≤ s.buffer.getD (s.index + 1) default) then
    (none, s)
  else
    let shiftIndex :=
      if s.index + 2 < s.buffer.length ∧
          s.buffer.getD (s.index + 2) default ≤ s.buffer.getD s.index default then
        s.index + 2
      else
        s.index + 1
    let buffer := shiftToFront s.buffer default shiftIndex
    let index := if buffer.getD 0 default < buffer.getD 1 default then 0 else s.index + 1
    (some buffer, { s with buffer := buffer, index := index })

/-- Drive `dpNext` with fuel, collecting emissions. -/
def dpRun [LinearOrder α] [Inhabited α] : Nat → DistinctPermutations α → List (List α)
  | 0, _ => []
  | fuel + 1, s =>
    match dpNext s with
    | (none, _) => []
    | (some x, s1) => x :: dpRun fuel s1

/-- State of the `DistinctDerangements` iterator (src/derangements_iter.rs, lines 90-95).
The item type is instantiated at `Nat` since the Rust impl requires a total conversion
`usize: From<I>`. -/
structure DistinctDerangements where
  buffer : List Nat
  start : Bool
  index : Nat
  deriving Repr, DecidableEq

/-- `distinct_derangements` constructor (src/derangements_iter.rs, lines 97-110). -/
def distinctDerangements (vals : List Nat) : DistinctDerangements :=
  let buffer := vals.insertionSort (· ≥ ·)
  { buffer := buffer
    start := true
    index := buffer.length - 2 }

/-- The inline rejection predicate of `DistinctDerangements::next`:
`any(|x| x.0 == <I as Into<usize>>::into(*x.1))`. -/
def ddReject (l : List Nat) : Bool :=
  l.enum.any (fun p => p.1 == p.2)

/-- `DistinctDerangements::next` (src/derangements_iter.rs, lines 119-175).
The tail-recursive skip (`self.next()` on a rejected arrangement) is driven by
explicit fuel; `none` means the fuel ran out before the call returned. -/
def ddNextF : Nat → DistinctDerangements → Option (Option (List Nat) × DistinctDerangements)
  | 0, _ => none
  | fuel + 1, s0 =>
    let s := if s0.start then { s0 with start := false } else s0
    if s0.start = true ∧ ddReject s0.buffer = false then
      some (some s0.buffer, s)
    else if ¬ s.index + 2 < s.buffer.length ∧
        (s.buffer.length ≤ s.index + 1 ∨
          s.buffer.getD 0 0 ≤ s.buffer.getD (s.index + 1) 0) then
      some (none, s)
    else
      let shiftIndex :=
        if s.index + 2 < s.buffer.length ∧
            s.buffer.getD (s.index + 2) 0 ≤ s.buffer.getD s.index 0 then
          s.index + 2
        else
          s.index + 1
      let buffer := shiftToFront s.buffer 0 shiftIndex
      let index := if buffer.getD 0 0 < buffer.getD 1 0 then 0 else s.index + 1
      let s1 : DistinctDerangements := { s with buffer := buffer, index := index }
      if ddReject buffer = false then some (some buffer, s1) else ddNextF fuel s1

/-- Drive `ddNextF`, collecting emissions (stops on exhaustion or when fuel runs out). -/
def ddRunF : Nat → DistinctDerangements → List (List Nat)
  | 0, _ => []
  | fuel + 1, s =>
    match ddNextF (fuel + 1) s with
    | none => []
    | some (none, _) => []
    | some (some x, s1) => x :: ddRunF fuel s1

/-- Modelled from the spec: the `itertools` `Permutations` adaptor used by
`derangements` and `derangements_iter` is not part of this repository's src/;
per the spec it yields every length-`k` arrangement of distinct positions of the
input, ordered lexicographically by position. -/
def kperms [Inhabited α] : Nat → List α → List (List α)
  | 0, _ => [[]]
  | k + 1, l =>
    (List.range l.length).flatMap
      (fun i => (kperms k (l.eraseIdx i)).map (fun w => l.getD i default :: w))

/-- `usize::MAX`, the sentinel produced by `unwrap_or` in the index-derangement filter. -/
def usizeMax : Nat := 2 ^ 64 - 1

/-- The rejection predicate of `derangements` (src/derangements.rs, lines 208-212) and
`Derangements::next` (src/derangements_iter.rs, lines 70-74):
`any(|x| x.0 == usize::try_from(x.1.clone()).unwrap_or(usize::MAX))`.
The fallible conversion `usize: TryFrom<Item>` is passed explicitly. -/
def derangeReject (tryFrom : α → Option Nat) (x : List α) : Bool :=
  x.enum.any (fun p => p.1 == (tryFrom p.2).getD usizeMax)

/-- `derangements` (src/derangements.rs, lines 199-214): all `k`-permutations of the
input, keeping those the index-derangement filter does not reject. -/
def derangementsFn [Inhabited α] (tryFrom : α → Option Nat) (l : List α) (k : Nat) :
    List (List α) :=
  (kperms k l).filter (fun x => ! derangeReject tryFrom x)

/-- `Derangements::next` (src/derangements_iter.rs, lines 66-80): skip-ahead filter over
the underlying `Permutations` iterator, the latter modelled by the list of its pending
emissions (so the recursive skip is structural). -/
def diNext (tryFrom : α → Option Nat) : List (List α) → Option (List α) × List (List α)
  | [] => (none, [])
  | x :: rest =>
    if derangeReject tryFrom x = false then (some x, rest) else diNext tryFrom rest

/-- `usize::try_from::<i64>`: succeeds exactly on `0..=usize::MAX`. -/
def intTryFrom (v : Int) : Option Nat :=
  if 0 ≤ v ∧ v ≤ (2 : Int) ^ 64 - 1 then some v.toNat else none

/-- `usize::try_from::<usize>` always succeeds (the `usize` items are themselves `Nat`). -/
def natTryFrom (v : Nat) : Option Nat := some v

/-- The shared recursion body of `derangements_range` (src/derangements.rs, lines 27-66)
and of one `j`-iteration of `derangements_range_fast` (lines 95-135); the two loop
bodies are textually identical in the source (with `j` for `n`), so they are factored
here once.  `m` is the Rust `n`/`j`. -/
def drInnerLoop (nm1 k : Nat) : Nat → List Nat → List Nat × List Nat
  | _, [] => ([], [])
  | i, el :: rest =>
    let el2 := if el = k then k + 1 else el
    let p := drInnerLoop nm1 k (i + 1) rest
    (if i = k then nm1 :: el2 :: p.1 else el2 :: p.1, el2 :: p.2)

/-- The `for k in (0..n-2).rev()` loop of the part-2 body, threading the mutated
`temp2` buffer through successive `k` iterations. -/
def drKLoop (nm1 : Nat) : List Nat → List Nat → List (List Nat)
  | [], _ => []
  | k :: ks, temp2 =>
    let p := drInnerLoop nm1 k 0 temp2
    (p.1 ++ [k]) :: drKLoop nm1 ks p.2

/-- One full body of the range-derangement recurrence at size `m`, from the
derangements of sizes `m-1` (`lag1`) and `m-2` (`lag2`). -/
def drBody (m : Nat) (lag1 lag2 : List (List Nat)) : List (List Nat) :=
  let part1 := lag1.flatMap (fun lag =>
    (List.range lag.length).map (fun split =>
      (lag.enum.map (fun x => if x.1 = split then m - 1 else x.2)) ++ [lag.getD split 0]))
  let part2 := lag2.flatMap (fun lag =>
    (lag ++ [m - 1, m - 2]) :: drKLoop (m - 1) ((List.range (m - 2)).reverse) lag)
  part1 ++ part2

/-- `derangements_range` (src/derangements.rs, lines 23-68). -/
def derangements_range : Nat → List (List Nat)
  | 0 => [[]]
  | 1 => []
  | n + 2 => drBody (n + 2) (derangements_range (n + 1)) (derangements_range n)

/-- The `for j in 2..n + 1` loop of `derangements_range_fast` (lines 95-135):
`js` is the list of remaining `j` values. -/
def drFastGo (n : Nat) : List Nat → List (List Nat) → List (List Nat) → List (List Nat) →
    List (List Nat)
  | [], _, _, out => out
  | j :: js, lag2, lag1, out =>
    let lag0 := drBody j lag1 lag2
    if j < n then drFastGo n js lag1 lag0 out
    else drFastGo n js lag2 lag1 lag0

/-- `derangements_range_fast` (src/derangements.rs, lines 85-139). -/
def derangements_range_fast (n : Nat) : List (List Nat) :=
  match n with
  | 0 => [[]]
  | 1 => []
  | _ => drFastGo n ((List.range (n - 1)).map (· + 2))
      (derangements_range 0) (derangements_range 1) []

/-- Increment every element that is at least `k` (the cumulative effect of the
`if *el == k { *el = k + 1 }` mutations of the part-2 loop of `derangements_range`). -/
def bump (k : Nat) (l : List Nat) : List Nat :=
  l.map (fun x => if k ≤ x then x + 1 else x)

/-- Inverse of `bump` on lists avoiding the value `k`. -/
def unbump (k : Nat) (l : List Nat) : List Nat :=
  l.map (fun x => if k < x then x - 1 else x)

/-- `w` is a derangement of `{0, …, n-1}`: a permutation of `0..n` with no position
holding its own index. -/
def IsRangeDerangement (n : Nat) (w : List Nat) : Prop :=
  w ~ List.range n ∧ ∀ i : Nat, w[i]? ≠ some i

/-- State of `DerangementsRangeIterator` (src/derangements_range.rs, lines 140-148);
an inductive type because the struct holds a boxed iterator of its own type. -/
inductive DRI : Type where
  | mk (lag1Done : Bool) (lag : Option DRI) (isInit : Bool) (n : Nat)
      (currLag : List Nat) (count : Nat) : DRI
  deriving Repr

def DRI.lag1Done : DRI → Bool | .mk a _ _ _ _ _ => a
def DRI.lag : DRI → Option DRI | .mk _ a _ _ _ _ => a
def DRI.isInit : DRI → Bool | .mk _ _ a _ _ _ => a
def DRI.n : DRI → Nat | .mk _ _ _ a _ _ => a
def DRI.currLag : DRI → List Nat | .mk _ _ _ _ a _ => a
def DRI.count : DRI → Nat | .mk _ _ _ _ _ a => a

/-- `derangements_by_range` (src/derangements_range.rs, lines 150-159). -/
def derangementsByRange (n : Nat) : DRI :=
  .mk false none true n [] (n - 1)

/-- `Vec::swap` on two in-bounds positions. -/
def listSwap (l : List α) (d : α) (a b : Nat) : List α :=
  (l.set a (l.getD b d)).set b (l.getD a d)

/-- The generation tail of `DerangementsRangeIterator::next`
(src/derangements_range.rs, lines 207-229): build the emitted derangement from the
current lagged derangement, depending on the phase (lag 1 vs lag 2). -/
def driGen (n : Nat) (lag1Done : Bool) (lag : Option DRI) (currLag : List Nat)
    (count : Nat) : Option (Option (List Nat) × DRI) :=
  if lag1Done = false then
    -- Part 1: swap the new element with each element of the lagged derangement
    let new := listSwap (currLag ++ [n - 1]) 0 count (n - 1)
    some (some new, .mk lag1Done lag false n currLag (count + 1))
  else if count = 0 then
    some (some (currLag ++ [n - 1, n - 2]), .mk lag1Done lag false n currLag 1)
  else
    -- Part 2: insert the new element where it makes the lagged vec deranged
    let i := n - 2 - count
    match currLag.findIdx? (fun x => x == i) with
    | none => none  -- `find_position(..).unwrap()` would panic
    | some j =>
      let bumped := currLag.set j (currLag.getD j 0 + 1)
      let new := (bumped.insertIdx i (n - 1)) ++ [i]
      some (some new, .mk lag1Done lag false n bumped (count + 1))

/-- `DerangementsRangeIterator::next` (src/derangements_range.rs, lines 161-231).
Fuel bounds the recursive `next` calls on the inner boxed iterator; `none` means
the fuel ran out or an `unwrap` panicked (neither happens on the runs used here). -/
def driNext : Nat → DRI → Option (Option (List Nat) × DRI)
  | 0, _ => none
  | fuel + 1, .mk lag1Done lag isInit n currLag count =>
    match n with
    | 0 =>
      if lag1Done then some (none, .mk lag1Done lag isInit n currLag count)
      else some (some [], .mk true lag isInit n currLag count)
    | 1 => some (none, .mk lag1Done lag isInit n currLag count)
    | _ + 2 =>
      -- first iteration: install the inner iterator for one lag lower
      let lag := if isInit then some (derangementsByRange (n - 1)) else lag
      if count = n - 1 then
        match lag with
        | none => none  -- `as_mut().unwrap()` on `None` would panic (unreachable)
        | some inner =>
          match driNext fuel inner with
          | none => none
          | some (some x, inner1) => driGen n lag1Done (some inner1) x 0
          | some (none, inner1) =>
            if lag1Done then
              some (none, .mk lag1Done (some inner1) false n currLag 0)
            else
              match driNext fuel (derangementsByRange (n - 2)) with
              | none => none
              | some (none, inner2) =>
                some (none, .mk true (some inner2) false n currLag 0)
              | some (some x, inner2) => driGen n true (some inner2) x 0
      else
        driGen n lag1Done lag currLag count

/-- Drive `driNext`, collecting emissions. -/
def driRunF : Nat → DRI → List (List Nat)
  | 0, _ => []
  | fuel + 1, s =>
    match driNext (fuel + 1) s with
    | none => []
    | some (none, _) => []
    | some (some x, s1) => x :: driRunF fuel s1

/-- Bounds-checked version of `FastPermutations::next`: every buffer/values index and
the `values[0..k]` slice of the Rust code is performed through a fallible lookup
(mirroring the short-circuit evaluation order), and `none` models a panic. -/
def fpNextChecked [LinearOrder α] (s : FastPermutations α) :
    Option (Option (List α) × FastPermutations α) :=
  if s.start then
    if s.k ≤ s.values.length then
      some (some (s.values.take s.k), { s with start := false })
    else none
  else
    (if s.index + 2 < s.buffer.length then some false
     else if s.buffer.length ≤ s.index + 1 then some true
     else
       (s.buffer[0]?).bind fun b0 =>
       (s.buffer[s.index + 1]?).map fun bi1 => decide (b0 ≤ bi1)).bind fun exhausted =>
    if exhausted then some (none, s)
    else
      (if s.index + 2 < s.buffer.length then
         (s.buffer[s.index + 2]?).bind fun b2 =>
         (s.buffer[s.index]?).map fun bi =>
           if b2 ≤ bi then s.index + 2 else s.index + 1
       else some (s.index + 1)).bind fun shiftIndex =>
      (s.buffer[shiftIndex]?).bind fun shiftElem =>
      (s.values[shiftIndex]?).bind fun shiftVal =>
      let buffer := shiftElem :: (s.buffer.take shiftIndex ++ s.buffer.drop (shiftIndex + 1))
      let values := shiftVal :: (s.values.take shiftIndex ++ s.values.drop (shiftIndex + 1))
      (buffer[0]?).bind fun b0 =>
      (buffer[1]?).bind fun b1 =>
      let index := if b0 < b1 then 0 else s.index + 1
      if s.k ≤ values.length then
        some (some (values.take s.k),
          { s with buffer := buffer, values := values, index := index })
      else none

/-- The invariant under which `FastPermutations::next` never panics. -/
def fpInv [LinearOrder α] (s : FastPermutations α) : Prop :=
  s.buffer.length = s.values.length ∧ s.k ≤ s.values.length

/-! ### The word-level view of the prefix-shift machine

`FastPermutations::next`, `DistinctPermutations::next` and the stepping part of
`DistinctDerangements::next` all run one common loopless prefix-shift algorithm on a
buffer; on every state the machine actually reaches, the stored `index` is a function
of the buffer alone (`widx` below, proved in the invariant lemmas).  The following
definitions express one machine step as a function of the word, which is the form in
which the enumeration theorems are proved. -/

/-- A word is non-increasing. -/
def NonIncr [LinearOrder α] (w : List α) : Prop := List.Chain' (· ≥ ·) w

instance [LinearOrder α] (w : List α) : Decidable (NonIncr w) := by
  unfold NonIncr
  infer_instance

/-- Length of the maximal non-increasing prefix of a word. -/
def nplen [LinearOrder α] : List α → Nat
  | [] => 0
  | [_] => 1
  | a :: b :: t => if b ≤ a then nplen (b :: t) + 1 else 1

/-- The `index` field held by the machine at a reachable state with buffer `w`. -/
def widx [LinearOrder α] (w : List α) : Nat := min (nplen w) (w.length - 1) - 1

/-- The shift position chosen by one machine step on buffer `w` (the `shift_index`
of the Rust code), with `d` the out-of-bounds default. -/
def wshift [LinearOrder α] (d : α) (w : List α) : Nat :=
  if widx w + 2 < w.length ∧ w.getD (widx w + 2) d ≤ w.getD (widx w) d then widx w + 2
  else widx w + 1

/-- One machine step on the buffer: the prefix shift at the chosen position. -/
def wsucc [LinearOrder α] (d : α) (w : List α) : List α := shiftToFront w d (wshift d w)

/-- The exhaustion test of the machine on buffer `w`. -/
def whalt [LinearOrder α] (d : α) (w : List α) : Prop :=
  ¬ widx w + 2 < w.length ∧
    (w.length ≤ widx w + 1 ∨ w.getD 0 d ≤ w.getD (widx w + 1) d)

instance [LinearOrder α] (d : α) (w : List α) : Decidable (whalt d w) := by
  unfold whalt
  infer_instance

/-- A maximal run of the word machine: consecutive entries are `wsucc` steps, no
entry but the last is exhausted, and the last entry is exhausted. -/
def StepChain [LinearOrder α] (d : α) : List (List α) → Prop
  | [] => True
  | [w] => whalt d w
  | w :: w2 :: t => (¬ whalt d w ∧ wsucc d w = w2) ∧ StepChain d (w2 :: t)

/-- Run the word machine from `w` with the given fuel, collecting the visited words
(including `w` itself). -/
def wrunF [LinearOrder α] (d : α) : Nat → List α → List (List α)
  | 0, w => [w]
  | fuel + 1, w => w :: (if whalt d w then [] else wrunF d fuel (wsucc d w))

/-- The number of distinct permutations of a multiset is `length! / ∏ multiplicity!`;
this is the product of the multiplicity factorials, the number of times the generic
generator emits each distinct full-length permutation. -/
def multProd [DecidableEq α] (l : List α) : Nat :=
  (l.dedup.map (fun c => (l.count c).factorial)).prod

/-- The words reached by the machine from the suffix `S` of the parent orbit: each
parent word with the minimum appended, and for each parent word whose first
`n-2` letters are non-increasing and whose last letter `y` is not the minimum, all
arrangements of the multiset minus `y` with `y` appended. -/
def innerChar [LinearOrder α] (d : α) (E : List α) (m : α) (S : List (List α))
    (w : List α) : Prop :=
  (∃ u ∈ S, w = u ++ [m]) ∨
    (∃ u ∈ S, NonIncr u.dropLast ∧ u.getLastD d ≠ m ∧
      w.getLastD d = u.getLastD d ∧ w.dropLast ~ E.erase (u.getLastD d))

/-- State of the `RestrictedPermutations` adaptor
(src/restricted_permutations.rs, lines 32-35): the generic generator plus the
per-position restriction vector. -/
structure RestrictedPermutations (α : Type) where
  permutations : FastPermutations α
  restrict : List α
  deriving Repr, DecidableEq

/-- `restricted_permutations` constructor (src/restricted_permutations.rs,
lines 81-91). -/
def restricted_permutations [LinearOrder α] (vals : List α) (k : Nat)
    (restrict : List α) : RestrictedPermutations α :=
  ⟨fastPermutations vals k, restrict⟩

/-- `restricted_permutations_by_self` constructor (src/restricted_permutations.rs,
lines 120-132): the input itself is the restriction vector. -/
def restricted_permutations_by_self [LinearOrder α] (vals : List α) (k : Nat) :
    RestrictedPermutations α :=
  ⟨fastPermutations vals k, vals⟩

/-- The rejection predicate of `RestrictedPermutations::next`
(src/restricted_permutations.rs, lines 140-153):
`x.iter().enumerate().any(|x| self.restrict[x.0] == *x.1)`. The Rust index
`self.restrict[x.0]` panics when `x.0 ≥ restrict.len()`; the model's `getElem?`
test is `false` there instead (the adaptor is constructed with a restriction
vector covering every emitted position, and the fusedness property concerns only
the exhaustion branch, which does not evaluate this predicate). -/
def rpReject [BEq α] (restrict : List α) (x : List α) : Bool :=
  x.enum.any (fun p => (restrict[p.1]?).any (fun r => r == p.2))

/-- State of the `RestrictedPermutationsByMapIndex` adaptor
(src/restricted_permutations.rs, lines 161-166); the `HashMap<usize, Vec<Item>>`
is modelled as a partial function from positions to forbidden values. -/
structure RestrictedPermutationsByMapIndex (α : Type) where
  permutations : FastPermutations α
  restrict : Nat → Option (List α)

/-- `restricted_permutations_by_map_index` constructor
(src/restricted_permutations.rs, lines 207-221). -/
def restricted_permutations_by_map_index [LinearOrder α] (vals : List α) (k : Nat)
    (restrict : Nat → Option (List α)) : RestrictedPermutationsByMapIndex α :=
  ⟨fastPermutations vals k, restrict⟩

/-- The rejection predicate of `RestrictedPermutationsByMapIndex::next`
(src/restricted_permutations.rs, lines 229-248): a position is flagged when the
map has an entry for it (`contains_key`) containing the value placed there. -/
def rpmiReject [BEq α] (restrict : Nat → Option (List α)) (x : List α) : Bool :=
  x.enum.any (fun p =>
    match restrict p.1 with
    | some vs => vs.contains p.2
    | none => false)

/-- State of the `RestrictedPermutationsByMapValue` adaptor
(src/restricted_permutations.rs, lines 256-259); the `HashMap<Item, Vec<usize>>`
is modelled as a partial function from values to forbidden positions. -/
structure RestrictedPermutationsByMapValue (α : Type) where
  permutations : FastPermutations α
  restrict : α → Option (List Nat)

/-- `restricted_permutations_by_map_value` constructor
(src/restricted_permutations.rs, lines 302-316). -/
def restricted_permutations_by_map_value [LinearOrder α] (vals : List α) (k : Nat)
    (restrict : α → Option (List Nat)) : RestrictedPermutationsByMapValue α :=
  ⟨fastPermutations vals k, restrict⟩

/-- The rejection predicate of `RestrictedPermutationsByMapValue::next`
(src/restricted_permutations.rs, lines 324-343): a position is flagged when the
map has an entry for the value placed there containing that position. -/
def rpmvReject (restrict : α → Option (List Nat)) (x : List α) : Bool :=
  x.enum.any (fun p =>
    match restrict p.2 with
    | some idxs => idxs.contains p.1
    | none => false)

/-- The shared body of the three `RestrictedPermutations*::next` implementations
(src/restricted_permutations.rs, lines 140-153, 229-248 and 324-343), which differ
only in the rejection predicate: forward the inner generator (whose state advances
even on the exhaustion branch), return its exhaustion signal unchanged, emit an
unrejected arrangement, and retry (the tail call `self.next()`) on a rejected one;
the retry is driven by explicit fuel and `none` means the fuel ran out. -/
def restrictedNextF [LinearOrder α] [Inhabited α] (reject : List α → Bool) :
    Nat → FastPermutations α → Option (Option (List α) × FastPermutations α)
  | 0, _ => none
  | fuel + 1, p =>
    match fpNext p with
    | (none, p1) => some (none, p1)
    | (some x, p1) =>
      if reject x = false then some (some x, p1)
      else restrictedNextF reject fuel p1

/-- `RestrictedPermutations::next` (src/restricted_permutations.rs, lines 140-153). -/
def rpNextF [LinearOrder α] [Inhabited α] [BEq α] (fuel : Nat)
    (s : RestrictedPermutations α) :
    Option (Option (List α) × RestrictedPermutations α) :=
  (restrictedNextF (rpReject s.restrict) fuel s.permutations).map
    (fun q => (q.1, { s with permutations := q.2 }))

/-- `RestrictedPermutationsByMapIndex::next` (src/restricted_permutations.rs,
lines 229-248). -/
def rpmiNextF [LinearOrder α] [Inhabited α] [BEq α] (fuel : Nat)
    (s : RestrictedPermutationsByMapIndex α) :
    Option (Option (List α) × RestrictedPermutationsByMapIndex α) :=
  (restrictedNextF (rpmiReject s.restrict) fuel s.permutations).map
    (fun q => (q.1, { s with permutations := q.2 }))

/-- `RestrictedPermutationsByMapValue::next` (src/restricted_permutations.rs,
lines 324-343). -/
def rpmvNextF [LinearOrder α] [Inhabited α] (fuel : Nat)
    (s : RestrictedPermutationsByMapValue α) :
    Option (Option (List α) × RestrictedPermutationsByMapValue α) :=
  (restrictedNextF (rpmvReject s.restrict) fuel s.permutations).map
    (fun q => (q.1, { s with permutations := q.2 }))

/-! ### Basic run lemmas -/

theorem fpRun_eq_cons [LinearOrder α] [Inhabited α] (fuel : Nat)
    {s s1 : FastPermutations α} {x : List α} (h : fpNext s = (some x, s1)) :
    fpRun (fuel + 1) s = x :: fpRun fuel s1 := by
  simp [fpRun, h]

theorem fpRun_eq_nil [LinearOrder α] [Inhabited α] (fuel : Nat)
    {s t : FastPermutations α} (h : fpNext s = (none, t)) :
    fpRun fuel s = [] := by
  cases fuel with
  | zero => rfl
  | succ f => simp [fpRun, h]

theorem dpRun_eq_cons [LinearOrder α] [Inhabited α] (fuel : Nat)
    {s s1 : DistinctPermutations α} {x : List α} (h : dpNext s = (some x, s1)) :
    dpRun (fuel + 1) s = x :: dpRun fuel s1 := by
  simp [dpRun, h]

theorem dpRun_eq_nil [LinearOrder α] [Inhabited α] (fuel : Nat)
    {s t : DistinctPermutations α} (h : dpNext s = (none, t)) :
    dpRun fuel s = [] := by
  cases fuel with
  | zero => rfl
  | succ f => simp [dpRun, h]

/-! ### Claim C2: the concrete run on `[0, 1, 1]` with `k = 3` -/

/-- Claim C2 (confirmed): for the input multiset `[0,1,1]` with `k = 3`, the generic
generator emits exactly `[0,1,1], [1,0,1], [0,1,1], [1,0,1], [1,1,0], [1,1,0]`, in that
order, and then signals exhaustion (any fuel of at least 6 yields the same sequence,
and the state reached after the sixth emission returns `none` forever). -/
theorem C2_fast_permutations_011_run :
    ∀ fuel : Nat,
      fpRun (fuel + 6) (fastPermutations [0, 1, 1] 3) =
        [[0, 1, 1], [1, 0, 1], [0, 1, 1], [1, 0, 1], [1, 1, 0], [1, 1, 0]] := by
  intro fuel
  have h0 : fpNext (fastPermutations [0, 1, 1] 3) =
      (some [0, 1, 1], ⟨[2, 1, 0], [0, 1, 1], false, 1, 3⟩) := by decide
  have h1 : fpNext (⟨[2, 1, 0], [0, 1, 1], false, 1, 3⟩ : FastPermutations Nat) =
      (some [1, 0, 1], ⟨[0, 2, 1], [1, 0, 1], false, 0, 3⟩) := by decide
  have h2 : fpNext (⟨[0, 2, 1], [1, 0, 1], false, 0, 3⟩ : FastPermutations Nat) =
      (some [0, 1, 1], ⟨[2, 0, 1], [0, 1, 1], false, 1, 3⟩) := by decide
  have h3 : fpNext (⟨[2, 0, 1], [0, 1, 1], false, 1, 3⟩ : FastPermutations Nat) =
      (some [1, 0, 1], ⟨[1, 2, 0], [1, 0, 1], false, 0, 3⟩) := by decide
  have h4 : fpNext (⟨[1, 2, 0], [1, 0, 1], false, 0, 3⟩ : FastPermutations Nat) =
      (some [1, 1, 0], ⟨[0, 1, 2], [1, 1, 0], false, 0, 3⟩) := by decide
  have h5 : fpNext (⟨[0, 1, 2], [1, 1, 0], false, 0, 3⟩ : FastPermutations Nat) =
      (some [1, 1, 0], ⟨[1, 0, 2], [1, 1, 0], false, 1, 3⟩) := by decide
  have h6 : fpNext (⟨[1, 0, 2], [1, 1, 0], false, 1, 3⟩ : FastPermutations Nat) =
      (none, ⟨[1, 0, 2], [1, 1, 0], false, 1, 3⟩) := by decide
  show fpRun ((fuel + 5) + 1) _ = _
  rw [fpRun_eq_cons _ h0]
  show _ :: fpRun ((fuel + 4) + 1) _ = _
  rw [fpRun_eq_cons _ h1]
  show _ :: _ :: fpRun ((fuel + 3) + 1) _ = _
  rw [fpRun_eq_cons _ h2]
  show _ :: _ :: _ :: fpRun ((fuel + 2) + 1) _ = _
  rw [fpRun_eq_cons _ h3]
  show _ :: _ :: _ :: _ :: fpRun ((fuel + 1) + 1) _ = _
  rw [fpRun_eq_cons _ h4]
  show _ :: _ :: _ :: _ :: _ :: fpRun (fuel + 1) _ = _
  rw [fpRun_eq_cons _ h5]
  rw [fpRun_eq_nil _ h6]

/-! ### Claim C5: the initial buffer ordering -/

/-- Claim C5 counterexample: for the generic generator on input `[0, 1]`, the values
buffer at construction is `[0, 1]` (sorted ascending), and the first emitted
arrangement is `[0, 1]`, which is not the input sorted descending (`[1, 0]`). -/
theorem C5_counterexample :
    (fastPermutations [0, 1] 2).values = [0, 1] ∧
      (fpNext (fastPermutations [0, 1] 2)).1 = some [0, 1] ∧
      ([0, 1] : List Nat) ≠ List.insertionSort (· ≥ ·) [0, 1] := by decide

/-- Claim C5 (corrected): at construction the generic generator's values buffer is the
input sorted ascending (its position buffer is `0..length` reversed), and the
ascending arrangement truncated to `k` is the first arrangement emitted; the distinct
specialization sorts its buffer descending and emits that descending arrangement
first. -/
theorem C5_initial_buffer_amended (α : Type) [LinearOrder α] [Inhabited α]
    (v : List α) (k : Nat) :
    (fastPermutations v k).values = v.insertionSort (· ≤ ·) ∧
      (fastPermutations v k).buffer = (List.range v.length).reverse ∧
      (fpNext (fastPermutations v k)).1 = some ((v.insertionSort (· ≤ ·)).take k) ∧
      (distinctPermutations v).buffer = v.insertionSort (· ≥ ·) ∧
      (dpNext (distinctPermutations v)).1 = some (v.insertionSort (· ≥ ·)) := by
  refine ⟨rfl, ?_, ?_, rfl, ?_⟩
  · simp [fastPermutations, List.length_insertionSort]
  · simp [fastPermutations, fpNext]
  · simp [distinctPermutations, dpNext]

/-! ### Claim C8: fusedness of the iterators -/

theorem fpNext_none_fused [LinearOrder α] [Inhabited α] {s t : FastPermutations α}
    (h : fpNext s = (none, t)) : fpNext t = (none, t) := by
  by_cases hs : s.start
  · rw [fpNext, if_pos hs] at h
    simp at h
  · rw [fpNext, if_neg hs] at h
    by_cases hc : ¬ s.index + 2 < s.buffer.length ∧
        (s.buffer.length ≤ s.index + 1 ∨
          s.buffer.getD 0 0 ≤ s.buffer.getD (s.index + 1) 0)
    · rw [if_pos hc] at h
      injection h with h1 h2
      subst h2
      rw [fpNext, if_neg hs, if_pos hc]
    · rw [if_neg hc] at h
      simp at h

theorem dpNext_none_fused [LinearOrder α] [Inhabited α] {s t : DistinctPermutations α}
    (h : dpNext s = (none, t)) : dpNext t = (none, t) := by
  by_cases hs : s.start
  · rw [dpNext, if_pos hs] at h
    simp at h
  · rw [dpNext, if_neg hs] at h
    by_cases hc : ¬ s.index + 2 < s.buffer.length ∧
        (s.buffer.length ≤ s.index + 1 ∨
          s.buffer.getD 0 default ≤ s.buffer.getD (s.index + 1) default)
    · rw [if_pos hc] at h
      injection h with h1 h2
      subst h2
      rw [dpNext, if_neg hs, if_pos hc]
    · rw [if_neg hc] at h
      simp at h

theorem diNext_none_fused (tryFrom : α → Option Nat) :
    ∀ {l rest : List (List α)}, diNext tryFrom l = (none, rest) →
      diNext tryFrom rest = (none, rest) := by
  intro l
  induction l with
  | nil =>
    intro rest h
    injection h with _ h2
    subst h2
    rfl
  | cons x l ih =>
    intro rest h
    rw [diNext] at h
    by_cases hr : derangeReject tryFrom x = false
    · rw [if_pos hr] at h
      simp at h
    · rw [if_neg hr] at h
      exact ih h

/-- If a `DistinctDerangements` call reports exhaustion, the state it leaves behind is
itself exhausted (start flag cleared, exhaustion condition true). -/
theorem ddNextF_none_inv :
    ∀ {fuel : Nat} {s t : DistinctDerangements}, ddNextF fuel s = some (none, t) →
      t.start = false ∧ ¬ t.index + 2 < t.buffer.length ∧
        (t.buffer.length ≤ t.index + 1 ∨
          t.buffer.getD 0 0 ≤ t.buffer.getD (t.index + 1) 0) := by
  intro fuel
  induction fuel with
  | zero => intro s t h; cases h
  | succ f ih =>
    intro s0 t h
    rw [ddNextF] at h
    set s : DistinctDerangements := if s0.start then { s0 with start := false } else s0 with hsdef
    have hstart : s.start = false := by
      rw [hsdef]
      by_cases h0 : s0.start
      · rw [if_pos h0]
      · rw [if_neg h0]
        simpa using h0
    by_cases h1 : s0.start = true ∧ ddReject s0.buffer = false
    · rw [if_pos h1] at h
      simp at h
    · rw [if_neg h1] at h
      by_cases h2 : ¬ s.index + 2 < s.buffer.length ∧
          (s.buffer.length ≤ s.index + 1 ∨
            s.buffer.getD 0 0 ≤ s.buffer.getD (s.index + 1) 0)
      · rw [if_pos h2] at h
        injection h with h3
        injection h3 with _ h4
        subst h4
        exact ⟨hstart, h2⟩
      · rw [if_neg h2] at h
        by_cases h3 : ddReject (shiftToFront s.buffer 0
            (if s.index + 2 < s.buffer.length ∧
                s.buffer.getD (s.index + 2) 0 ≤ s.buffer.getD s.index 0 then
              s.index + 2
            else s.index + 1)) = false
        · rw [if_pos h3] at h
          simp at h
        · rw [if_neg h3] at h
          exact ih h

theorem ddNextF_none_fused {fuel : Nat} {s t : DistinctDerangements}
    (h : ddNextF fuel s = some (none, t)) :
    ∀ g : Nat, ddNextF (g + 1) t = some (none, t) := by
  obtain ⟨hstart, hc⟩ := ddNextF_none_inv h
  intro g
  rw [ddNextF]
  have hs : (if t.start then { t with start := false } else t) = t := by
    rw [hstart]
    simp
  rw [hs]
  rw [if_neg (by simp [hstart]), if_pos hc]

theorem restrictedNextF_none_inv [LinearOrder α] [Inhabited α]
    {reject : List α → Bool} :
    ∀ {fuel : Nat} {p p1 : FastPermutations α},
      restrictedNextF reject fuel p = some (none, p1) → fpNext p1 = (none, p1) := by
  intro fuel
  induction fuel with
  | zero =>
      intro p p1 h
      cases h
  | succ f ih =>
      intro p p1 h
      rw [restrictedNextF] at h
      cases hfp : fpNext p with
      | mk ox q =>
        rw [hfp] at h
        cases ox with
        | none =>
            have h2 : (some (none, q) :
                Option (Option (List α) × FastPermutations α)) = some (none, p1) := h
            injection h2 with h3
            injection h3 with _ h4
            subst h4
            exact fpNext_none_fused hfp
        | some x =>
            have h2 : (if reject x = false then some (some x, q)
                else restrictedNextF reject f q) = some (none, p1) := h
            by_cases hr : reject x = false
            · rw [if_pos hr] at h2
              simp at h2
            · rw [if_neg hr] at h2
              exact ih h2

theorem restrictedNextF_none_fused [LinearOrder α] [Inhabited α]
    {reject : List α → Bool} {fuel : Nat} {p p1 : FastPermutations α}
    (h : restrictedNextF reject fuel p = some (none, p1)) (g : Nat) :
    restrictedNextF reject (g + 1) p1 = some (none, p1) := by
  have hfp := restrictedNextF_none_inv h
  rw [restrictedNextF, hfp]

theorem rpNextF_none_fused [LinearOrder α] [Inhabited α] [BEq α] {fuel : Nat}
    {s t : RestrictedPermutations α} (h : rpNextF fuel s = some (none, t))
    (g : Nat) : rpNextF (g + 1) t = some (none, t) := by
  rw [rpNextF] at h
  cases ho : restrictedNextF (rpReject s.restrict) fuel s.permutations with
  | none =>
      rw [ho] at h
      simp at h
  | some q =>
      rw [ho] at h
      obtain ⟨q1, q2⟩ := q
      have h2 : (some (q1, { s with permutations := q2 }) :
          Option (Option (List α) × RestrictedPermutations α)) = some (none, t) := h
      injection h2 with h3
      injection h3 with h4 h5
      subst h4
      subst h5
      have hfused := restrictedNextF_none_fused ho g
      rw [rpNextF]
      dsimp only
      rw [hfused]
      rfl

theorem rpmiNextF_none_fused [LinearOrder α] [Inhabited α] [BEq α] {fuel : Nat}
    {s t : RestrictedPermutationsByMapIndex α}
    (h : rpmiNextF fuel s = some (none, t)) (g : Nat) :
    rpmiNextF (g + 1) t = some (none, t) := by
  rw [rpmiNextF] at h
  cases ho : restrictedNextF (rpmiReject s.restrict) fuel s.permutations with
  | none =>
      rw [ho] at h
      simp at h
  | some q =>
      rw [ho] at h
      obtain ⟨q1, q2⟩ := q
      have h2 : (some (q1, { s with permutations := q2 }) :
          Option (Option (List α) × RestrictedPermutationsByMapIndex α)) =
        some (none, t) := h
      injection h2 with h3
      injection h3 with h4 h5
      subst h4
      subst h5
      have hfused := restrictedNextF_none_fused ho g
      rw [rpmiNextF]
      dsimp only
      rw [hfused]
      rfl

theorem rpmvNextF_none_fused [LinearOrder α] [Inhabited α] {fuel : Nat}
    {s t : RestrictedPermutationsByMapValue α}
    (h : rpmvNextF fuel s = some (none, t)) (g : Nat) :
    rpmvNextF (g + 1) t = some (none, t) := by
  rw [rpmvNextF] at h
  cases ho : restrictedNextF (rpmvReject s.restrict) fuel s.permutations with
  | none =>
      rw [ho] at h
      simp at h
  | some q =>
      rw [ho] at h
      obtain ⟨q1, q2⟩ := q
      have h2 : (some (q1, { s with permutations := q2 }) :
          Option (Option (List α) × RestrictedPermutationsByMapValue α)) =
        some (none, t) := h
      injection h2 with h3
      injection h3 with h4 h5
      subst h4
      subst h5
      have hfused := restrictedNextF_none_fused ho g
      rw [rpmvNextF]
      dsimp only
      rw [hfused]
      rfl

/-- Claim C8 counterexample: the streaming range-derangement iterator is not fused:
for `n = 2`, the second produce-next call signals exhaustion, yet the third call
emits `[1, 0]` again. -/
theorem C8_counterexample :
    (((driNext 10 (derangementsByRange 2)).bind fun p => driNext 10 p.2).map
        Prod.fst = some none) ∧
      ((((driNext 10 (derangementsByRange 2)).bind fun p => driNext 10 p.2).bind
          fun p => driNext 10 p.2).map Prod.fst = some (some [1, 0])) := by
  decide

/-- Claim C8 (corrected): once a produce-next call signals exhaustion, the generic
generator, the index-derangement filter layer, the restriction filter layers
(`restricted_permutations` / `restricted_permutations_by_self`,
`restricted_permutations_by_map_index`, `restricted_permutations_by_map_value`)
and the distinct permutation and distinct derangement specializations never emit
again (their post-exhaustion state signals exhaustion forever); the streaming
range-derangement iterator, however, does not satisfy this (see the counterexample
at `n = 2`). -/
theorem C8_fused_amended :
    (∀ (α : Type) [LinearOrder α] [Inhabited α] (s t : FastPermutations α),
        fpNext s = (none, t) → fpNext t = (none, t)) ∧
      (∀ (α : Type) [LinearOrder α] [Inhabited α] (s t : DistinctPermutations α),
        dpNext s = (none, t) → dpNext t = (none, t)) ∧
      (∀ (α : Type) (tryFrom : α → Option Nat) (l rest : List (List α)),
        diNext tryFrom l = (none, rest) → diNext tryFrom rest = (none, rest)) ∧
      (∀ (α : Type) [LinearOrder α] [Inhabited α] [BEq α] (fuel : Nat)
        (s t : RestrictedPermutations α),
        rpNextF fuel s = some (none, t) →
          ∀ g : Nat, rpNextF (g + 1) t = some (none, t)) ∧
      (∀ (α : Type) [LinearOrder α] [Inhabited α] [BEq α] (fuel : Nat)
        (s t : RestrictedPermutationsByMapIndex α),
        rpmiNextF fuel s = some (none, t) →
          ∀ g : Nat, rpmiNextF (g + 1) t = some (none, t)) ∧
      (∀ (α : Type) [LinearOrder α] [Inhabited α] (fuel : Nat)
        (s t : RestrictedPermutationsByMapValue α),
        rpmvNextF fuel s = some (none, t) →
          ∀ g : Nat, rpmvNextF (g + 1) t = some (none, t)) ∧
      (∀ (fuel : Nat) (s t : DistinctDerangements),
        ddNextF fuel s = some (none, t) → ∀ g : Nat, ddNextF (g + 1) t = some (none, t)) :=
  ⟨fun _ _ _ _ _ h => fpNext_none_fused h,
    fun _ _ _ _ _ h => dpNext_none_fused h,
    fun _ tryFrom _ _ h => diNext_none_fused tryFrom h,
    fun _ _ _ _ _ _ _ h g => rpNextF_none_fused h g,
    fun _ _ _ _ _ _ _ h g => rpmiNextF_none_fused h g,
    fun _ _ _ _ _ _ h g => rpmvNextF_none_fused h g,
    fun _ _ _ h => ddNextF_none_fused h⟩

/-- Witness for C8: the fused statements applied at concrete exhausted states of
every layer. -/
theorem C8_fused_witness :
    fpNext (⟨[0], [0], false, 0, 1⟩ : FastPermutations Nat) =
        (none, ⟨[0], [0], false, 0, 1⟩) ∧
      dpNext (⟨[0], false, 0⟩ : DistinctPermutations Nat) = (none, ⟨[0], false, 0⟩) ∧
      diNext natTryFrom ([] : List (List Nat)) = (none, []) ∧
      rpNextF 1 (⟨⟨[0], [0], false, 0, 1⟩, [0]⟩ : RestrictedPermutations Nat) =
        some (none, ⟨⟨[0], [0], false, 0, 1⟩, [0]⟩) ∧
      rpmiNextF 1 (⟨⟨[0], [0], false, 0, 1⟩, fun _ => none⟩ :
          RestrictedPermutationsByMapIndex Nat) =
        some (none, ⟨⟨[0], [0], false, 0, 1⟩, fun _ => none⟩) ∧
      rpmvNextF 1 (⟨⟨[0], [0], false, 0, 1⟩, fun _ => none⟩ :
          RestrictedPermutationsByMapValue Nat) =
        some (none, ⟨⟨[0], [0], false, 0, 1⟩, fun _ => none⟩) ∧
      ddNextF 5 ⟨[0, 1], false, 0⟩ = some (none, ⟨[0, 1], false, 0⟩) :=
  ⟨C8_fused_amended.1 Nat ⟨[0], [0], false, 0, 1⟩ ⟨[0], [0], false, 0, 1⟩ (by decide),
    C8_fused_amended.2.1 Nat ⟨[0], false, 0⟩ ⟨[0], false, 0⟩ (by decide),
    C8_fused_amended.2.2.1 Nat natTryFrom [[0]] [] (by decide),
    C8_fused_amended.2.2.2.1 Nat 1 ⟨⟨[0], [0], false, 0, 1⟩, [0]⟩
      ⟨⟨[0], [0], false, 0, 1⟩, [0]⟩ (by decide) 0,
    C8_fused_amended.2.2.2.2.1 Nat 1 ⟨⟨[0], [0], false, 0, 1⟩, fun _ => none⟩
      ⟨⟨[0], [0], false, 0, 1⟩, fun _ => none⟩ rfl 0,
    C8_fused_amended.2.2.2.2.2.1 Nat 1 ⟨⟨[0], [0], false, 0, 1⟩, fun _ => none⟩
      ⟨⟨[0], [0], false, 0, 1⟩, fun _ => none⟩ rfl 0,
    C8_fused_amended.2.2.2.2.2.2 1 ⟨[0, 1], false, 0⟩ ⟨[0, 1], false, 0⟩ (by decide) 4⟩

/-! ### Claim C9: semantics of the index-derangement filter -/

/-- Claim C9 (confirmed): in index-based derangement filtering (`derangements`,
`derangements_iter`), the filter rejects an arrangement iff some position `i` holds a
value whose successful index-conversion equals `i`.  A value whose conversion fails is
mapped to the sentinel `usize::MAX`, which can never equal a valid position (positions
are below the length, which is at most `usize::MAX`), so non-convertible values are
never excluded and no error is raised. -/
theorem C9_reject_iff (α : Type) (tryFrom : α → Option Nat) (x : List α)
    (h : x.length ≤ usizeMax) :
    derangeReject tryFrom x = true ↔ ∃ i v, x[i]? = some v ∧ tryFrom v = some i := by
  constructor
  · intro hr
    rw [derangeReject, List.any_eq_true] at hr
    obtain ⟨⟨i, v⟩, hmem, hpred⟩ := hr
    rw [List.mk_mem_enum_iff_getElem?] at hmem
    rw [beq_iff_eq] at hpred
    obtain ⟨hi, -⟩ := List.getElem?_eq_some.mp hmem
    cases hc : tryFrom v with
    | none =>
      rw [hc] at hpred
      simp only [Option.getD_none] at hpred
      exact absurd hpred (by omega)
    | some j =>
      rw [hc] at hpred
      simp only [Option.getD_some] at hpred
      subst hpred
      exact ⟨i, v, hmem, hc⟩
  · rintro ⟨i, v, hg, hc⟩
    rw [derangeReject, List.any_eq_true]
    refine ⟨(i, v), ?_, ?_⟩
    · rw [List.mk_mem_enum_iff_getElem?]
      exact hg
    · rw [beq_iff_eq, hc]
      rfl

/-- Witness for C9 at the concrete input `[-1, 1]` (the `-1` is not convertible to a
position index; position 1 holds value 1, so the arrangement is rejected). -/
theorem C9_reject_iff_witness :
    derangeReject intTryFrom [-1, 1] = true ↔
      ∃ i v, ([(-1 : Int), 1])[i]? = some v ∧ intTryFrom v = some i :=
  C9_reject_iff Int intTryFrom [-1, 1] (by decide)

/-! ### Claim C10: no panic is reachable when `k ≤ n` -/

theorem shiftToFront_length (l : List α) (d : α) {s : Nat} (hs : s < l.length) :
    (shiftToFront l d s).length = l.length := by
  simp only [shiftToFront, List.length_cons, List.length_append, List.length_take,
    List.length_drop]
  omega

theorem fpShiftIndex_lt [LinearOrder α] {s : FastPermutations α}
    (hc : ¬ (¬ s.index + 2 < s.buffer.length ∧
      (s.buffer.length ≤ s.index + 1 ∨
        s.buffer.getD 0 0 ≤ s.buffer.getD (s.index + 1) 0))) :
    (if s.index + 2 < s.buffer.length ∧
        s.buffer.getD (s.index + 2) 0 ≤ s.buffer.getD s.index 0 then
      s.index + 2 else s.index + 1) < s.buffer.length := by
  by_cases h2 : s.index + 2 < s.buffer.length
  · split <;> omega
  · have hb : ¬ s.buffer.length ≤ s.index + 1 := fun hl => hc ⟨h2, Or.inl hl⟩
    rw [if_neg (fun hcontra => h2 hcontra.1)]
    omega

theorem fpNext_preserves_inv [LinearOrder α] [Inhabited α] {s : FastPermutations α}
    (h : fpInv s) : fpInv (fpNext s).2 := by
  obtain ⟨hlen, hk⟩ := h
  rw [fpNext]
  by_cases hs : s.start
  · rw [if_pos hs]
    exact ⟨hlen, hk⟩
  · rw [if_neg hs]
    by_cases hc : ¬ s.index + 2 < s.buffer.length ∧
        (s.buffer.length ≤ s.index + 1 ∨
          s.buffer.getD 0 0 ≤ s.buffer.getD (s.index + 1) 0)
    · rw [if_pos hc]
      exact ⟨hlen, hk⟩
    · rw [if_neg hc]
      have hsi := fpShiftIndex_lt hc
      refine ⟨?_, ?_⟩
      · show (shiftToFront s.buffer 0 _).length = (shiftToFront s.values default _).length
        rw [shiftToFront_length _ _ hsi, shiftToFront_length _ _ (by omega)]
        exact hlen
      · show s.k ≤ (shiftToFront s.values default _).length
        rw [shiftToFront_length _ _ (by omega)]
        exact hk

theorem fpNextChecked_eq [LinearOrder α] [Inhabited α] {s : FastPermutations α}
    (h : fpInv s) : fpNextChecked s = some (fpNext s) := by
  obtain ⟨hlen, hk⟩ := h
  rw [fpNextChecked, fpNext]
  by_cases hs : s.start
  · rw [if_pos hs, if_pos hs, if_pos hk]
  · rw [if_neg hs, if_neg hs]
    by_cases hc : ¬ s.index + 2 < s.buffer.length ∧
        (s.buffer.length ≤ s.index + 1 ∨
          s.buffer.getD 0 0 ≤ s.buffer.getD (s.index + 1) 0)
    · -- exhausted: the checked test also evaluates to `true`
      rw [if_pos hc]
      obtain ⟨h2, hor⟩ := hc
      rw [if_neg h2]
      by_cases hle : s.buffer.length ≤ s.index + 1
      · rw [if_pos hle]
        rfl
      · rw [if_neg hle]
        have hcmp : s.buffer.getD 0 0 ≤ s.buffer.getD (s.index + 1) 0 :=
          hor.resolve_left hle
        have h0 : 0 < s.buffer.length := by omega
        have h1 : s.index + 1 < s.buffer.length := by omega
        rw [List.getElem?_eq_getElem h0, List.getElem?_eq_getElem h1]
        show (if (decide _) = true then _ else _) = _
        rw [if_pos (by
          rw [decide_eq_true_iff]
          rw [List.getD_eq_getElem _ _ h0, List.getD_eq_getElem _ _ h1] at hcmp
          exact hcmp)]
    · -- not exhausted: the checked path succeeds and agrees with `fpNext`
      rw [if_neg hc]
      have hsi := fpShiftIndex_lt hc
      have hsi1 : 1 ≤ (if s.index + 2 < s.buffer.length ∧
          s.buffer.getD (s.index + 2) 0 ≤ s.buffer.getD s.index 0 then
            s.index + 2 else s.index + 1) := by
        split <;> omega
      -- first: the checked exhaustion test returns `false`
      have hE : (if s.index + 2 < s.buffer.length then some false
          else if s.buffer.length ≤ s.index + 1 then some true
          else
            (s.buffer[0]?).bind fun b0 =>
            (s.buffer[s.index + 1]?).map fun bi1 => decide (b0 ≤ bi1)) = some false := by
        by_cases h2 : s.index + 2 < s.buffer.length
        · rw [if_pos h2]
        · have hb : ¬ s.buffer.length ≤ s.index + 1 := fun hl => hc ⟨h2, Or.inl hl⟩
          rw [if_neg h2, if_neg hb]
          have h0 : 0 < s.buffer.length := by omega
          have h1 : s.index + 1 < s.buffer.length := by omega
          rw [List.getElem?_eq_getElem h0, List.getElem?_eq_getElem h1]
          show some (decide _) = some false
          rw [decide_eq_false]
          intro hcmp
          exact hc ⟨h2, Or.inr (by
            rw [List.getD_eq_getElem _ _ h0, List.getD_eq_getElem _ _ h1]
            exact hcmp)⟩
      rw [hE, Option.some_bind, if_neg (show ¬(false = true) by simp)]
      -- second: the checked shift-index computation agrees
      have hSI : (if s.index + 2 < s.buffer.length then
            (s.buffer[s.index + 2]?).bind fun b2 =>
            (s.buffer[s.index]?).map fun bi =>
              if b2 ≤ bi then s.index + 2 else s.index + 1
          else some (s.index + 1)) =
          some (if s.index + 2 < s.buffer.length ∧
              s.buffer.getD (s.index + 2) 0 ≤ s.buffer.getD s.index 0 then
            s.index + 2 else s.index + 1) := by
        by_cases h2 : s.index + 2 < s.buffer.length
        · rw [if_pos h2]
          have hi : s.index < s.buffer.length := by omega
          rw [List.getElem?_eq_getElem h2, List.getElem?_eq_getElem hi]
          simp only [Option.some_bind, Option.map_some]
          rw [List.getD_eq_getElem _ _ h2, List.getD_eq_getElem _ _ hi]
          by_cases hcmp : s.buffer[s.index + 2] ≤ s.buffer[s.index]
          · simp [hcmp, h2]
          · simp [hcmp]
        · rw [if_neg h2, if_neg (fun hcon => h2 hcon.1)]
      rw [hSI, Option.some_bind]
      have hsiv : (if s.index + 2 < s.buffer.length ∧
          s.buffer.getD (s.index + 2) 0 ≤ s.buffer.getD s.index 0 then
            s.index + 2 else s.index + 1) < s.values.length := by omega
      set SI := (if s.index + 2 < s.buffer.length ∧
          s.buffer.getD (s.index + 2) 0 ≤ s.buffer.getD s.index 0 then
        s.index + 2 else s.index + 1) with hSIdef
      have hbufeq : shiftToFront s.buffer 0 SI =
          s.buffer[SI] :: (s.buffer.take SI ++ s.buffer.drop (SI + 1)) := by
        rw [shiftToFront, List.getD_eq_getElem _ _ hsi]
      have hvaleq : shiftToFront s.values default SI =
          s.values[SI] :: (s.values.take SI ++ s.values.drop (SI + 1)) := by
        rw [shiftToFront, List.getD_eq_getElem _ _ hsiv]
      have htail0 : 0 < (s.buffer.take SI ++ s.buffer.drop (SI + 1)).length := by
        simp only [List.length_append, List.length_take, List.length_drop]
        omega
      rw [List.getElem?_eq_getElem hsi, Option.some_bind,
        List.getElem?_eq_getElem hsiv, Option.some_bind]
      show ((s.buffer[SI] :: (s.buffer.take SI ++ s.buffer.drop (SI + 1)))[0]?).bind _ = _
      rw [List.getElem?_cons_zero, Option.some_bind]
      show ((s.buffer[SI] :: (s.buffer.take SI ++ s.buffer.drop (SI + 1)))[0+1]?).bind _ = _
      rw [List.getElem?_cons_succ, List.getElem?_eq_getElem htail0, Option.some_bind]
      have hklen : s.k ≤ (s.values[SI] :: (s.values.take SI ++ s.values.drop (SI + 1))).length := by
        simp only [List.length_cons, List.length_append, List.length_take, List.length_drop]
        omega
      show (if s.k ≤ _ then _ else _) = _
      rw [if_pos hklen]
      dsimp only
      rw [hbufeq, hvaleq]
      have hgd1 : (s.buffer[SI] :: (s.buffer.take SI ++ s.buffer.drop (SI + 1))).getD 1 0 =
          (s.buffer.take SI ++ s.buffer.drop (SI + 1))[0] := by
        show (s.buffer.take SI ++ s.buffer.drop (SI + 1)).getD 0 0 = _
        rw [List.getD_eq_getElem _ _ htail0]
      rw [hgd1, List.getD_cons_zero]

/-- Claim C10 (confirmed): for every input multiset and every `k ≤ length`, every
produce-next call of the generic generator, in every reachable state (any number of
prior calls, including after exhaustion), performs only in-bounds indexing into the
position buffer, the values buffer and the `k`-slice: the bounds-checked model never
panics and agrees with the total model. -/
theorem C10_no_panic (α : Type) [LinearOrder α] [Inhabited α] (v : List α) (k : Nat)
    (h : k ≤ v.length) (m : Nat) :
    fpNextChecked (fpIter m (fastPermutations v k)) =
      some (fpNext (fpIter m (fastPermutations v k))) := by
  have hinit : fpInv (fastPermutations v k) := by
    constructor
    · simp [fastPermutations]
    · simpa [fastPermutations, List.length_insertionSort] using h
  have hiter : ∀ (m : Nat) (s : FastPermutations α), fpInv s → fpInv (fpIter m s) := by
    intro m
    induction m with
    | zero => intro s hs; exact hs
    | succ n ih => intro s hs; exact ih _ (fpNext_preserves_inv hs)
  exact fpNextChecked_eq (hiter m _ hinit)

/-- Witness for C10 at the concrete input `[0, 1, 2]`, `k = 2`, after three calls. -/
theorem C10_no_panic_witness :
    fpNextChecked (fpIter 3 (fastPermutations [0, 1, 2] 2)) =
      some (fpNext (fpIter 3 (fastPermutations [0, 1, 2] 2))) :=
  C10_no_panic Nat [0, 1, 2] 2 (by decide) 3

/-! ### Counterexamples for claims C1, C3 and C4 -/

/-- Claim C1 counterexample: on the multiset `[0, 1, 1]` with `k = 3`, the distinct
permutation `[0, 1, 1]` appears twice in the exhausted emission sequence of the
generic generator, not exactly once. -/
theorem C1_counterexample :
    (fpRun 10 (fastPermutations [0, 1, 1] 3)).count [0, 1, 1] = 2 := by decide

/-- Claim C3 counterexample: on the multiset `[0, 1, 1]`, `distinct_permutations`
emits `[1, 1, 0]` once while the generic generator at `k = 3` emits it twice, so the
two do not produce the same multiset of results (they only agree as sets). -/
theorem C3_counterexample :
    (dpRun 10 (distinctPermutations [0, 1, 1])).count [1, 1, 0] = 1 ∧
      (fpRun 10 (fastPermutations [0, 1, 1] 3)).count [1, 1, 0] = 2 := by decide

/-- Claim C4 counterexample: on the non-empty multiset `[0, 1]` with `k = 0`, the
generic generator emits two empty arrangements (one per position-buffer permutation),
not exactly one. -/
theorem C4_counterexample :
    fpRun 10 (fastPermutations [0, 1] 0) = [[], []] := by decide

/-! ### Claim C7: the memoized range derangements equal the recursive ones -/

theorem drBody_eq (n : Nat) (h : 2 ≤ n) :
    drBody n (derangements_range (n - 1)) (derangements_range (n - 2)) =
      derangements_range n := by
  obtain ⟨m, rfl⟩ : ∃ m, n = m + 2 := ⟨n - 2, by omega⟩
  rfl

theorem drFastGo_spec :
    ∀ (d j n : Nat) (out : List (List Nat)), j + d = n → 2 ≤ j →
      drFastGo n ((List.range (d + 1)).map (· + j))
        (derangements_range (j - 2)) (derangements_range (j - 1)) out =
      derangements_range n := by
  intro d
  induction d with
  | zero =>
    intro j n out hjn hj
    have hn : j = n := by omega
    subst hn
    show drFastGo j [0 + j] _ _ _ = _
    rw [Nat.zero_add, drFastGo, drBody_eq j hj, if_neg (lt_irrefl j), drFastGo]
  | succ d ih =>
    intro j n out hjn hj
    have hmap : (List.range (d + 1 + 1)).map (· + j) =
        j :: (List.range (d + 1)).map (· + (j + 1)) := by
      rw [List.range_succ_eq_map]
      simp only [List.map_cons, List.map_map, Nat.zero_add]
      congr 1
      apply List.map_congr_left
      intro a _
      simp only [Function.comp_apply]
      omega
    rw [hmap, drFastGo, drBody_eq j hj, if_pos (by omega)]
    have h1 : derangements_range (j - 1) = derangements_range ((j + 1) - 2) := by
      congr 1
    have h2 : derangements_range j = derangements_range ((j + 1) - 1) := by
      congr 1
    rw [h1, h2]
    exact ih (j + 1) n out (by omega) (by omega)

/-! ### Claim C6: closed form of the part-2 inner loops -/

theorem drInnerLoop_spec (nm1 k : Nat) :
    ∀ (t : List Nat) (i : Nat),
      drInnerLoop nm1 k i t =
        (if i ≤ k ∧ k < i + t.length then
            ((t.map fun el => if el = k then k + 1 else el).insertIdx (k - i) nm1)
          else t.map fun el => if el = k then k + 1 else el,
          t.map fun el => if el = k then k + 1 else el) := by
  intro t
  induction t with
  | nil =>
    intro i
    rw [drInnerLoop]
    simp only [List.map_nil, List.length_nil]
    rw [if_neg (by omega)]
  | cons el rest ih =>
    intro i
    rw [drInnerLoop, ih (i + 1)]
    dsimp only
    simp only [List.map_cons, List.length_cons]
    by_cases hik : i = k
    · rw [if_pos hik]
      have hB : ¬ (i + 1 ≤ k ∧ k < i + 1 + rest.length) := by omega
      have hC : i ≤ k ∧ k < i + (rest.length + 1) := by omega
      rw [if_neg hB, if_pos hC, hik, Nat.sub_self, List.insertIdx_zero]
    · rw [if_neg hik]
      by_cases hik2 : i + 1 ≤ k
      · by_cases hlen : k < i + 1 + rest.length
        · have hB : i + 1 ≤ k ∧ k < i + 1 + rest.length := ⟨hik2, hlen⟩
          have hC : i ≤ k ∧ k < i + (rest.length + 1) := ⟨by omega, by omega⟩
          rw [if_pos hB, if_pos hC]
          have hsub : k - i = (k - (i + 1)) + 1 := by omega
          rw [hsub, List.insertIdx_succ_cons]
        · have hB : ¬ (i + 1 ≤ k ∧ k < i + 1 + rest.length) := fun hcon => hlen hcon.2
          have hC : ¬ (i ≤ k ∧ k < i + (rest.length + 1)) := by omega
          rw [if_neg hB, if_neg hC]
      · have hB : ¬ (i + 1 ≤ k ∧ k < i + 1 + rest.length) := fun hcon => hik2 hcon.1
        have hC : ¬ (i ≤ k ∧ k < i + (rest.length + 1)) := by omega
        rw [if_neg hB, if_neg hC]

theorem bump_map_step (j : Nat) (d : List Nat) :
    (bump (j + 1) d).map (fun el => if el = j then j + 1 else el) = bump j d := by
  rw [bump, bump, List.map_map]
  apply List.map_congr_left
  intro a _
  simp only [Function.comp_apply]
  by_cases h1 : j + 1 ≤ a
  · rw [if_pos h1, if_neg (by omega), if_pos (by omega)]
  · rw [if_neg h1]
    by_cases h2 : a = j
    · rw [if_pos h2, if_pos (by omega), h2]
    · rw [if_neg h2, if_neg (by omega)]

theorem range_reverse_succ (j : Nat) :
    (List.range (j + 1)).reverse = j :: (List.range j).reverse := by
  rw [List.range_succ, List.reverse_append]
  rfl

theorem drKLoop_spec (nm1 : Nat) :
    ∀ (j : Nat) (d : List Nat), j ≤ d.length →
      drKLoop nm1 ((List.range j).reverse) (bump j d) =
        ((List.range j).reverse).map (fun k => ((bump k d).insertIdx k nm1) ++ [k]) := by
  intro j
  induction j with
  | zero => intro d _; rfl
  | succ j ih =>
    intro d hj
    rw [range_reverse_succ, drKLoop, drInnerLoop_spec, List.map_cons]
    have hlen : (bump (j + 1) d).length = d.length := by
      simp [bump]
    rw [if_pos (by rw [hlen]; omega)]
    simp only [bump_map_step, Nat.sub_zero]
    rw [ih d (by omega)]

/-! Permutation utilities -/

theorem enum_map_ite_eq_set (l : List Nat) (j v : Nat) :
    (l.enum.map fun x => if x.1 = j then v else x.2) = l.set j v := by
  apply List.ext_getElem
  · simp
  · intro i h1 h2
    rw [List.getElem_map, List.getElem_enum, List.getElem_set]
    by_cases hij : i = j
    · rw [if_pos hij, if_pos hij.symm]
    · rw [if_neg hij, if_neg (fun hcon => hij hcon.symm)]

theorem set_perm_cons_eraseIdx (l : List α) (j : Nat) (v : α) (h : j < l.length) :
    l.set j v ~ v :: l.eraseIdx j := by
  rw [List.set_eq_take_append_cons_drop, if_pos h, List.eraseIdx_eq_take_drop_succ]
  exact List.perm_middle

theorem perm_cons_eraseIdx (l : List α) (j : Nat) (h : j < l.length) :
    l ~ l[j] :: l.eraseIdx j := by
  have heq : l.take j ++ l[j] :: l.drop (j + 1) = l := by
    rw [List.getElem_cons_drop, List.take_append_drop]
  conv_lhs => rw [← heq]
  rw [List.eraseIdx_eq_take_drop_succ]
  exact List.perm_middle

theorem insertIdx_perm_cons (l : List α) (k : Nat) (v : α) (h : k ≤ l.length) :
    l.insertIdx k v ~ v :: l := by
  have hlen : k < (l.insertIdx k v).length := by
    rw [List.length_insertIdx _ _ h]
    omega
  have h1 := perm_cons_eraseIdx (l.insertIdx k v) k hlen
  rw [List.getElem_insertIdx_self l v k h, List.eraseIdx_insertIdx] at h1
  exact h1

/-! The `kperms` model enumerates permutations -/

theorem kperms_mem_full [Inhabited α] :
    ∀ (n : Nat) (l : List α), l.length = n → ∀ w, w ∈ kperms n l ↔ w ~ l := by
  intro n
  induction n with
  | zero =>
    intro l hl w
    rw [kperms]
    have hnil : l = [] := List.length_eq_zero.mp hl
    subst hnil
    simp only [List.mem_singleton]
    constructor
    · rintro rfl; rfl
    · intro h; exact h.eq_nil
  | succ n ih =>
    intro l hl w
    rw [kperms]
    simp only [List.mem_flatMap, List.mem_map, List.mem_range]
    constructor
    · rintro ⟨i, hi, w1, hw1, rfl⟩
      have hlen1 : (l.eraseIdx i).length = n := by
        rw [List.length_eraseIdx_of_lt hi]
        omega
      have hperm1 : w1 ~ l.eraseIdx i := (ih _ hlen1 w1).mp hw1
      rw [List.getD_eq_getElem l default hi]
      exact (hperm1.cons l[i]).trans (perm_cons_eraseIdx l i hi).symm
    · intro hw
      cases w with
      | nil => exact absurd (hw.length_eq.trans hl) (by simp)
      | cons a w1 =>
        have ha : a ∈ l := hw.mem_iff.mp (List.mem_cons_self a w1)
        obtain ⟨i, hi, hil⟩ := List.mem_iff_getElem.mp ha
        refine ⟨i, hi, w1, ?_, ?_⟩
        · have hlen1 : (l.eraseIdx i).length = n := by
            rw [List.length_eraseIdx_of_lt hi]
            omega
          refine (ih _ hlen1 w1).mpr ?_
          have h2 : a :: w1 ~ a :: l.eraseIdx i := by
            refine hw.trans ?_
            rw [← hil]
            exact perm_cons_eraseIdx l i hi
          exact h2.cons_inv
        · rw [List.getD_eq_getElem l default hi, hil]

/-! The index-derangement filter on `usize` items -/

theorem derangeRejectNat_iff (w : List Nat) :
    derangeReject natTryFrom w = true ↔ ∃ i : Nat, w[i]? = some i := by
  rw [derangeReject, List.any_eq_true]
  constructor
  · rintro ⟨⟨i, v⟩, hmem, hpred⟩
    rw [List.mk_mem_enum_iff_getElem?] at hmem
    simp only [natTryFrom, Option.getD_some, beq_iff_eq] at hpred
    exact ⟨i, by rw [hmem]; exact congrArg some hpred.symm⟩
  · rintro ⟨i, hi⟩
    refine ⟨(i, i), ?_, ?_⟩
    · rw [List.mk_mem_enum_iff_getElem?]
      exact hi
    · simp [natTryFrom]

theorem mem_derangementsFn_range (n : Nat) (w : List Nat) :
    w ∈ derangementsFn natTryFrom (List.range n) n ↔ IsRangeDerangement n w := by
  rw [derangementsFn, List.mem_filter, IsRangeDerangement,
    kperms_mem_full n (List.range n) (List.length_range n) w]
  constructor
  · rintro ⟨hperm, hrej⟩
    refine ⟨hperm, fun i hi => ?_⟩
    rw [Bool.not_eq_true', ← Bool.not_eq_true] at hrej
    exact hrej ((derangeRejectNat_iff w).mpr ⟨i, hi⟩)
  · rintro ⟨hperm, hfix⟩
    refine ⟨hperm, ?_⟩
    rw [Bool.not_eq_true', ← Bool.not_eq_true]
    intro hrej
    obtain ⟨i, hi⟩ := (derangeRejectNat_iff w).mp hrej
    exact hfix i hi

/-! Further helpers for the range-derangement correctness proof -/

theorem noFix_iff (w : List Nat) :
    (∀ i : Nat, w[i]? ≠ some i) ↔ ∀ (i : Nat) (h : i < w.length), w[i] ≠ i := by
  constructor
  · intro h i hi heq
    exact h i (by rw [List.getElem?_eq_getElem hi, heq])
  · intro h i heq
    by_cases hi : i < w.length
    · rw [List.getElem?_eq_getElem hi] at heq
      exact h i hi (Option.some_injective _ heq)
    · rw [List.getElem?_eq_none (by omega)] at heq
      cases heq

theorem set_getElem_eq_self (l : List Nat) (j : Nat) (h : j < l.length) :
    l.set j (l[j]) = l := by
  apply List.ext_getElem (by simp)
  intro i h1 h2
  rw [List.getElem_set]
  by_cases hji : j = i
  · subst hji; rw [if_pos rfl]
  · rw [if_neg hji]

theorem insertIdx_eq_take_cons_drop (v : α) :
    ∀ (j : Nat) (l : List α), j ≤ l.length →
      l.insertIdx j v = l.take j ++ v :: l.drop j := by
  intro j
  induction j with
  | zero => intro l _; simp [List.insertIdx_zero]
  | succ j ih =>
    intro l hl
    cases l with
    | nil => simp at hl
    | cons a t =>
      rw [List.insertIdx_succ_cons, ih t (by simpa using hl)]
      rfl

theorem insertIdx_eraseIdx_getElem (l : List Nat) (j : Nat) (h : j < l.length) :
    (l.eraseIdx j).insertIdx j (l[j]) = l := by
  rw [List.eraseIdx_eq_take_drop_succ,
    insertIdx_eq_take_cons_drop _ j _ (by simp [List.length_take]; omega)]
  have hlt : (l.take j).length = j := by simp [List.length_take]; omega
  have ht : (l.take j ++ l.drop (j + 1)).take j = l.take j := List.take_left' hlt
  have hd : (l.take j ++ l.drop (j + 1)).drop j = l.drop (j + 1) := List.drop_left' hlt
  rw [ht, hd, List.getElem_cons_drop, List.take_append_drop]

theorem bump_eq_self {m : Nat} {l : List Nat} (h : ∀ x ∈ l, x < m) : bump m l = l := by
  rw [bump]
  conv_rhs => rw [← List.map_id l]
  apply List.map_congr_left
  intro a ha
  rw [if_neg (by have := h a ha; omega)]
  rfl

theorem bumpFun_injective (k : Nat) :
    Function.Injective (fun x : Nat => if k ≤ x then x + 1 else x) := by
  intro a b hab
  simp only at hab
  by_cases ha : k ≤ a
  · by_cases hb : k ≤ b
    · rw [if_pos ha, if_pos hb] at hab; omega
    · rw [if_pos ha, if_neg hb] at hab; omega
  · by_cases hb : k ≤ b
    · rw [if_neg ha, if_pos hb] at hab; omega
    · rw [if_neg ha, if_neg hb] at hab; omega

theorem count_bump (k a : Nat) (l : List Nat) :
    (bump k l).count (if k ≤ a then a + 1 else a) = l.count a := by
  rw [bump]
  exact List.count_map_of_injective l _ (bumpFun_injective k) a

theorem cons_bump_range (k m : Nat) (hk : k ≤ m) :
    k :: bump k (List.range m) ~ List.range (m + 1) := by
  have hm : m = k + (m - k) := by omega
  have h1 : List.range m = List.range k ++ (List.range (m - k)).map (k + ·) := by
    conv_lhs => rw [hm]
    exact List.range_add k (m - k)
  have h2 : bump k (List.range m) =
      List.range k ++ (List.range (m - k)).map (fun x => k + (x + 1)) := by
    rw [h1, bump, List.map_append, List.map_map]
    congr 1
    · conv_rhs => rw [← List.map_id (List.range k)]
      apply List.map_congr_left
      intro a ha
      rw [List.mem_range] at ha
      rw [if_neg (by omega)]
      rfl
    · apply List.map_congr_left
      intro a _
      simp only [Function.comp_apply]
      rw [if_pos (by omega)]
      omega
  have h3 : List.range (m + 1) =
      List.range k ++ k :: (List.range (m - k)).map (fun x => k + (x + 1)) := by
    have hm1 : m + 1 = k + (m - k + 1) := by omega
    conv_lhs => rw [hm1]
    rw [List.range_add, List.range_succ_eq_map, List.map_cons, List.map_map]
    refine congrArg (List.range k ++ ·) ?_
    refine congrArg₂ List.cons (by omega) ?_
    apply List.map_congr_left
    intro a _
    simp only [Function.comp_apply]
  rw [h2, h3]
  exact List.perm_middle.symm

/-! Membership in the recursion body -/

theorem mem_drBody (m : Nat) (lag1 lag2 : List (List Nat)) (w : List Nat) :
    w ∈ drBody (m + 2) lag1 lag2 ↔
      ((∃ lag ∈ lag1, ∃ split : Nat, split < lag.length ∧
          w = lag.set split (m + 1) ++ [lag.getD split 0]) ∨
        (∃ lag ∈ lag2, w = lag ++ [m + 1, m] ∨
          w ∈ drKLoop (m + 1) ((List.range m).reverse) lag)) := by
  rw [drBody]
  show w ∈ _ ++ _ ↔ _
  rw [List.mem_append]
  constructor
  · rintro (h1 | h2)
    · left
      rw [List.mem_flatMap] at h1
      obtain ⟨lag, hlag, hw⟩ := h1
      rw [List.mem_map] at hw
      obtain ⟨split, hsplit, hw⟩ := hw
      rw [List.mem_range] at hsplit
      refine ⟨lag, hlag, split, hsplit, ?_⟩
      rw [← hw, enum_map_ite_eq_set]
      rfl
    · right
      rw [List.mem_flatMap] at h2
      obtain ⟨lag, hlag, hw⟩ := h2
      rw [List.mem_cons] at hw
      exact ⟨lag, hlag, hw⟩
  · rintro (⟨lag, hlag, split, hsplit, hw⟩ | ⟨lag, hlag, hw⟩)
    · left
      rw [List.mem_flatMap]
      refine ⟨lag, hlag, ?_⟩
      rw [List.mem_map]
      exact ⟨split, by rw [List.mem_range]; exact hsplit,
        by rw [enum_map_ite_eq_set, hw]; rfl⟩
    · right
      rw [List.mem_flatMap]
      exact ⟨lag, hlag, by rw [List.mem_cons]; exact hw⟩

/-! Soundness of the three construction rules -/

theorem part1_sound {m : Nat} {lag : List Nat} (hlag : IsRangeDerangement (m + 1) lag)
    {split : Nat} (hsplit : split < lag.length) :
    IsRangeDerangement (m + 2) (lag.set split (m + 1) ++ [lag.getD split 0]) := by
  obtain ⟨hperm, hfix0⟩ := hlag
  have hfix := (noFix_iff lag).mp hfix0
  have hlen : lag.length = m + 1 := by rw [hperm.length_eq, List.length_range]
  have hval : ∀ x ∈ lag, x < m + 1 := fun x hx => List.mem_range.mp (hperm.mem_iff.mp hx)
  have hx : lag.getD split 0 = lag[split] := List.getD_eq_getElem lag 0 hsplit
  constructor
  · rw [hx]
    calc lag.set split (m + 1) ++ [lag[split]]
        ~ lag[split] :: lag.set split (m + 1) := List.perm_append_singleton _ _
      _ ~ lag[split] :: (m + 1) :: lag.eraseIdx split :=
          (set_perm_cons_eraseIdx lag split (m + 1) hsplit).cons _
      _ ~ (m + 1) :: lag[split] :: lag.eraseIdx split := List.Perm.swap _ _ _
      _ ~ (m + 1) :: lag := ((perm_cons_eraseIdx lag split hsplit).symm).cons _
      _ ~ (m + 1) :: List.range (m + 1) := hperm.cons _
      _ ~ List.range (m + 1) ++ [m + 1] := (List.perm_append_singleton _ _).symm
      _ = List.range (m + 2) := (List.range_succ (m + 1)).symm
  · rw [noFix_iff]
    intro i hi
    have hsetlen : (lag.set split (m + 1)).length = m + 1 := by
      rw [List.length_set, hlen]
    rw [List.length_append, hsetlen] at hi
    simp only [List.length_cons, List.length_nil] at hi
    by_cases him : i < m + 1
    · rw [List.getElem_append_left (by omega), List.getElem_set]
      by_cases hsi : split = i
      · rw [if_pos hsi]
        omega
      · rw [if_neg hsi]
        exact hfix i (by omega)
    · rw [List.getElem_append_right (by omega)]
      have hidx : i - (lag.set split (m + 1)).length = 0 := by omega
      simp only [hidx, List.getElem_cons_zero, hx]
      have := hval _ (List.getElem_mem hsplit)
      omega

theorem part2a_sound {m : Nat} {lag : List Nat} (hlag : IsRangeDerangement m lag) :
    IsRangeDerangement (m + 2) (lag ++ [m + 1, m]) := by
  obtain ⟨hperm, hfix0⟩ := hlag
  have hfix := (noFix_iff lag).mp hfix0
  have hlen : lag.length = m := by rw [hperm.length_eq, List.length_range]
  constructor
  · calc lag ++ [m + 1, m]
        ~ List.range m ++ [m + 1, m] := hperm.append_right _
      _ ~ List.range m ++ [m, m + 1] := List.Perm.append_left _ (List.Perm.swap _ _ _)
      _ = List.range (m + 2) := by
          rw [List.range_succ, List.range_succ, List.append_assoc]
          rfl
  · rw [noFix_iff]
    intro i hi
    rw [List.length_append, hlen] at hi
    simp only [List.length_cons, List.length_nil] at hi
    by_cases him : i < m
    · rw [List.getElem_append_left (by omega)]
      exact hfix i (by omega)
    · rw [List.getElem_append_right (by omega)]
      by_cases him1 : i = m
      · have hidx : i - lag.length = 0 := by omega
        simp only [hidx, List.getElem_cons_zero]
        omega
      · have hidx : i - lag.length = 1 := by omega
        simp only [hidx]
        simp
        omega

theorem part2b_sound {m : Nat} {lag : List Nat} (hlag : IsRangeDerangement m lag)
    {k : Nat} (hk : k < m) :
    IsRangeDerangement (m + 2) ((bump k lag).insertIdx k (m + 1) ++ [k]) := by
  obtain ⟨hperm, hfix0⟩ := hlag
  have hfix := (noFix_iff lag).mp hfix0
  have hlen : lag.length = m := by rw [hperm.length_eq, List.length_range]
  have hblen : (bump k lag).length = m := by rw [bump, List.length_map, hlen]
  have hilen : ((bump k lag).insertIdx k (m + 1)).length = m + 1 := by
    rw [List.length_insertIdx _ _ (by omega), hblen]
  have hbperm : bump k lag ~ bump k (List.range m) := List.Perm.map _ hperm
  constructor
  · calc (bump k lag).insertIdx k (m + 1) ++ [k]
        ~ k :: (bump k lag).insertIdx k (m + 1) := List.perm_append_singleton _ _
      _ ~ k :: (m + 1) :: bump k lag :=
          (insertIdx_perm_cons _ k (m + 1) (by omega)).cons _
      _ ~ (m + 1) :: k :: bump k lag := List.Perm.swap _ _ _
      _ ~ (m + 1) :: k :: bump k (List.range m) := (hbperm.cons _).cons _
      _ ~ (m + 1) :: List.range (m + 1) := (cons_bump_range k m (by omega)).cons _
      _ ~ List.range (m + 1) ++ [m + 1] := (List.perm_append_singleton _ _).symm
      _ = List.range (m + 2) := (List.range_succ (m + 1)).symm
  · rw [noFix_iff]
    intro i hi
    rw [List.length_append, hilen] at hi
    simp only [List.length_cons, List.length_nil] at hi
    by_cases hlast : i = m + 1
    · rw [List.getElem_append_right (by omega)]
      have hidx : i - ((bump k lag).insertIdx k (m + 1)).length = 0 := by omega
      simp only [hidx, List.getElem_cons_zero]
      omega
    · rw [List.getElem_append_left (by omega)]
      by_cases hik : i < k
      · rw [List.getElem_insertIdx_of_lt _ _ _ _ hik (by omega)]
        simp only [bump, List.getElem_map]
        have := hfix i (by omega)
        by_cases hc : k ≤ lag[i]
        · rw [if_pos hc]; omega
        · rw [if_neg hc]; omega
      · by_cases hieq : i = k
        · subst hieq
          rw [List.getElem_insertIdx_self _ _ _ (by omega)]
          omega
        · have hieq2 : i = k + (i - k - 1) + 1 := by omega
          set j := i - k - 1 with hjdef
          simp only [hieq2]
          rw [List.getElem_insertIdx_add_succ _ _ _ _ (by omega)]
          simp only [bump, List.getElem_map]
          have hfi := hfix (k + j) (by omega)
          by_cases hc : k ≤ lag[k + j]
          · rw [if_pos hc]; omega
          · rw [if_neg hc]; omega

/-! Completeness: every derangement of `0..m+2` arises from one of the three rules -/

theorem unbump_bump_of_ne {j : Nat} {l : List Nat} (h : ∀ x ∈ l, x ≠ j) :
    bump j (unbump j l) = l := by
  rw [bump, unbump, List.map_map]
  conv_rhs => rw [← List.map_id l]
  apply List.map_congr_left
  intro a ha
  have hne := h a ha
  simp only [Function.comp_apply, id]
  by_cases hc : j < a
  · rw [if_pos hc, if_pos (by omega)]
    omega
  · rw [if_neg hc, if_neg (by omega)]

theorem dr_complete {m : Nat} {w : List Nat} (hw : IsRangeDerangement (m + 2) w) :
    (∃ lag, IsRangeDerangement (m + 1) lag ∧ ∃ split : Nat, split < lag.length ∧
        w = lag.set split (m + 1) ++ [lag.getD split 0]) ∨
      (∃ lag, IsRangeDerangement m lag ∧ (w = lag ++ [m + 1, m] ∨
        ∃ k, k < m ∧ w = (bump k lag).insertIdx k (m + 1) ++ [k])) := by
  obtain ⟨hperm, hfix0⟩ := hw
  have hfix := (noFix_iff w).mp hfix0
  have hlen : w.length = m + 2 := by rw [hperm.length_eq, List.length_range]
  have hnodup : w.Nodup := hperm.nodup_iff.mpr (List.nodup_range (m + 2))
  have hmem : (m + 1) ∈ w := hperm.mem_iff.mpr (List.mem_range.mpr (by omega))
  obtain ⟨j, hj, hwj⟩ := List.mem_iff_getElem.mp hmem
  have hjne : j ≠ m + 1 := fun h => hfix j hj (by rw [hwj, h])
  have hjm : j < m + 1 := by omega
  have hm1 : m + 1 < w.length := by omega
  have hzne : w[m + 1] ≠ m + 1 := hfix (m + 1) hm1
  have hzlt : w[m + 1] < m + 2 :=
    List.mem_range.mp (hperm.mem_iff.mp (List.getElem_mem hm1))
  have hTlen : (w.take (m + 1)).length = m + 1 := by rw [List.length_take]; omega
  have hdecomp : w = w.take (m + 1) ++ [w[m + 1]] := by
    conv_lhs => rw [← List.take_append_drop (m + 1) w]
    congr 1
    rw [← List.getElem_cons_drop w (m + 1) hm1,
      List.drop_eq_nil_of_le (by omega)]
  have hjT : j < (w.take (m + 1)).length := by omega
  have hTj : (w.take (m + 1))[j] = m + 1 := by rw [List.getElem_take]; exact hwj
  have hperm2 : List.range (m + 2) ~ (m + 1) :: List.range (m + 1) := by
    rw [List.range_succ]
    exact List.perm_append_singleton _ _
  have hc1 : w ~ w[m + 1] :: w.take (m + 1) := by
    conv_lhs => rw [hdecomp]
    exact List.perm_append_singleton _ _
  have hc2 : w.take (m + 1) ~ (m + 1) :: (w.take (m + 1)).eraseIdx j := by
    have := perm_cons_eraseIdx (w.take (m + 1)) j hjT
    rwa [hTj] at this
  -- the two-step cancellation: z :: E ~ range (m + 1)
  have hcore : w[m + 1] :: (w.take (m + 1)).eraseIdx j ~ List.range (m + 1) := by
    have h3 : (m + 1) :: w[m + 1] :: (w.take (m + 1)).eraseIdx j ~
        (m + 1) :: List.range (m + 1) := by
      calc (m + 1) :: w[m + 1] :: (w.take (m + 1)).eraseIdx j
          ~ w[m + 1] :: (m + 1) :: (w.take (m + 1)).eraseIdx j := List.Perm.swap _ _ _
        _ ~ w[m + 1] :: w.take (m + 1) := hc2.symm.cons _
        _ ~ w := hc1.symm
        _ ~ List.range (m + 2) := hperm
        _ ~ (m + 1) :: List.range (m + 1) := hperm2
    exact h3.cons_inv
  by_cases hzj : w[m + 1] = j
  · -- part 2: `w` holds `m+1` at position `j` and `j` at the last position
    right
    by_cases hjm2 : j = m
    · -- first part-2 rule: `w = lag ++ [m+1, m]`
      subst hjm2
      have hd2 : w = w.take j ++ [j + 1, j] := by
        conv_lhs => rw [← List.take_append_drop j w]
        congr 1
        rw [← List.getElem_cons_drop w j (by omega), hwj,
          ← List.getElem_cons_drop w (j + 1) hm1,
          List.drop_eq_nil_of_le (by omega), hzj]
      refine ⟨w.take j, ⟨?_, ?_⟩, Or.inl hd2⟩
      · -- permutation of `range j`
        have h1 : w ~ (j + 1) :: (j :: w.take j) := by
          conv_lhs => rw [hd2]
          show w.take j ++ (j + 1) :: [j] ~ _
          calc w.take j ++ (j + 1) :: [j]
              ~ (j + 1) :: (w.take j ++ [j]) := List.perm_middle
            _ ~ (j + 1) :: (j :: w.take j) :=
                (List.perm_append_singleton _ _).cons _
        have h2 : List.range (j + 2) ~ (j + 1) :: (j :: List.range j) := by
          refine hperm2.trans ?_
          refine List.Perm.cons _ ?_
          rw [List.range_succ]
          exact List.perm_append_singleton _ _
        have h3 : (j + 1) :: (j :: w.take j) ~ (j + 1) :: (j :: List.range j) :=
          (h1.symm.trans hperm).trans h2
        exact h3.cons_inv.cons_inv
      · -- no fixed point
        rw [noFix_iff]
        intro i hi
        rw [List.length_take] at hi
        have hi2 : i < j := by omega
        rw [List.getElem_take]
        exact hfix i (by omega)
    · -- second part-2 rule: insert `m+1` at position `j`
      have hjm3 : j < m := by omega
      have hjmem : j ∈ w := by
        rw [← hzj]
        exact List.getElem_mem hm1
      have hwcount : w.count j = 1 := List.count_eq_one_of_mem hnodup hjmem
      have hTcount : (w.take (m + 1)).count j = 0 := by
        have : w.count j = (w.take (m + 1)).count j + 1 := by
          conv_lhs => rw [hdecomp]
          rw [List.count_append, hzj]
          simp
        omega
      have hjnotT : j ∉ w.take (m + 1) := List.count_eq_zero.mp hTcount
      have hEne : ∀ x ∈ (w.take (m + 1)).eraseIdx j, x ≠ j := by
        intro x hx hxj
        exact hjnotT (hxj ▸ (List.eraseIdx_sublist _ j).mem hx)
      have hbu : bump j (unbump j ((w.take (m + 1)).eraseIdx j)) =
          (w.take (m + 1)).eraseIdx j := unbump_bump_of_ne hEne
      have hElen : ((w.take (m + 1)).eraseIdx j).length = m := by
        rw [List.length_eraseIdx_of_lt hjT, hTlen]
        omega
      have hEperm : (w.take (m + 1)).eraseIdx j ~ bump j (List.range m) := by
        have h4 : List.range (m + 2) ~ (m + 1) :: j :: bump j (List.range m) := by
          refine hperm2.trans (List.Perm.cons _ ?_)
          exact (cons_bump_range j m (by omega)).symm
        have h5 : (m + 1) :: j :: (w.take (m + 1)).eraseIdx j ~
            (m + 1) :: j :: bump j (List.range m) := by
          refine (?_ : _ ~ List.range (m + 2)).trans h4
          calc (m + 1) :: j :: (w.take (m + 1)).eraseIdx j
              ~ j :: (m + 1) :: (w.take (m + 1)).eraseIdx j := List.Perm.swap _ _ _
            _ ~ j :: w.take (m + 1) := hc2.symm.cons _
            _ ~ w := by rw [← hzj]; exact hc1.symm
            _ ~ List.range (m + 2) := hperm
        exact h5.cons_inv.cons_inv
      refine ⟨unbump j ((w.take (m + 1)).eraseIdx j), ⟨?_, ?_⟩, Or.inr ⟨j, hjm3, ?_⟩⟩
      · -- permutation of `range m`
        rw [List.perm_iff_count]
        intro a
        have h6 : (unbump j ((w.take (m + 1)).eraseIdx j)).count a =
            ((w.take (m + 1)).eraseIdx j).count (if j ≤ a then a + 1 else a) := by
          rw [← count_bump j a (unbump j _), hbu]
        rw [h6, (hEperm.count_eq _), count_bump]
      · -- no fixed point
        rw [noFix_iff]
        intro i hi
        simp only [unbump, List.length_map, hElen] at hi
        simp only [unbump, List.getElem_map]
        by_cases hij : i < j
        · rw [List.getElem_eraseIdx_of_lt _ _ _ (by rw [List.length_eraseIdx_of_lt hjT]; omega) hij,
            List.getElem_take]
          have hfi := hfix i (by omega)
          have hwi : i < w.length := by omega
          by_cases hc : j < w[i]
          · rw [if_pos hc]; omega
          · rw [if_neg hc]; omega
        · rw [List.getElem_eraseIdx_of_ge _ _ _ (by rw [List.length_eraseIdx_of_lt hjT]; omega) (by omega),
            List.getElem_take]
          have hfi := hfix (i + 1) (by omega)
          have hiE : i < ((w.take (m + 1)).eraseIdx j).length := by
            rw [List.length_eraseIdx_of_lt hjT]; omega
          have hne := hEne (((w.take (m + 1)).eraseIdx j)[i]) (List.getElem_mem hiE)
          rw [List.getElem_eraseIdx_of_ge _ _ _ hiE (by omega),
            List.getElem_take] at hne
          have hwi1 : i + 1 < w.length := by omega
          by_cases hc : j < w[i + 1]
          · rw [if_pos hc]; omega
          · rw [if_neg hc]; omega
      · -- the equation
        rw [hbu]
        have h7 := insertIdx_eraseIdx_getElem (w.take (m + 1)) j hjT
        rw [hTj] at h7
        rw [h7, ← hzj]
        exact hdecomp
  · -- part 1: replace position `j` by `m+1` in the parent
    left
    refine ⟨(w.take (m + 1)).set j w[m + 1], ⟨?_, ?_⟩, j, ?_, ?_⟩
    · exact (set_perm_cons_eraseIdx _ j _ hjT).trans hcore
    · rw [noFix_iff]
      intro i hi
      rw [List.length_set, hTlen] at hi
      rw [List.getElem_set]
      by_cases hji : j = i
      · rw [if_pos hji]
        omega
      · rw [if_neg hji, List.getElem_take]
        exact hfix i (by omega)
    · rw [List.length_set]
      omega
    · have hset1 : ((w.take (m + 1)).set j w[m + 1]).set j (m + 1) = w.take (m + 1) := by
        have hs := set_getElem_eq_self (w.take (m + 1)) j hjT
        rw [hTj] at hs
        rw [List.set_set, hs]
      have hset2 : ((w.take (m + 1)).set j w[m + 1]).getD j 0 = w[m + 1] := by
        rw [List.getD_eq_getElem _ 0 (by rw [List.length_set]; omega),
          List.getElem_set, if_pos rfl]
      rw [hset1, hset2]
      exact hdecomp

/-- Claim C7 (confirmed): for every `n`, the memoized variant
`derangements_range_fast`, which retains only the last two size-classes while
iterating the recurrence upward, returns exactly the same list of derangements as the
recursive `derangements_range`, in the same order. -/
theorem C7_range_fast_eq (n : Nat) :
    derangements_range_fast n = derangements_range n := by
  match n with
  | 0 => rfl
  | 1 => rfl
  | m + 2 =>
    show drFastGo (m + 2) ((List.range (m + 1)).map (· + 2))
        (derangements_range 0) (derangements_range 1) [] = _
    exact drFastGo_spec m 2 (m + 2) [] (by omega) (by omega)

theorem mem_drKLoop_iff {m : Nat} {lag w : List Nat}
    (hlag : IsRangeDerangement m lag) :
    w ∈ drKLoop (m + 1) ((List.range m).reverse) lag ↔
      ∃ k, k < m ∧ w = (bump k lag).insertIdx k (m + 1) ++ [k] := by
  have hlen : lag.length = m := by rw [hlag.1.length_eq, List.length_range]
  have hval : ∀ x ∈ lag, x < m := fun x hx => List.mem_range.mp (hlag.1.mem_iff.mp hx)
  have hb : bump m lag = lag := bump_eq_self hval
  conv_lhs => rw [← hb]
  rw [drKLoop_spec (m + 1) m lag (by omega), List.mem_map]
  constructor
  · rintro ⟨k, hk, hw⟩
    rw [List.mem_reverse, List.mem_range] at hk
    exact ⟨k, hk, hw.symm⟩
  · rintro ⟨k, hk, hw⟩
    exact ⟨k, by rw [List.mem_reverse, List.mem_range]; exact hk, hw.symm⟩

theorem derangements_range_iff (n : Nat) :
    ∀ w, w ∈ derangements_range n ↔ IsRangeDerangement n w := by
  induction n using Nat.strong_induction_on with
  | _ n ih =>
    match n with
    | 0 =>
      intro w
      show w ∈ [([] : List Nat)] ↔ _
      rw [List.mem_singleton]
      constructor
      · rintro rfl
        exact ⟨by simp, fun i => by simp⟩
      · rintro ⟨hperm, _⟩
        rw [List.range_zero] at hperm
        exact hperm.eq_nil
    | 1 =>
      intro w
      show w ∈ ([] : List (List Nat)) ↔ _
      simp only [List.not_mem_nil, false_iff]
      rintro ⟨hperm, hfix⟩
      rw [show List.range 1 = [0] from rfl, List.perm_singleton] at hperm
      exact hfix 0 (by rw [hperm]; rfl)
    | m + 2 =>
      intro w
      show w ∈ drBody (m + 2) (derangements_range (m + 1)) (derangements_range m) ↔ _
      rw [mem_drBody]
      constructor
      · rintro (⟨lag, hlag, split, hsplit, hw⟩ | ⟨lag, hlag, hw | hw⟩)
        · rw [hw]
          exact part1_sound ((ih (m + 1) (by omega) lag).mp hlag) hsplit
        · rw [hw]
          exact part2a_sound ((ih m (by omega) lag).mp hlag)
        · have hlag2 := (ih m (by omega) lag).mp hlag
          obtain ⟨k, hk, hw2⟩ := (mem_drKLoop_iff hlag2).mp hw
          rw [hw2]
          exact part2b_sound hlag2 hk
      · intro hw
        rcases dr_complete hw with ⟨lag, hlag, split, hsplit, hweq⟩ |
            ⟨lag, hlag, hweq | ⟨k, hk, hweq⟩⟩
        · exact Or.inl ⟨lag, (ih (m + 1) (by omega) lag).mpr hlag, split, hsplit, hweq⟩
        · exact Or.inr ⟨lag, (ih m (by omega) lag).mpr hlag, Or.inl hweq⟩
        · exact Or.inr ⟨lag, (ih m (by omega) lag).mpr hlag,
            Or.inr ((mem_drKLoop_iff hlag).mpr ⟨k, hk, hweq⟩)⟩

theorem drKLoop_length (nm1 : Nat) :
    ∀ (ks temp : List Nat), (drKLoop nm1 ks temp).length = ks.length
  | [], _ => rfl
  | k :: ks, temp => by
      rw [drKLoop]
      simp only [List.length_cons]
      rw [drKLoop_length nm1 ks]

theorem sum_map_const {β : Type} (c : Nat) :
    ∀ (l : List β) (f : β → Nat), (∀ x ∈ l, f x = c) → (l.map f).sum = l.length * c
  | [], _, _ => by simp
  | x :: t, f, h => by
      rw [List.map_cons, List.sum_cons, h x (by simp),
        sum_map_const c t f (fun y hy => h y (by simp [hy])), List.length_cons]
      ring

theorem drBody_length (n : Nat) (L1 L2 : List (List Nat))
    (h1 : ∀ lag ∈ L1, lag.length = n + 1) :
    (drBody (n + 2) L1 L2).length = L1.length * (n + 1) + L2.length * (n + 1) := by
  simp only [drBody]
  rw [List.length_append, List.length_flatMap, List.length_flatMap]
  have hs1 := sum_map_const (n + 1) L1
    (List.length ∘ fun lag => (List.range lag.length).map (fun split =>
      (lag.enum.map (fun x => if x.1 = split then n + 2 - 1 else x.2)) ++
        [lag.getD split 0]))
    (by
      intro lag hlag
      simp only [Function.comp_apply, List.length_map, List.length_range]
      exact h1 lag hlag)
  have hs2 := sum_map_const (n + 1) L2
    (List.length ∘ fun lag =>
      (lag ++ [n + 2 - 1, n + 2 - 2]) ::
        drKLoop (n + 2 - 1) ((List.range (n + 2 - 2)).reverse) lag)
    (by
      intro lag _
      simp only [Function.comp_apply, List.length_cons]
      rw [drKLoop_length, List.length_reverse, List.length_range]
      omega)
  rw [hs1, hs2]

theorem derangements_range_length (n : Nat) :
    (derangements_range (n + 2)).length =
      ((derangements_range (n + 1)).length + (derangements_range n).length) * (n + 1) := by
  show (drBody (n + 2) (derangements_range (n + 1)) (derangements_range n)).length = _
  rw [drBody_length n _ _ (fun lag hlag => by
    have h2 := ((derangements_range_iff (n + 1) lag).mp hlag).1
    rw [h2.length_eq, List.length_range])]
  ring

/-- Claim C6 (confirmed): for every `n`, `derangements_range n` returns exactly the
permutations of `{0, …, n-1}` with no fixed point — as a set it equals the
index-derangement filter composition `derangementsFn natTryFrom (List.range n) n`
(membership is equivalent) — the base cases return one empty derangement for `n = 0`
and none for `n = 1`, and for `n = 8` exactly 14833 arrangements are returned. -/
theorem C6_range_derangements :
    (∀ n w, w ∈ derangements_range n ↔ w ∈ derangementsFn natTryFrom (List.range n) n) ∧
      derangements_range 0 = [[]] ∧ derangements_range 1 = [] ∧
      (derangements_range 8).length = 14833 := by
  refine ⟨fun n w => (derangements_range_iff n w).trans (mem_derangementsFn_range n w).symm,
    rfl, rfl, ?_⟩
  have l0 : (derangements_range 0).length = 1 := rfl
  have l1 : (derangements_range 1).length = 0 := rfl
  have l2 : (derangements_range 2).length = 1 := by
    rw [derangements_range_length 0, l1, l0]
  have l3 : (derangements_range 3).length = 2 := by
    rw [derangements_range_length 1, l2, l1]
  have l4 : (derangements_range 4).length = 9 := by
    rw [derangements_range_length 2, l3, l2]
  have l5 : (derangements_range 5).length = 44 := by
    rw [derangements_range_length 3, l4, l3]
  have l6 : (derangements_range 6).length = 265 := by
    rw [derangements_range_length 4, l5, l4]
  have l7 : (derangements_range 7).length = 1854 := by
    rw [derangements_range_length 5, l6, l5]
  rw [derangements_range_length 6, l7, l6]

/-! ### Non-increasing words and the non-increasing prefix length -/

theorem nonIncr_nil [LinearOrder α] : NonIncr ([] : List α) := List.chain'_nil

theorem nonIncr_singleton [LinearOrder α] (a : α) : NonIncr [a] := List.chain'_singleton a

theorem nonIncr_cons_cons [LinearOrder α] {a b : α} {t : List α} :
    NonIncr (a :: b :: t) ↔ b ≤ a ∧ NonIncr (b :: t) := by
  unfold NonIncr
  rw [List.chain'_cons]

theorem nplen_cons_cons [LinearOrder α] (a b : α) (t : List α) :
    nplen (a :: b :: t) = if b ≤ a then nplen (b :: t) + 1 else 1 := rfl

theorem nplen_pos [LinearOrder α] : ∀ {w : List α}, w ≠ [] → 0 < nplen w
  | [], h => absurd rfl h
  | [_], _ => Nat.one_pos
  | a :: b :: t, _ => by
      rw [nplen_cons_cons]
      split
      · omega
      · omega

theorem nplen_le_length [LinearOrder α] : ∀ w : List α, nplen w ≤ w.length
  | [] => by simp [nplen]
  | [_] => by simp [nplen]
  | a :: b :: t => by
      rw [nplen_cons_cons]
      have := nplen_le_length (b :: t)
      split
      · simp only [List.length_cons] at *
        omega
      · simp only [List.length_cons]
        omega

theorem nplen_eq_length_of_nonIncr [LinearOrder α] :
    ∀ {w : List α}, NonIncr w → nplen w = w.length
  | [], _ => rfl
  | [_], _ => rfl
  | a :: b :: t, h => by
      rw [nonIncr_cons_cons] at h
      rw [nplen_cons_cons, if_pos h.1, nplen_eq_length_of_nonIncr h.2]
      simp

theorem nonIncr_of_nplen_eq_length [LinearOrder α] :
    ∀ {w : List α}, nplen w = w.length → NonIncr w
  | [], _ => nonIncr_nil
  | [a], _ => nonIncr_singleton a
  | a :: b :: t, h => by
      rw [nplen_cons_cons] at h
      by_cases hba : b ≤ a
      · rw [if_pos hba] at h
        rw [nonIncr_cons_cons]
        refine ⟨hba, nonIncr_of_nplen_eq_length ?_⟩
        simp only [List.length_cons] at h ⊢
        omega
      · rw [if_neg hba] at h
        have := (b :: t).length
        simp only [List.length_cons] at h
        omega

theorem nonIncr_take_nplen [LinearOrder α] : ∀ w : List α, NonIncr (w.take (nplen w))
  | [] => nonIncr_nil
  | [a] => by simp [nplen]; exact nonIncr_singleton a
  | a :: b :: t => by
      rw [nplen_cons_cons]
      by_cases hba : b ≤ a
      · rw [if_pos hba, List.take_succ_cons]
        have h2 := nonIncr_take_nplen (b :: t)
        have h3 : 0 < nplen (b :: t) := nplen_pos (by simp)
        rcases Nat.exists_eq_add_of_lt h3 with ⟨k, hk⟩
        rw [Nat.zero_add] at hk
        rw [hk, List.take_succ_cons] at h2 ⊢
        rw [nonIncr_cons_cons]
        exact ⟨hba, h2⟩
      · rw [if_neg hba, List.take_succ_cons, List.take_zero]
        exact nonIncr_singleton a

theorem le_nplen_of_nonIncr_take [LinearOrder α] :
    ∀ (w : List α) (k : Nat), NonIncr (w.take k) → k ≤ w.length → k ≤ nplen w
  | _, 0, _, _ => Nat.zero_le _
  | [], k + 1, _, hk => by simp at hk
  | [a], k + 1, _, hk => by
      simp only [List.length_singleton] at hk
      simp [nplen]
      omega
  | a :: b :: t, k + 1, h, hk => by
      rw [nplen_cons_cons]
      cases k with
      | zero =>
        split
        · omega
        · omega
      | succ k2 =>
        rw [List.take_succ_cons, List.take_succ_cons, nonIncr_cons_cons] at h
        rw [if_pos h.1]
        have := le_nplen_of_nonIncr_take (b :: t) (k2 + 1)
          (by rw [List.take_succ_cons]; exact h.2)
          (by simp only [List.length_cons] at hk ⊢; omega)
        omega

/-! ### Decomposition of a word at its first ascent -/

theorem getLastD_append_singleton (x : List α) (z d : α) : (x ++ [z]).getLastD d = z := by
  rw [List.getLastD_eq_getLast?, List.getLast?_concat]
  rfl

theorem getD_last (d : α) {w : List α} (h : w ≠ []) :
    w.getD (w.length - 1) d = w.getLastD d := by
  rcases List.eq_nil_or_concat w with rfl | ⟨x, z, rfl⟩
  · exact absurd rfl h
  · rw [List.concat_eq_append]
    rw [getLastD_append_singleton]
    rw [List.length_append, List.length_singleton]
    rw [List.getD_eq_getElem?_getD]
    rw [List.getElem?_append_right (by omega)]
    simp

theorem getLastD_cons_cons (a b d : α) (t : List α) :
    (a :: b :: t).getLastD d = (b :: t).getLastD d := by
  rw [List.getLastD_eq_getLast?, List.getLastD_eq_getLast?, List.getLast?_cons_cons]

theorem getLastD_le_of_nonIncr [LinearOrder α] (d : α) :
    ∀ {w : List α}, NonIncr w → ∀ c ∈ w, w.getLastD d ≤ c
  | [], _, c, hc => by simp at hc
  | [a], _, c, hc => by
      simp only [List.mem_singleton] at hc
      subst hc
      simp [List.getLastD]
  | a :: b :: t, h, c, hc => by
      rw [nonIncr_cons_cons] at h
      rw [getLastD_cons_cons]
      rcases List.mem_cons.mp hc with rfl | hc2
      · calc (b :: t).getLastD d ≤ b := getLastD_le_of_nonIncr d h.2 b (by simp)
          _ ≤ c := h.1
      · exact getLastD_le_of_nonIncr d h.2 c hc2

theorem le_getD_zero_of_nonIncr [LinearOrder α] (d : α) :
    ∀ {w : List α}, NonIncr w → ∀ c ∈ w, c ≤ w.getD 0 d
  | [], _, c, hc => by simp at hc
  | [a], _, c, hc => by
      simp only [List.mem_singleton] at hc
      subst hc
      simp
  | a :: b :: t, h, c, hc => by
      rw [nonIncr_cons_cons] at h
      rcases List.mem_cons.mp hc with rfl | hc2
      · simp
      · calc c ≤ (b :: t).getD 0 d := le_getD_zero_of_nonIncr d h.2 c hc2
          _ = b := rfl
          _ ≤ a := h.1
          _ = (a :: b :: t).getD 0 d := rfl

theorem nplen_append_cons [LinearOrder α] (d : α) :
    ∀ {P : List α} {b : α} (R : List α), NonIncr P → P ≠ [] → P.getLastD d < b →
      nplen (P ++ b :: R) = P.length
  | [], _, _, _, hne, _ => absurd rfl hne
  | [p], b, R, _, _, hlt => by
      have he : ([p] : List α).getLastD d = p := rfl
      rw [he] at hlt
      rw [List.cons_append, List.nil_append, nplen_cons_cons, if_neg (not_le.mpr hlt)]
      rfl
  | p :: q :: P2, b, R, hP, _, hlt => by
      rw [nonIncr_cons_cons] at hP
      rw [getLastD_cons_cons] at hlt
      have key := nplen_append_cons d R hP.2 (List.cons_ne_nil q P2) hlt
      rw [List.cons_append] at key
      rw [List.cons_append, List.cons_append, nplen_cons_cons, if_pos hP.1, key]
      simp

theorem nonIncr_take [LinearOrder α] {w : List α} (h : NonIncr w) (k : Nat) :
    NonIncr (w.take k) := List.Chain'.take h k

theorem nonIncr_dropLast [LinearOrder α] {w : List α} (h : NonIncr w) :
    NonIncr w.dropLast := by
  rw [List.dropLast_eq_take]
  exact nonIncr_take h _

theorem nplen_ge_iff_nonIncr_dropLast [LinearOrder α] {w : List α} :
    w.length - 1 ≤ nplen w ↔ NonIncr w.dropLast := by
  constructor
  · intro h
    rw [List.dropLast_eq_take]
    have h2 : w.take (w.length - 1) = (w.take (nplen w)).take (w.length - 1) := by
      rw [List.take_take, min_eq_left h]
    rw [h2]
    exact nonIncr_take (nonIncr_take_nplen w) _
  · intro h
    refine le_nplen_of_nonIncr_take w (w.length - 1) ?_ (by omega)
    rw [← List.dropLast_eq_take]
    exact h

theorem widx_of_nonIncr [LinearOrder α] {w : List α} (h : NonIncr w) :
    widx w = w.length - 2 := by
  rw [widx, nplen_eq_length_of_nonIncr h]
  omega

theorem decomp_of_not_nonIncr [LinearOrder α] (d : α) :
    ∀ {w : List α}, ¬ NonIncr w →
      ∃ P b R, w = P ++ b :: R ∧ NonIncr P ∧ P ≠ [] ∧ P.getLastD d < b ∧
        P.length = nplen w
  | [], h => absurd nonIncr_nil h
  | [a], h => absurd (nonIncr_singleton a) h
  | a :: b :: t, h => by
      by_cases hba : b ≤ a
      · have h2 : ¬ NonIncr (b :: t) := fun hc => h (nonIncr_cons_cons.mpr ⟨hba, hc⟩)
        obtain ⟨P, c, R, heq, hP, hne, hlt, hlen⟩ := decomp_of_not_nonIncr d h2
        cases P with
        | nil => exact absurd rfl hne
        | cons p P2 =>
          have hpb : p = b := by
            have h3 := congrArg List.head? heq
            rw [List.cons_append] at h3
            simpa using h3.symm
          subst hpb
          refine ⟨a :: p :: P2, c, R, ?_, ?_, by simp, ?_, ?_⟩
          · rw [List.cons_append, ← heq]
          · rw [nonIncr_cons_cons]
            exact ⟨hba, hP⟩
          · rw [getLastD_cons_cons]
            exact hlt
          · rw [nplen_cons_cons, if_pos hba, ← hlen]
            simp
      · refine ⟨[a], b, t, rfl, nonIncr_singleton a, by simp, ?_, ?_⟩
        · have he : ([a] : List α).getLastD d = a := rfl
          rw [he]
          exact lt_of_not_le hba
        · rw [nplen_cons_cons, if_neg hba]
          rfl

/-! ### The machine step in structural form -/

theorem getD_append_lt (P Q : List α) (d : α) (i : Nat) (h : i < P.length) :
    (P ++ Q).getD i d = P.getD i d := by
  rw [List.getD_eq_getElem?_getD, List.getD_eq_getElem?_getD, List.getElem?_append_left h]

theorem getD_append_ge (P Q : List α) (d : α) (i : Nat) (h : P.length ≤ i) :
    (P ++ Q).getD i d = Q.getD (i - P.length) d := by
  rw [List.getD_eq_getElem?_getD, List.getD_eq_getElem?_getD, List.getElem?_append_right h]

theorem widx_decomp [LinearOrder α] (d : α) {P : List α} {b : α} (R : List α)
    (hP : NonIncr P) (hne : P ≠ []) (hlt : P.getLastD d < b) :
    widx (P ++ b :: R) = P.length - 1 := by
  have hp1 : 1 ≤ P.length := List.length_pos.mpr hne
  rw [widx, nplen_append_cons d R hP hne hlt, List.length_append, List.length_cons]
  omega

theorem wsucc_decompA [LinearOrder α] (d : α) {P : List α} {b : α}
    (hP : NonIncr P) (hne : P ≠ []) (hlt : P.getLastD d < b) :
    wsucc d (P ++ [b]) = b :: P := by
  have hp1 : 1 ≤ P.length := List.length_pos.mpr hne
  have hwidx : widx (P ++ [b]) = P.length - 1 := widx_decomp d [] hP hne hlt
  have hshift : wshift d (P ++ [b]) = P.length := by
    rw [wshift, hwidx, if_neg]
    · omega
    · rintro ⟨hlt2, _⟩
      rw [List.length_append, List.length_singleton] at hlt2
      omega
  rw [wsucc, hshift, shiftToFront, List.take_left,
    List.drop_eq_nil_of_le (by rw [List.length_append, List.length_singleton]),
    List.append_nil]
  congr 1
  rw [getD_append_ge _ _ _ _ (le_refl _), Nat.sub_self]
  rfl

theorem wsucc_decompB [LinearOrder α] (d : α) {P : List α} {b r : α} {R : List α}
    (hP : NonIncr P) (hne : P ≠ []) (hlt : P.getLastD d < b)
    (hr : r ≤ P.getLastD d) :
    wsucc d (P ++ b :: r :: R) = r :: (P ++ b :: R) := by
  have hp1 : 1 ≤ P.length := List.length_pos.mpr hne
  have hwidx : widx (P ++ b :: r :: R) = P.length - 1 := widx_decomp d (r :: R) hP hne hlt
  have hlen : (P ++ b :: r :: R).length = P.length + 2 + R.length := by
    rw [List.length_append]
    simp only [List.length_cons]
    omega
  have hgr : (P ++ b :: r :: R).getD (P.length + 1) d = r := by
    rw [getD_append_ge _ _ _ _ (by omega), Nat.add_sub_cancel_left]
    rfl
  have hgP : (P ++ b :: r :: R).getD (P.length - 1) d = P.getLastD d := by
    rw [getD_append_lt _ _ _ _ (by omega)]
    exact getD_last d hne
  have hshift : wshift d (P ++ b :: r :: R) = P.length + 1 := by
    rw [wshift, hwidx, if_pos]
    · omega
    · constructor
      · rw [hlen]
        omega
      · rw [show P.length - 1 + 2 = P.length + 1 by omega, hgr, hgP]
        exact hr
  have hsplit : P ++ b :: r :: R = (P ++ [b]) ++ r :: R := by
    rw [List.append_assoc, List.singleton_append]
  have hlen2 : (P ++ [b]).length = P.length + 1 := by
    rw [List.length_append, List.length_singleton]
  rw [wsucc, hshift, shiftToFront, hgr, hsplit, List.take_left' hlen2,
    show P.length + 1 + 1 = (P ++ [b]).length + 1 by omega,
    List.drop_append, List.drop_one, List.tail_cons, List.append_assoc, List.singleton_append]

theorem wsucc_decompC [LinearOrder α] (d : α) {P : List α} {b r : α} {R : List α}
    (hP : NonIncr P) (hne : P ≠ []) (hlt : P.getLastD d < b)
    (hr : ¬ r ≤ P.getLastD d) :
    wsucc d (P ++ b :: r :: R) = b :: (P ++ r :: R) := by
  have hp1 : 1 ≤ P.length := List.length_pos.mpr hne
  have hwidx : widx (P ++ b :: r :: R) = P.length - 1 := widx_decomp d (r :: R) hP hne hlt
  have hgr : (P ++ b :: r :: R).getD (P.length + 1) d = r := by
    rw [getD_append_ge _ _ _ _ (by omega), Nat.add_sub_cancel_left]
    rfl
  have hgP : (P ++ b :: r :: R).getD (P.length - 1) d = P.getLastD d := by
    rw [getD_append_lt _ _ _ _ (by omega)]
    exact getD_last d hne
  have hshift : wshift d (P ++ b :: r :: R) = P.length := by
    rw [wshift, hwidx, if_neg]
    · omega
    · rintro ⟨_, hle⟩
      rw [show P.length - 1 + 2 = P.length + 1 by omega, hgr, hgP] at hle
      exact hr hle
  have hgb : (P ++ b :: r :: R).getD P.length d = b := by
    rw [getD_append_ge _ _ _ _ (le_refl _), Nat.sub_self]
    rfl
  rw [wsucc, hshift, shiftToFront, hgb, List.take_left,
    show P.length + 1 = P.length + 1 from rfl, List.drop_append, List.drop_one,
    List.tail_cons]

theorem wsucc_of_nonIncr [LinearOrder α] (d : α) {w : List α} (hw : NonIncr w)
    (h2 : 2 ≤ w.length) :
    wsucc d w = w.getLastD d :: w.dropLast := by
  have hwidx := widx_of_nonIncr hw
  have hshift : wshift d w = w.length - 1 := by
    rw [wshift, hwidx, if_neg]
    · omega
    · rintro ⟨hlt, _⟩
      omega
  have hne : w ≠ [] := by
    intro h
    rw [h] at h2
    simp at h2
  rw [wsucc, hshift, shiftToFront, ← List.dropLast_eq_take, getD_last d hne,
    List.drop_eq_nil_of_le (by omega), List.append_nil]

theorem whalt_iff [LinearOrder α] (d : α) :
    ∀ w : List α,
      whalt d w ↔ NonIncr w.dropLast ∧ w.getD 0 d ≤ w.getD (w.length - 1) d
  | [] => by
      constructor
      · intro _
        exact ⟨nonIncr_nil, le_refl d⟩
      · intro _
        have hw0 : widx ([] : List α) = 0 := rfl
        have hl0 : ([] : List α).length = 0 := rfl
        refine ⟨?_, Or.inl ?_⟩
        · rw [hw0, hl0]
          omega
        · rw [hw0, hl0]
          omega
  | [a] => by
      constructor
      · intro _
        exact ⟨nonIncr_nil, le_refl _⟩
      · intro _
        refine ⟨?_, Or.inl ?_⟩
        · show ¬ widx [a] + 2 < 1
          omega
        · show 1 ≤ widx [a] + 1
          omega
  | a :: b :: t => by
      have hlen : (a :: b :: t).length = t.length + 2 := by simp
      by_cases hni : NonIncr (a :: b :: t).dropLast
      · have h1 : (a :: b :: t).length - 1 ≤ nplen (a :: b :: t) :=
          nplen_ge_iff_nonIncr_dropLast.mpr hni
        have h2 : nplen (a :: b :: t) ≤ (a :: b :: t).length := nplen_le_length _
        have hwidx : widx (a :: b :: t) = (a :: b :: t).length - 2 := by
          rw [widx]
          omega
        rw [whalt, hwidx]
        constructor
        · rintro ⟨hA, hB | hB⟩
          · rw [hlen] at hB
            omega
          · refine ⟨hni, ?_⟩
            rw [show (a :: b :: t).length - 2 + 1 = (a :: b :: t).length - 1 by
              rw [hlen]; omega] at hB
            exact hB
        · rintro ⟨_, hB⟩
          refine ⟨by rw [hlen]; omega, Or.inr ?_⟩
          rw [show (a :: b :: t).length - 2 + 1 = (a :: b :: t).length - 1 by
            rw [hlen]; omega]
          exact hB
      · have h1 : ¬ (a :: b :: t).length - 1 ≤ nplen (a :: b :: t) := by
          intro hc
          exact hni (nplen_ge_iff_nonIncr_dropLast.mp hc)
        have h3 : 0 < nplen (a :: b :: t) := nplen_pos (by simp)
        have hwidx : widx (a :: b :: t) = nplen (a :: b :: t) - 1 := by
          rw [widx]
          rw [hlen] at h1 ⊢
          omega
        constructor
        · rintro ⟨hA, _⟩
          rw [hwidx] at hA
          rw [hlen] at hA h1
          omega
        · rintro ⟨hB, _⟩
          exact absurd hB hni

theorem whalt_append_iff [LinearOrder α] (d : α) {x : List α} {z : α} :
    whalt d (x ++ [z]) ↔ NonIncr x ∧ (x ++ [z]).getD 0 d ≤ z := by
  rw [whalt_iff, List.dropLast_concat]
  have h1 : (x ++ [z]).length - 1 = x.length := by
    rw [List.length_append, List.length_singleton]
    omega
  have h2 : (x ++ [z]).getD ((x ++ [z]).length - 1) d = z := by
    rw [h1, getD_append_ge _ _ _ _ (le_refl _), Nat.sub_self]
    rfl
  rw [h2]

theorem wsucc_append_last [LinearOrder α] (d : α) {x : List α} {z : α}
    (hx : NonIncr x) (hne : x ≠ []) :
    wsucc d (x ++ [z]) = z :: x := by
  by_cases hz : z ≤ x.getLastD d
  · have hni : NonIncr (x ++ [z]) := by
      unfold NonIncr at hx ⊢
      rw [List.chain'_append]
      refine ⟨hx, List.chain'_singleton z, ?_⟩
      intro p hp q hq
      have hq2 : q = z := by
        simp only [List.head?_cons] at hq
        exact (Option.mem_some_iff.mp hq).symm
      have hp2 : x.getLastD d = p := by
        rw [List.getLastD_eq_getLast?]
        rw [Option.mem_def] at hp
        rw [hp]
        rfl
      rw [hq2]
      rw [← hp2]
      exact hz
    rw [wsucc_of_nonIncr d hni
      (by rw [List.length_append, List.length_singleton]
          have := List.length_pos.mpr hne
          omega),
      List.dropLast_concat, getLastD_append_singleton]
  · exact wsucc_decompA d hx hne (lt_of_not_le hz)

theorem wsucc_append_step [LinearOrder α] (d : α) {x : List α} {z : α}
    (hx : ¬ NonIncr x)
    (hz : NonIncr x.dropLast → ¬ z ≤ x.getD (x.length - 2) d) :
    wsucc d (x ++ [z]) = wsucc d x ++ [z] := by
  obtain ⟨P, b, R, rfl, hP, hne, hlt, hlen⟩ := decomp_of_not_nonIncr d hx
  have hp1 : 1 ≤ P.length := List.length_pos.mpr hne
  cases R with
  | nil =>
    have hni : NonIncr (P ++ [b] : List α).dropLast := by
      rw [List.dropLast_concat]
      exact hP
    have hz2 := hz hni
    have hgd : (P ++ [b] : List α).getD ((P ++ [b] : List α).length - 2) d =
        P.getLastD d := by
      rw [List.length_append, List.length_singleton,
        show P.length + 1 - 2 = P.length - 1 by omega,
        getD_append_lt _ _ _ _ (by omega)]
      exact getD_last d hne
    rw [hgd] at hz2
    have hsp : (P ++ [b] : List α) ++ [z] = P ++ b :: z :: [] := by
      rw [List.append_assoc, List.singleton_append]
    rw [hsp, wsucc_decompC d hP hne hlt hz2, wsucc_decompA d hP hne hlt,
      List.cons_append]
  | cons r R2 =>
    have hsp : (P ++ b :: r :: R2) ++ [z] = P ++ b :: r :: (R2 ++ [z]) := by
      rw [List.append_assoc, List.cons_append, List.cons_append]
    by_cases hr : r ≤ P.getLastD d
    · rw [hsp, wsucc_decompB d hP hne hlt hr, wsucc_decompB d hP hne hlt hr,
        List.cons_append, List.append_assoc, List.cons_append]
    · rw [hsp, wsucc_decompC d hP hne hlt hr, wsucc_decompC d hP hne hlt hr,
        List.cons_append, List.append_assoc, List.cons_append]

theorem wsucc_of_whalt [LinearOrder α] (d : α) {w : List α} (hw : whalt d w)
    (h2 : 2 ≤ w.length) :
    wsucc d w = w.getLastD d :: w.dropLast ∧ NonIncr (wsucc d w) := by
  obtain ⟨hni, hle⟩ := (whalt_iff d w).mp hw
  have hne : w ≠ [] := by
    intro h
    rw [h] at h2
    simp at h2
  have hdne : w.dropLast ≠ [] := by
    intro h
    have := List.length_dropLast w
    rw [h] at this
    simp at this
    omega
  obtain ⟨x, z, hxz⟩ : ∃ x z, w = x ++ [z] := by
    rcases List.eq_nil_or_concat w with h | ⟨x, z, h⟩
    · exact absurd h hne
    · exact ⟨x, z, by rw [h, List.concat_eq_append]⟩
  subst hxz
  rw [List.dropLast_concat] at hni hdne ⊢
  have hs : wsucc d (x ++ [z]) = z :: x := wsucc_append_last d hni hdne
  rw [getLastD_append_singleton]
  refine ⟨hs, ?_⟩
  rw [hs]
  rw [whalt_append_iff] at hw
  cases x with
  | nil => exact absurd rfl hdne
  | cons a t =>
    rw [nonIncr_cons_cons]
    refine ⟨?_, hni⟩
    have := hw.2
    rw [List.cons_append] at this
    exact this

theorem whalt_of_length_le_one [LinearOrder α] (d : α) {w : List α}
    (h : w.length ≤ 1) : whalt d w := by
  rw [whalt_iff]
  constructor
  · have h2 : w.dropLast = [] := by
      have := List.length_dropLast w
      have h3 : w.dropLast.length = 0 := by omega
      exact List.length_eq_zero.mp h3
    rw [h2]
    exact nonIncr_nil
  · have h4 : w.length - 1 = 0 := by omega
    rw [h4]

theorem wshift_lt [LinearOrder α] (d : α) {w : List α} (hn : ¬ whalt d w) :
    wshift d w < w.length := by
  have h2 : 2 ≤ w.length := by
    by_contra hc
    exact hn (whalt_of_length_le_one d (by omega))
  rw [wshift]
  split
  · next hcond => exact hcond.1
  · have hx : widx w ≤ w.length - 2 := by
      rw [widx]
      omega
    omega

theorem widx_cons_one [LinearOrder α] (d : α) {a : α} {l : List α}
    (hne : l ≠ []) (hlt : ¬ l.getD 0 d ≤ a) : widx (a :: l) = 0 := by
  cases l with
  | nil => exact absurd rfl hne
  | cons p t =>
    have hp0 : (p :: t).getD 0 d = p := rfl
    rw [hp0] at hlt
    have hn : nplen (a :: p :: t) = 1 := by
      rw [nplen_cons_cons, if_neg hlt]
    rw [widx, hn]
    have : 1 ≤ (a :: p :: t).length - 1 := by simp
    omega

theorem widx_wsucc [LinearOrder α] (d : α) {w : List α} (hn : ¬ whalt d w) :
    widx (wsucc d w) =
      if (wsucc d w).getD 0 d < (wsucc d w).getD 1 d then 0 else widx w + 1 := by
  have h2 : 2 ≤ w.length := by
    by_contra hc
    exact hn (whalt_of_length_le_one d (by omega))
  by_cases hni : NonIncr w
  · have hw1 := wsucc_of_nonIncr d hni h2
    have hlt : ¬ w.getD 0 d ≤ w.getD (w.length - 1) d := by
      intro hc
      exact hn ((whalt_iff d w).mpr ⟨nonIncr_dropLast hni, hc⟩)
    have hne : w ≠ [] := by
      intro h
      rw [h] at h2
      simp at h2
    rw [getD_last d hne] at hlt
    have hd0 : w.dropLast.getD 0 d = w.getD 0 d := by
      rw [List.dropLast_eq_take, List.getD_eq_getElem?_getD, List.getD_eq_getElem?_getD,
        List.getElem?_take, if_pos (by omega : (0 : Nat) < w.length - 1)]
    have hdne : w.dropLast ≠ [] := by
      intro h
      have := List.length_dropLast w
      rw [h] at this
      simp at this
      omega
    have hg0 : (wsucc d w).getD 0 d = w.getLastD d := by
      rw [hw1]
      rfl
    have hg1 : (wsucc d w).getD 1 d = w.getD 0 d := by
      rw [hw1]
      show w.dropLast.getD 0 d = w.getD 0 d
      exact hd0
    rw [hg0, hg1, if_pos (lt_of_not_le hlt), hw1]
    refine widx_cons_one d hdne ?_
    rw [hd0]
    exact hlt
  · obtain ⟨P, b, R, rfl, hP, hne, hlt, hlen⟩ := decomp_of_not_nonIncr d hni
    have hp1 : 1 ≤ P.length := List.length_pos.mpr hne
    have hwidx : widx (P ++ b :: R) = P.length - 1 := widx_decomp d R hP hne hlt
    have hg0P : (P ++ b :: R).getD 0 d = P.getD 0 d := getD_append_lt _ _ _ _ (by omega)
    cases R with
    | nil =>
      have hzlt : ¬ P.getD 0 d ≤ b := by
        intro hc
        refine hn ((whalt_iff d _).mpr ⟨?_, ?_⟩)
        · rw [List.dropLast_concat]
          exact hP
        · rw [hg0P, List.length_append, List.length_singleton,
            show P.length + 1 - 1 = P.length by omega,
            getD_append_ge _ _ _ _ (le_refl _), Nat.sub_self]
          exact hc
      have hs := wsucc_decompA d hP hne hlt
      rw [hs]
      have hg0 : (b :: P).getD 0 d = b := rfl
      have hg1 : (b :: P).getD 1 d = P.getD 0 d := rfl
      rw [hg0, hg1, if_pos (lt_of_not_le hzlt)]
      exact widx_cons_one d hne hzlt
    | cons r R2 =>
      by_cases hr : r ≤ P.getLastD d
      · have hs : wsucc d (P ++ b :: r :: R2) = r :: (P ++ b :: R2) :=
          wsucc_decompB d hP hne hlt hr
        rw [hs]
        have hg0 : (r :: (P ++ b :: R2)).getD 0 d = r := rfl
        have hg1 : (r :: (P ++ b :: R2)).getD 1 d = P.getD 0 d := by
          show (P ++ b :: R2).getD 0 d = P.getD 0 d
          exact getD_append_lt _ _ _ _ (by omega)
        rw [hg0, hg1]
        by_cases hrp : r < P.getD 0 d
        · rw [if_pos hrp]
          refine widx_cons_one d (by simp) ?_
          rw [show ((P ++ b :: R2).getD 0 d) = P.getD 0 d from
            getD_append_lt _ _ _ _ (by omega)]
          exact not_le.mpr hrp
        · rw [if_neg hrp]
          have hPr : P.getD 0 d ≤ r := not_lt.mp hrp
          cases P with
          | nil => exact absurd rfl hne
          | cons p P2 =>
            have hrP : NonIncr (r :: p :: P2) := by
              rw [nonIncr_cons_cons]
              exact ⟨hPr, hP⟩
            have hgl : (r :: p :: P2).getLastD d = (p :: P2).getLastD d :=
              getLastD_cons_cons r p d P2
            have hnp2 : nplen ((r :: p :: P2) ++ b :: R2) = (r :: p :: P2).length :=
              nplen_append_cons d R2 hrP (by simp) (by rw [hgl]; exact hlt)
            have hshape : r :: ((p :: P2) ++ b :: R2) = (r :: p :: P2) ++ b :: R2 := rfl
            rw [hshape, widx, hnp2, hwidx]
            rw [List.length_append]
            simp only [List.length_cons]
            omega
      · have hs : wsucc d (P ++ b :: r :: R2) = b :: (P ++ r :: R2) :=
          wsucc_decompC d hP hne hlt hr
        rw [hs]
        have hg0 : (b :: (P ++ r :: R2)).getD 0 d = b := rfl
        have hg1 : (b :: (P ++ r :: R2)).getD 1 d = P.getD 0 d := by
          show (P ++ r :: R2).getD 0 d = P.getD 0 d
          exact getD_append_lt _ _ _ _ (by omega)
        rw [hg0, hg1]
        by_cases hbp : b < P.getD 0 d
        · rw [if_pos hbp]
          refine widx_cons_one d (by simp) ?_
          rw [show ((P ++ r :: R2).getD 0 d) = P.getD 0 d from
            getD_append_lt _ _ _ _ (by omega)]
          exact not_le.mpr hbp
        · rw [if_neg hbp]
          have hPb : P.getD 0 d ≤ b := not_lt.mp hbp
          cases P with
          | nil => exact absurd rfl hne
          | cons p P2 =>
            have hrP : NonIncr (b :: p :: P2) := by
              rw [nonIncr_cons_cons]
              exact ⟨hPb, hP⟩
            have hgl : (b :: p :: P2).getLastD d = (p :: P2).getLastD d :=
              getLastD_cons_cons b p d P2
            have hnp2 : nplen ((b :: p :: P2) ++ r :: R2) = (b :: p :: P2).length :=
              nplen_append_cons d R2 hrP (by simp)
                (by rw [hgl]; exact lt_of_not_le hr)
            have hshape : b :: ((p :: P2) ++ r :: R2) = (b :: p :: P2) ++ r :: R2 := rfl
            rw [hshape, widx, hnp2, hwidx]
            rw [List.length_append]
            simp only [List.length_cons]
            omega

/-! ### Step chains -/

theorem stepChain_tail [LinearOrder α] {d : α} {w : List α} {O : List (List α)}
    (h : StepChain d (w :: O)) : StepChain d O := by
  cases O with
  | nil => trivial
  | cons w2 t => exact h.2

theorem stepChain_suffix [LinearOrder α] {d : α} {S O : List (List α)}
    (hs : S <:+ O) (h : StepChain d O) : StepChain d S := by
  obtain ⟨t, rfl⟩ := hs
  induction t with
  | nil => exact h
  | cons x t2 ih => exact ih (stepChain_tail h)

theorem stepChain_cons [LinearOrder α] {d : α} {w : List α} {O : List (List α)}
    (hO : StepChain d O) (hh : ¬ whalt d w) (hs : O.head? = some (wsucc d w)) :
    StepChain d (w :: O) := by
  cases O with
  | nil => simp at hs
  | cons o t =>
    rw [List.head?_cons, Option.some_inj] at hs
    exact ⟨⟨hh, hs.symm⟩, hO⟩

theorem stepChain_getLast_whalt [LinearOrder α] {d : α} :
    ∀ {O : List (List α)} {y : List α}, StepChain d O → O.getLast? = some y →
      whalt d y
  | [], _, _, hy => by simp at hy
  | [w], y, hO, hy => by
      rw [List.getLast?_singleton, Option.some_inj] at hy
      exact hy ▸ hO
  | w :: w2 :: t, y, hO, hy => by
      rw [List.getLast?_cons_cons] at hy
      exact stepChain_getLast_whalt hO.2 hy

theorem stepChain_ne_nil_of_head [LinearOrder α] {d : α} {O : List (List α)}
    {w : List α} (h : O.head? = some w) : O ≠ [] := by
  intro hc
  rw [hc] at h
  simp at h

/-! ### Uniqueness of the non-increasing arrangement -/

theorem nonIncr_unique [LinearOrder α] {l1 l2 : List α} (h1 : NonIncr l1)
    (h2 : NonIncr l2) (hp : l1 ~ l2) : l1 = l2 := by
  haveI : IsAntisymm α (· ≥ ·) := ⟨fun a b ha hb => le_antisymm hb ha⟩
  have s1 : l1.Sorted (· ≥ ·) := List.chain'_iff_pairwise.mp h1
  have s2 : l2.Sorted (· ≥ ·) := List.chain'_iff_pairwise.mp h2
  exact List.eq_of_perm_of_sorted hp s1 s2

theorem nonIncr_of_all_eq [LinearOrder α] {c : α} :
    ∀ {l : List α}, (∀ a ∈ l, a = c) → NonIncr l
  | [], _ => nonIncr_nil
  | [a], _ => nonIncr_singleton a
  | a :: b :: t, h => by
      rw [nonIncr_cons_cons]
      constructor
      · rw [h a (by simp), h b (by simp)]
      · exact nonIncr_of_all_eq (fun x hx => h x (by simp [hx]))

theorem whalt_nonIncr_all_eq [LinearOrder α] (d : α) {w : List α}
    (hh : whalt d w) (hni : NonIncr w) : ∀ c ∈ w, c = w.getD 0 d := by
  obtain ⟨_, hle⟩ := (whalt_iff d w).mp hh
  intro c hc
  have hne : w ≠ [] := by
    intro h
    rw [h] at hc
    simp at hc
  have h1 : c ≤ w.getD 0 d := le_getD_zero_of_nonIncr d hni c hc
  have h2 : w.getLastD d ≤ c := getLastD_le_of_nonIncr d hni c hc
  rw [getD_last d hne] at hle
  exact le_antisymm h1 (le_trans hle h2)

/-! ### More structural helpers -/

theorem getLastD_mem (d : α) {l : List α} (hne : l ≠ []) : l.getLastD d ∈ l := by
  rcases List.eq_nil_or_concat l with rfl | ⟨x, z, rfl⟩
  · exact absurd rfl hne
  · rw [List.concat_eq_append, getLastD_append_singleton]
    simp

theorem getD_zero_mem (d : α) {l : List α} (hne : l ≠ []) : l.getD 0 d ∈ l := by
  cases l with
  | nil => exact absurd rfl hne
  | cons a t => simp [List.getD_cons_zero]

theorem dropLast_append_getLastD (d : α) {w : List α} (hne : w ≠ []) :
    w.dropLast ++ [w.getLastD d] = w := by
  rcases List.eq_nil_or_concat w with rfl | ⟨x, z, rfl⟩
  · exact absurd rfl hne
  · rw [List.concat_eq_append, List.dropLast_concat, getLastD_append_singleton]

theorem nonIncr_concat_iff [LinearOrder α] (d : α) {P : List α} {c : α}
    (hne : P ≠ []) : NonIncr (P ++ [c]) ↔ NonIncr P ∧ c ≤ P.getLastD d := by
  unfold NonIncr
  rw [List.chain'_append]
  constructor
  · rintro ⟨h1, _, h3⟩
    refine ⟨h1, ?_⟩
    rcases List.eq_nil_or_concat P with rfl | ⟨x, z, rfl⟩
    · exact absurd rfl hne
    · rw [List.concat_eq_append, getLastD_append_singleton]
      refine h3 z ?_ c ?_
      · refine Option.mem_def.mpr ?_
        rw [List.concat_eq_append, List.getLast?_concat]
      · exact Option.mem_def.mpr rfl
  · rintro ⟨h1, h2⟩
    refine ⟨h1, List.chain'_singleton c, ?_⟩
    intro x hx y hy
    have hy2 : y = c := by
      simp only [List.head?_cons] at hy
      exact (Option.mem_some_iff.mp hy).symm
    have hx2 : P.getLastD d = x := by
      rw [List.getLastD_eq_getLast?, Option.mem_def] at *
      rw [hx]
      rfl
    rw [hy2, ← hx2]
    exact h2

theorem nonIncr_concat_min [LinearOrder α] {P : List α} {c : α}
    (hP : NonIncr P) (hc : ∀ a ∈ P, c ≤ a) : NonIncr (P ++ [c]) := by
  cases P with
  | nil => exact nonIncr_singleton c
  | cons p t =>
    rw [nonIncr_concat_iff c (List.cons_ne_nil p t)]
    exact ⟨hP, hc _ (getLastD_mem c (List.cons_ne_nil p t))⟩

theorem dropLast_perm_erase [LinearOrder α] (d : α) {w : List α} (hne : w ≠ []) :
    w.dropLast ~ w.erase (w.getLastD d) := by
  have h1 : w ~ w.getLastD d :: w.dropLast := by
    conv_lhs => rw [← dropLast_append_getLastD d hne]
    exact List.perm_append_singleton _ _
  have h2 : w ~ w.getLastD d :: w.erase (w.getLastD d) :=
    List.perm_cons_erase (getLastD_mem d hne)
  exact (h1.symm.trans h2).cons_inv

theorem wsucc_trigger_append [LinearOrder α] (d : α) {u : List α} {z : α}
    (hne : u ≠ []) (ht : NonIncr u.dropLast) (hz : ∀ c ∈ u, z ≤ c) :
    wsucc d (u ++ [z]) = z :: u := by
  by_cases hni : NonIncr u
  · exact wsucc_append_last d hni hne
  · have hdne : u.dropLast ≠ [] := by
      intro hc
      have h1 := dropLast_append_getLastD d hne
      rw [hc, List.nil_append] at h1
      rw [← h1] at hni
      exact hni (nonIncr_singleton _)
    have hu_eq : u.dropLast ++ [u.getLastD d] = u := dropLast_append_getLastD d hne
    have hlt : u.dropLast.getLastD d < u.getLastD d := by
      by_contra hc
      rw [not_lt] at hc
      refine hni ?_
      rw [← hu_eq]
      exact (nonIncr_concat_iff d hdne).mpr ⟨ht, hc⟩
    have hzle : z ≤ u.dropLast.getLastD d :=
      hz _ ((List.dropLast_sublist u).subset (getLastD_mem d hdne))
    have hB : wsucc d (u.dropLast ++ u.getLastD d :: z :: []) =
        z :: (u.dropLast ++ u.getLastD d :: []) := wsucc_decompB d ht hdne hlt hzle
    have hsp : u ++ [z] = u.dropLast ++ u.getLastD d :: z :: [] := by
      conv_lhs => rw [← hu_eq]
      rw [List.append_assoc]
      rfl
    rw [hsp, hB, hu_eq]

theorem not_whalt_append_of_big [LinearOrder α] (d : α) {u : List α} {z : α}
    (hne : u ≠ []) (hbig : ∃ c ∈ u, ¬ c ≤ z) : ¬ whalt d (u ++ [z]) := by
  rw [whalt_append_iff]
  rintro ⟨hni, hle⟩
  obtain ⟨c, hc, hcz⟩ := hbig
  have h1 : (u ++ [z]).getD 0 d = u.getD 0 d := getD_append_lt _ _ _ _ (List.length_pos.mpr hne)
  rw [h1] at hle
  exact hcz (le_trans (le_getD_zero_of_nonIncr d hni c hc) hle)

/-! ### Traversing a block of the orbit -/

theorem stepChain_block_aux [LinearOrder α] (d : α) (v : α) (Tail : List (List α))
    (hTail : StepChain d Tail) :
    ∀ (Bt : List (List α)) (x : List α),
      StepChain d (x :: Bt) →
      (∀ y ∈ x :: Bt, ¬ NonIncr y ∧
        (NonIncr y.dropLast → ¬ v ≤ y.getD (y.length - 2) d)) →
      (∀ y, (x :: Bt).getLast? = some y → Tail.head? = some (wsucc d y ++ [v])) →
      StepChain d ((x :: Bt).map (fun b => b ++ [v]) ++ Tail)
  | [], x, hchain, hcond, hlast => by
      have hx := hcond x (by simp)
      have hTh := hlast x (by rw [List.getLast?_singleton])
      rw [List.map_singleton, List.singleton_append]
      refine stepChain_cons hTail ?_ ?_
      · rw [whalt_append_iff]
        rintro ⟨hni, _⟩
        exact hx.1 hni
      · rw [wsucc_append_step d hx.1 hx.2]
        exact hTh
  | y2 :: Bt2, x, hchain, hcond, hlast => by
      obtain ⟨⟨hnh, hstep⟩, hrest⟩ := hchain
      have hx := hcond x (by simp)
      rw [List.map_cons, List.cons_append]
      refine stepChain_cons ?_ ?_ ?_
      · exact stepChain_block_aux d v Tail hTail Bt2 y2 hrest
          (fun y hy => hcond y (List.mem_cons_of_mem x hy))
          (fun y hy => hlast y (by rw [List.getLast?_cons_cons]; exact hy))
      · rw [whalt_append_iff]
        rintro ⟨hni, _⟩
        exact hx.1 hni
      · rw [List.map_cons, List.cons_append, List.head?_cons, Option.some_inj,
          wsucc_append_step d hx.1 hx.2, hstep]

theorem block_traverse [LinearOrder α] (d : α) {v : α} {B : List (List α)} {d0 : List α}
    (hBhead : B.head? = some d0) (hchain : StepChain d B)
    (hperm : ∀ x ∈ B, x ~ d0) (hnodup : B.Nodup) (hd0 : NonIncr d0)
    (hint : ∀ y ∈ B.tail, NonIncr y.dropLast → ¬ v ≤ y.getD (y.length - 2) d)
    (Tail : List (List α)) (hTail : StepChain d ((d0 ++ [v]) :: Tail)) :
    StepChain d ((B.tail ++ [d0]).map (fun b => b ++ [v]) ++ Tail) := by
  cases B with
  | nil => simp at hBhead
  | cons b0 Bt =>
    rw [List.head?_cons, Option.some_inj] at hBhead
    subst hBhead
    cases Bt with
    | nil =>
      simp only [List.tail_cons, List.nil_append, List.map_singleton,
        List.singleton_append]
      exact hTail
    | cons B1 Bt2 =>
      have hne_b0 : ¬ whalt d b0 := hchain.1.1
      have hlen2 : 2 ≤ b0.length := by
        by_contra hc
        exact hne_b0 (whalt_of_length_le_one d (by omega))
      have hconds : ∀ y ∈ B1 :: Bt2, ¬ NonIncr y ∧
          (NonIncr y.dropLast → ¬ v ≤ y.getD (y.length - 2) d) := by
        intro y hy
        refine ⟨?_, hint y hy⟩
        intro hniy
        have heq : y = b0 :=
          nonIncr_unique hniy hd0 (hperm y (List.mem_cons_of_mem _ hy))
        rw [heq] at hy
        exact (List.nodup_cons.mp hnodup).1 hy
      have hlast : ∀ y, (B1 :: Bt2).getLast? = some y →
          ((b0 ++ [v]) :: Tail).head? = some (wsucc d y ++ [v]) := by
        intro y hy
        rw [List.head?_cons, Option.some_inj]
        have hyw : whalt d y := stepChain_getLast_whalt (stepChain_tail hchain) hy
        have hymem : y ∈ B1 :: Bt2 := List.mem_of_mem_getLast? hy
        have hyperm : y ~ b0 := hperm y (List.mem_cons_of_mem _ hymem)
        have hylen : 2 ≤ y.length := by
          rw [hyperm.length_eq]
          exact hlen2
        have hyne : y ≠ [] := by
          intro hc
          rw [hc] at hylen
          simp at hylen
        obtain ⟨hws, hwni⟩ := wsucc_of_whalt d hyw hylen
        have hwperm : wsucc d y ~ b0 := by
          rw [hws]
          calc y.getLastD d :: y.dropLast
              ~ y := by
                conv_rhs => rw [← dropLast_append_getLastD d hyne]
                exact (List.perm_append_singleton _ _).symm
            _ ~ b0 := hyperm
        rw [nonIncr_unique hwni hd0 hwperm]
      have haux := stepChain_block_aux d v ((b0 ++ [v]) :: Tail) hTail Bt2 B1
        (stepChain_tail hchain) hconds hlast
      rw [List.tail_cons, List.map_append, List.map_singleton, List.append_assoc,
        List.singleton_append]
      exact haux

theorem ascent_of_not_nonIncr [LinearOrder α] (d : α) {y : List α} (hne : y ≠ [])
    (hdl : NonIncr y.dropLast) (hny : ¬ NonIncr y) :
    y.dropLast.getLastD d < y.getLastD d := by
  have hdne : y.dropLast ≠ [] := by
    intro hc
    have h1 := dropLast_append_getLastD d hne
    rw [hc, List.nil_append] at h1
    rw [← h1] at hny
    exact hny (nonIncr_singleton _)
  by_contra hc
  rw [not_lt] at hc
  refine hny ?_
  rw [← dropLast_append_getLastD d hne]
  exact (nonIncr_concat_iff d hdne).mpr ⟨hdl, hc⟩

theorem getD_zero_dropLast (d : α) {w : List α} (h : 2 ≤ w.length) :
    w.dropLast.getD 0 d = w.getD 0 d := by
  rw [List.dropLast_eq_take, List.getD_eq_getElem?_getD, List.getD_eq_getElem?_getD,
    List.getElem?_take, if_pos (by omega : (0 : Nat) < w.length - 1)]

theorem getD_pred_eq_dropLast_getLastD (d : α) {w : List α} (h : 2 ≤ w.length) :
    w.getD (w.length - 2) d = w.dropLast.getLastD d := by
  have hdne : w.dropLast ≠ [] := by
    intro hc
    have h2 := List.length_dropLast w
    rw [hc] at h2
    simp at h2
    omega
  have h3 := getD_last d hdne
  rw [List.length_dropLast] at h3
  rw [show w.length - 1 - 1 = w.length - 2 by omega] at h3
  rw [← h3, List.dropLast_eq_take, List.getD_eq_getElem?_getD, List.getD_eq_getElem?_getD,
    List.getElem?_take, if_pos (by omega : w.length - 2 < w.length - 1)]

/-! ### A complete excursion block of the orbit -/

theorem trigger_block [LinearOrder α] (d : α) {n : Nat} {E u sortE : List α} {m v : α}
    (hn2 : 2 ≤ n) (hElen : E.length = n)
    (hm_min : ∀ c ∈ E, m ≤ c) (hm_mem : m ∈ E)
    (hu_perm : u ~ E.erase m) (ht : NonIncr u.dropLast)
    (hv : u.getLastD d = v) (hv_ne : v ≠ m)
    (hSE_ni : NonIncr sortE) (hSE_perm : sortE ~ E.erase v)
    {B : List (List α)}
    (hBh : B.head? = some sortE) (hBc : StepChain d B)
    (hBp : ∀ x ∈ B, x ~ sortE) (hBn : B.Nodup)
    (hBcov : ∀ y, y ~ sortE → y ∈ B)
    (Tail : List (List α))
    (hTailChain : StepChain d ((sortE ++ [v]) :: Tail)) :
    StepChain d ((u ++ [m]) :: (((B.tail ++ [sortE]).map (fun b => b ++ [v])) ++ Tail)) ∧
      (∀ w, w ∈ (B.tail ++ [sortE]).map (fun b => b ++ [v]) ↔
        w.getLastD d = v ∧ w.dropLast ~ E.erase v) ∧
      ((B.tail ++ [sortE]).map (fun b => b ++ [v])).Nodup := by
  have hu_len : u.length = n - 1 := by
    rw [hu_perm.length_eq, List.length_erase_of_mem hm_mem, hElen]
  have hu_ne : u ≠ [] := by
    intro hc
    rw [hc] at hu_len
    simp at hu_len
    omega
  have hu_sub : ∀ c ∈ u, c ∈ E := by
    intro c hc
    exact List.mem_of_mem_erase (hu_perm.mem_iff.mp hc)
  have hv_mem_u : v ∈ u := hv ▸ getLastD_mem d hu_ne
  have hv_mem_E : v ∈ E := hu_sub v hv_mem_u
  have hm_lt : m < v := lt_of_le_of_ne (hm_min v hv_mem_E) (Ne.symm hv_ne)
  have hm_in_Ev : m ∈ E.erase v := (List.mem_erase_of_ne (Ne.symm hv_ne)).mpr hm_mem
  have hEv_len : (E.erase v).length = n - 1 := by
    rw [List.length_erase_of_mem hv_mem_E, hElen]
  have hSE_len : sortE.length = n - 1 := by
    rw [hSE_perm.length_eq, hEv_len]
  have hSE_ne : sortE ≠ [] := by
    intro hc
    rw [hc] at hSE_len
    simp at hSE_len
    omega
  have hSE_last : sortE.getLastD d = m := by
    refine le_antisymm ?_ ?_
    · exact getLastD_le_of_nonIncr d hSE_ni m (hSE_perm.mem_iff.mpr hm_in_Ev)
    · exact hm_min _ (List.mem_of_mem_erase (hSE_perm.mem_iff.mp (getLastD_mem d hSE_ne)))
  have hSE_decomp : sortE.dropLast ++ [m] = sortE := by
    rw [← hSE_last]
    exact dropLast_append_getLastD d hSE_ne
  have hu_decomp : u.dropLast ++ [v] = u := by
    rw [← hv]
    exact dropLast_append_getLastD d hu_ne
  have hudl_perm : u.dropLast ~ (E.erase v).erase m := by
    have h1 : u.dropLast ~ u.erase v := by
      rw [← hv]
      exact dropLast_perm_erase d hu_ne
    have h2 : u.erase v ~ (E.erase m).erase v := hu_perm.erase v
    rw [List.erase_comm] at h2
    exact h1.trans h2
  have hSEdl_perm : sortE.dropLast ~ (E.erase v).erase m := by
    have h1 : sortE.dropLast ~ sortE.erase m := by
      rw [← hSE_last]
      exact dropLast_perm_erase d hSE_ne
    exact h1.trans (hSE_perm.erase m)
  have heq_dl : sortE.dropLast = u.dropLast :=
    nonIncr_unique (nonIncr_dropLast hSE_ni) ht (hSEdl_perm.trans hudl_perm.symm)
  have hmu : wsucc d (u ++ [m]) = m :: u :=
    wsucc_trigger_append d hu_ne ht (fun c hc => hm_min c (hu_sub c hc))
  have hnothalt_um : ¬ whalt d (u ++ [m]) :=
    not_whalt_append_of_big d hu_ne ⟨v, hv_mem_u, not_le.mpr hm_lt⟩
  -- membership characterization and nodup hold independently of the chain shape
  cases B with
  | nil => simp at hBh
  | cons b0 Bt =>
    rw [List.head?_cons, Option.some_inj] at hBh
    subst b0
    have hmem_iff : ∀ w, w ∈ (Bt ++ [sortE]).map (fun b => b ++ [v]) ↔
        w.getLastD d = v ∧ w.dropLast ~ E.erase v := by
      intro w
      rw [List.mem_map]
      constructor
      · rintro ⟨b, hb, rfl⟩
        have hbB : b ∈ sortE :: Bt := by
          rcases List.mem_append.mp hb with h | h
          · exact List.mem_cons_of_mem _ h
          · rw [List.mem_singleton] at h
            rw [h]
            exact List.mem_cons_self _ _
        refine ⟨getLastD_append_singleton b v d, ?_⟩
        rw [List.dropLast_concat]
        exact (hBp b hbB).trans hSE_perm
      · rintro ⟨hwl, hwd⟩
        have hwdne : w.dropLast ≠ [] := by
          intro hc
          have := hwd.length_eq
          rw [hc, hEv_len] at this
          simp at this
          omega
        have hwne : w ≠ [] := by
          intro hc
          rw [hc] at hwdne
          simp at hwdne
        have hwB : w.dropLast ∈ sortE :: Bt :=
          hBcov _ (hwd.trans hSE_perm.symm)
        refine ⟨w.dropLast, ?_, ?_⟩
        · rcases List.mem_cons.mp hwB with h | h
          · rw [h]
            exact List.mem_append_right _ (List.mem_singleton_self _)
          · exact List.mem_append_left _ h
        · rw [← hwl]
          exact dropLast_append_getLastD d hwne
    have hnodup_blk : ((Bt ++ [sortE]).map (fun b => b ++ [v])).Nodup := by
      refine List.Nodup.map (fun l1 l2 h => List.append_left_injective [v] h) ?_
      have hperm : (Bt ++ [sortE]) ~ sortE :: Bt := List.perm_append_singleton _ _
      exact hperm.nodup_iff.mpr hBn
    refine ⟨?_, hmem_iff, hnodup_blk⟩
    cases Bt with
    | nil =>
      have hSE_halt : whalt d sortE := hBc
      have hall : ∀ c ∈ sortE, c = sortE.getD 0 d := whalt_nonIncr_all_eq d hSE_halt hSE_ni
      have hm0 : m = sortE.getD 0 d := hall m (hSE_perm.mem_iff.mpr hm_in_Ev)
      have hall_m : ∀ c ∈ sortE, c = m := fun c hc => (hall c hc).trans hm0.symm
      have hcons_eq : m :: u.dropLast = sortE := by
        refine nonIncr_unique (@nonIncr_of_all_eq α _ m _ ?_) hSE_ni ?_
        · intro a ha
          rcases List.mem_cons.mp ha with rfl | ha2
          · rfl
          · refine hall_m a ?_
            rw [← heq_dl] at ha2
            exact (List.dropLast_sublist sortE).subset ha2
        · calc m :: u.dropLast
              = m :: sortE.dropLast := by rw [heq_dl]
            _ ~ sortE.dropLast ++ [m] := (List.perm_append_singleton _ _).symm
            _ = sortE := hSE_decomp
      simp only [List.tail_cons, List.nil_append, List.map_singleton, List.singleton_append]
      refine stepChain_cons hTailChain hnothalt_um ?_
      rw [List.head?_cons, Option.some_inj, hmu, ← hcons_eq, List.cons_append,
        hu_decomp]
    | cons B1 Bt2 =>
      have hSE_nothalt : ¬ whalt d sortE := hBc.1.1
      have hB1 : wsucc d sortE = B1 := hBc.1.2
      have hSE_len2 : 2 ≤ sortE.length := by
        by_contra hc
        exact hSE_nothalt (whalt_of_length_le_one d (by omega))
      have hB1_eq : B1 = m :: sortE.dropLast := by
        rw [← hB1, wsucc_of_nonIncr d hSE_ni hSE_len2, hSE_last]
      have hint : ∀ y ∈ (sortE :: B1 :: Bt2).tail,
          NonIncr y.dropLast → ¬ v ≤ y.getD (y.length - 2) d := by
        intro y hy hydl
        have hyperm : y ~ sortE := hBp y (List.mem_cons_of_mem _ hy)
        have hyne : y ≠ [] := by
          intro hc
          rw [hc] at hyperm
          exact hSE_ne (hyperm.symm.eq_nil)
        have hylen2 : 2 ≤ y.length := by
          rw [hyperm.length_eq, hSE_len]
          omega
        have hyni : ¬ NonIncr y := by
          intro hc
          have : y = sortE := nonIncr_unique hc hSE_ni hyperm
          rw [this] at hy
          exact (List.nodup_cons.mp hBn).1 hy
        have hasc : y.dropLast.getLastD d < y.getLastD d :=
          ascent_of_not_nonIncr d hyne hydl hyni
        have hydne : y.dropLast ≠ [] := by
          intro hc
          have h5 := List.length_dropLast y
          rw [hc] at h5
          simp at h5
          omega
        have hylast_min : m ≤ y.dropLast.getLastD d := by
          have hmm1 : y.dropLast.getLastD d ∈ y :=
            (List.dropLast_sublist y).subset (getLastD_mem d hydne)
          have hmm2 : y.dropLast.getLastD d ∈ E.erase v :=
            (hyperm.trans hSE_perm).mem_iff.mp hmm1
          exact hm_min _ (List.mem_of_mem_erase hmm2)
        have hm_mem_y : m ∈ y :=
          (hyperm.trans hSE_perm).mem_iff.mpr hm_in_Ev
        have hylast_gt : m < y.getLastD d := lt_of_le_of_lt hylast_min hasc
        have hm_in_ydl : m ∈ y.dropLast := by
          refine (dropLast_perm_erase d hyne).mem_iff.mpr ?_
          exact (List.mem_erase_of_ne (ne_of_lt hylast_gt)).mpr hm_mem_y
        have hydl_last_le : y.dropLast.getLastD d ≤ m :=
          getLastD_le_of_nonIncr d hydl m hm_in_ydl
        rw [getD_pred_eq_dropLast_getLastD d hylen2,
          le_antisymm hydl_last_le hylast_min]
        exact not_le.mpr hm_lt
      have hBh2 : (sortE :: B1 :: Bt2).head? = some sortE := rfl
      have htrav := block_traverse d hBh2 hBc hBp hBn hSE_ni hint Tail hTailChain
      refine stepChain_cons htrav hnothalt_um ?_
      rw [hmu]
      show (((B1 :: Bt2) ++ [sortE]).map (fun b => b ++ [v]) ++ Tail).head? =
        some (m :: u)
      rw [List.cons_append, List.map_cons, List.cons_append, List.head?_cons,
        Option.some_inj, hB1_eq, heq_dl, List.cons_append, hu_decomp]

theorem sortE_eq_dropLast_append [LinearOrder α] (d : α) {E u sortE : List α} {m v : α}
    (hm_min : ∀ c ∈ E, m ≤ c) (hm_mem : m ∈ E)
    (hu_perm : u ~ E.erase m) (ht : NonIncr u.dropLast)
    (hv : u.getLastD d = v) (hv_ne : v ≠ m) (hu_ne : u ≠ [])
    (hSE_ni : NonIncr sortE) (hSE_perm : sortE ~ E.erase v) :
    sortE = u.dropLast ++ [m] := by
  have hv_mem_u : v ∈ u := hv ▸ getLastD_mem d hu_ne
  have hv_mem_E : v ∈ E := List.mem_of_mem_erase (hu_perm.mem_iff.mp hv_mem_u)
  have hm_in_Ev : m ∈ E.erase v := (List.mem_erase_of_ne (Ne.symm hv_ne)).mpr hm_mem
  have hudl_perm : u.dropLast ~ (E.erase v).erase m := by
    have h1 : u.dropLast ~ u.erase v := by
      rw [← hv]
      exact dropLast_perm_erase d hu_ne
    have h2 : u.erase v ~ (E.erase m).erase v := hu_perm.erase v
    rw [List.erase_comm] at h2
    exact h1.trans h2
  refine nonIncr_unique hSE_ni ?_ ?_
  · refine nonIncr_concat_min ht ?_
    intro a ha
    have h3 : a ∈ (E.erase v).erase m := hudl_perm.mem_iff.mp ha
    exact hm_min a (List.mem_of_mem_erase (List.mem_of_mem_erase h3))
  · calc sortE ~ E.erase v := hSE_perm
      _ ~ m :: (E.erase v).erase m := List.perm_cons_erase hm_in_Ev
      _ ~ m :: u.dropLast := hudl_perm.symm.cons m
      _ ~ u.dropLast ++ [m] := (List.perm_append_singleton _ _).symm

theorem orbit_exists [LinearOrder α] (d : α) :
    ∀ (w0 : List α), NonIncr w0 →
      ∃ O : List (List α), O.head? = some w0 ∧ StepChain d O ∧
        (∀ w ∈ O, w ~ w0) ∧ O.Nodup ∧ ∀ y, y ~ w0 → y ∈ O := by
  suffices H : ∀ (n : Nat) (w0 : List α), w0.length = n → NonIncr w0 →
      ∃ O : List (List α), O.head? = some w0 ∧ StepChain d O ∧
        (∀ w ∈ O, w ~ w0) ∧ O.Nodup ∧ ∀ y, y ~ w0 → y ∈ O by
    exact fun w0 h => H w0.length w0 rfl h
  intro n
  induction n using Nat.strong_induction_on with
  | _ n ih =>
    intro w0 hlen hni
    by_cases hhalt : whalt d w0
    · refine ⟨[w0], rfl, hhalt, ?_, List.nodup_singleton w0, ?_⟩
      · intro w hw
        rw [List.mem_singleton] at hw
        rw [hw]
      · intro y hy
        rw [List.mem_singleton]
        have hall := whalt_nonIncr_all_eq d hhalt hni
        have hyall : ∀ c ∈ y, c = w0.getD 0 d := fun c hc => hall c (hy.mem_iff.mp hc)
        exact nonIncr_unique (@nonIncr_of_all_eq α _ (w0.getD 0 d) _ hyall) hni hy
    · have hn2 : 2 ≤ w0.length := by
        by_contra hc
        exact hhalt (whalt_of_length_le_one d (by omega))
      have hw0ne : w0 ≠ [] := by
        intro hc
        rw [hc] at hn2
        simp at hn2
      obtain ⟨u0, m, hw0⟩ : ∃ u0 m, w0 = u0 ++ [m] := by
        rcases List.eq_nil_or_concat w0 with hc | ⟨x, z, hc⟩
        · exact absurd hc hw0ne
        · exact ⟨x, z, by rw [hc, List.concat_eq_append]⟩
      subst hw0
      have hu0ne : u0 ≠ [] := by
        intro hc
        rw [hc] at hn2
        simp at hn2
      have hu0len : u0.length = n - 1 := by
        rw [List.length_append, List.length_singleton] at hlen
        omega
      have hnn2 : 2 ≤ n := by
        rw [← hlen]
        exact hn2
      have hu0ni : NonIncr u0 := by
        have h1 := nonIncr_dropLast hni
        rw [List.dropLast_concat] at h1
        exact h1
      have hm_min : ∀ c ∈ u0 ++ [m], m ≤ c := by
        intro c hc
        have h1 := getLastD_le_of_nonIncr d hni c hc
        rw [getLastD_append_singleton] at h1
        exact h1
      have hm_mem : m ∈ u0 ++ [m] := List.mem_append_right _ (List.mem_singleton_self m)
      have hEm_perm : (u0 ++ [m]).erase m ~ u0 := by
        have h1 : u0 ++ [m] ~ m :: u0 := List.perm_append_singleton _ _
        have h2 := h1.erase m
        rw [List.erase_cons_head] at h2
        exact h2
      have hbig : ∃ c ∈ u0, ¬ c ≤ m := by
        have h1 : ¬ ((u0 ++ [m]).getD 0 d ≤ m) := by
          intro hc
          exact hhalt ((whalt_append_iff d).mpr ⟨hu0ni, hc⟩)
        have h0 : (u0 ++ [m]).getD 0 d = u0.getD 0 d :=
          getD_append_lt _ _ _ _ (List.length_pos.mpr hu0ne)
        rw [h0] at h1
        exact ⟨u0.getD 0 d, getD_zero_mem d hu0ne, h1⟩
      obtain ⟨O2, hOh, hOc, hOp, hOn, hOcov⟩ := ih (n - 1) (by omega) u0 hu0len hu0ni
      have inner : ∀ (S2 : List (List α)) (u : List α), (u :: S2) <:+ O2 →
          ∃ Och : List (List α), Och.head? = some (u ++ [m]) ∧ StepChain d Och ∧
            (∀ w, w ∈ Och ↔ innerChar d (u0 ++ [m]) m (u :: S2) w) ∧ Och.Nodup := by
        intro S2
        induction S2 with
        | nil =>
          intro u hsuf
          have hu_mem : u ∈ O2 := hsuf.subset (List.mem_cons_self u [])
          have hu_perm : u ~ u0 := hOp u hu_mem
          have hu_ne : u ≠ [] := by
            intro hc
            rw [hc] at hu_perm
            exact hu0ne hu_perm.symm.eq_nil
          have hu_permE : u ~ (u0 ++ [m]).erase m := hu_perm.trans hEm_perm.symm
          have hSchain : StepChain d [u] := stepChain_suffix hsuf hOc
          have hu_halt : whalt d u := hSchain
          obtain ⟨ht, hle⟩ := (whalt_iff d u).mp hu_halt
          rw [getD_last d hu_ne] at hle
          have hvmax : ∀ c ∈ u0 ++ [m], c ≤ u.getLastD d := by
            intro c hc
            rcases List.mem_append.mp hc with hcu | hcm
            · have hcu2 : c ∈ u := hu_perm.mem_iff.mpr hcu
              rw [← dropLast_append_getLastD d hu_ne] at hcu2
              rcases List.mem_append.mp hcu2 with h1 | h1
              · have h2 : c ≤ u.dropLast.getD 0 d := le_getD_zero_of_nonIncr d ht c h1
                have h3 : u.dropLast.getD 0 d = u.getD 0 d := by
                  have hl2 : 2 ≤ u.length := by
                    have := List.length_dropLast u
                    have h4 : u.dropLast ≠ [] := by
                      intro hc2
                      rw [hc2] at h1
                      simp at h1
                    have h5 : 0 < u.dropLast.length := List.length_pos.mpr h4
                    omega
                  exact getD_zero_dropLast d hl2
                rw [h3] at h2
                exact le_trans h2 hle
              · rw [List.mem_singleton] at h1
                rw [h1]
            · rw [List.mem_singleton] at hcm
              rw [hcm]
              exact hm_min _ (List.mem_append_left _
                (hu_perm.mem_iff.mp (getLastD_mem d hu_ne)))
          have hv_ne : u.getLastD d ≠ m := by
            obtain ⟨c, hc, hcm⟩ := hbig
            intro hc2
            exact hcm (hc2 ▸ hvmax c (List.mem_append_left _ hc))
          have hv_mem_E : u.getLastD d ∈ u0 ++ [m] :=
            List.mem_append_left _ (hu_perm.mem_iff.mp (getLastD_mem d hu_ne))
          have hEvlen : ((u0 ++ [m]).erase (u.getLastD d)).length = n - 1 := by
            rw [List.length_erase_of_mem hv_mem_E, List.length_append,
              List.length_singleton]
            omega
          have hSE_ni : NonIncr (List.insertionSort (fun a b => a ≥ b)
              ((u0 ++ [m]).erase (u.getLastD d))) :=
            List.chain'_iff_pairwise.mpr (List.sorted_insertionSort _ _)
          have hSE_perm : List.insertionSort (fun a b => a ≥ b)
              ((u0 ++ [m]).erase (u.getLastD d)) ~ (u0 ++ [m]).erase (u.getLastD d) :=
            List.perm_insertionSort _ _
          have hSE_lenEq : (List.insertionSort (fun a b => a ≥ b)
              ((u0 ++ [m]).erase (u.getLastD d))).length = n - 1 := by
            rw [hSE_perm.length_eq, hEvlen]
          have hSE_ne : List.insertionSort (fun a b => a ≥ b)
              ((u0 ++ [m]).erase (u.getLastD d)) ≠ [] := by
            intro hc
            rw [hc] at hSE_lenEq
            simp at hSE_lenEq
            omega
          obtain ⟨B, hBh, hBc, hBp, hBn, hBcov⟩ := ih (n - 1) (by omega) _ hSE_lenEq hSE_ni
          have hTailChain : StepChain d ((List.insertionSort (fun a b => a ≥ b)
              ((u0 ++ [m]).erase (u.getLastD d)) ++ [u.getLastD d]) ::
              ([] : List (List α))) := by
            show whalt d _
            rw [whalt_append_iff]
            refine ⟨hSE_ni, ?_⟩
            rw [getD_append_lt _ _ _ _ (List.length_pos.mpr hSE_ne)]
            refine hvmax _ ?_
            exact List.mem_of_mem_erase (hSE_perm.mem_iff.mp (getD_zero_mem d hSE_ne))
          obtain ⟨hchain, hmem, hnod⟩ := trigger_block d hnn2 hlen hm_min hm_mem
            hu_permE ht rfl hv_ne hSE_ni hSE_perm hBh hBc hBp hBn hBcov [] hTailChain
          refine ⟨(u ++ [m]) :: ((B.tail ++ [List.insertionSort (fun a b => a ≥ b)
            ((u0 ++ [m]).erase (u.getLastD d))]).map (fun b => b ++ [u.getLastD d]) ++ []),
            rfl, hchain, ?_, ?_⟩
          · intro w
            rw [List.mem_cons, List.append_nil, innerChar]
            constructor
            · rintro (rfl | hw)
              · exact Or.inl ⟨u, List.mem_singleton_self u, rfl⟩
              · obtain ⟨h1, h2⟩ := (hmem w).mp hw
                exact Or.inr ⟨u, List.mem_singleton_self u, ht, hv_ne, h1, h2⟩
            · rintro (⟨u2, hu2, rfl⟩ | ⟨u2, hu2, c1, c2, c3, c4⟩)
              · rw [List.mem_singleton] at hu2
                rw [hu2]
                exact Or.inl rfl
              · rw [List.mem_singleton] at hu2
                subst hu2
                exact Or.inr ((hmem w).mpr ⟨c3, c4⟩)
          · rw [List.append_nil, List.nodup_cons]
            refine ⟨?_, hnod⟩
            intro hc
            obtain ⟨h1, _⟩ := (hmem _).mp hc
            rw [getLastD_append_singleton] at h1
            exact hv_ne h1.symm
        | cons unext S3 ihS =>
          intro u hsuf
          have hsuf2 : (unext :: S3) <:+ O2 := by
            obtain ⟨t, ht2⟩ := hsuf
            refine ⟨t ++ [u], ?_⟩
            rw [List.append_assoc, List.singleton_append]
            exact ht2
          obtain ⟨Och2, hO2h, hO2c, hO2m, hO2n⟩ := ihS unext hsuf2
          have hu_mem : u ∈ O2 := hsuf.subset (List.mem_cons_self u _)
          have hu_perm : u ~ u0 := hOp u hu_mem
          have hu_ne : u ≠ [] := by
            intro hc
            rw [hc] at hu_perm
            exact hu0ne hu_perm.symm.eq_nil
          have hu_permE : u ~ (u0 ++ [m]).erase m := hu_perm.trans hEm_perm.symm
          have hSchain : StepChain d (u :: unext :: S3) := stepChain_suffix hsuf hOc
          have hnh : ¬ whalt d u := hSchain.1.1
          have hstep : wsucc d u = unext := hSchain.1.2
          have hSnodup : (u :: unext :: S3).Nodup := hsuf.sublist.nodup hOn
          have hu_not : u ∉ unext :: S3 := (List.nodup_cons.mp hSnodup).1
          have hu_len2 : 2 ≤ u.length := by
            by_contra hc
            exact hnh (whalt_of_length_le_one d (by omega))
          have hudl_ne : u.dropLast ≠ [] := by
            intro hc
            have h1 := List.length_dropLast u
            rw [hc] at h1
            simp at h1
            omega
          have hentry_nothalt : ¬ whalt d (u ++ [m]) := by
            refine not_whalt_append_of_big d hu_ne ?_
            obtain ⟨c, hc, hcm⟩ := hbig
            exact ⟨c, hu_perm.mem_iff.mpr hc, hcm⟩
          have hmemchar_lift : ∀ w, innerChar d (u0 ++ [m]) m (unext :: S3) w →
              innerChar d (u0 ++ [m]) m (u :: unext :: S3) w := by
            rintro w (⟨u2, hu2, rfl⟩ | ⟨u2, hu2, c1, c2, c3, c4⟩)
            · exact Or.inl ⟨u2, List.mem_cons_of_mem u hu2, rfl⟩
            · exact Or.inr ⟨u2, List.mem_cons_of_mem u hu2, c1, c2, c3, c4⟩
          have hum_not_Och2 : (u ++ [m]) ∉ Och2 := by
            intro hc
            rcases (hO2m _).mp hc with ⟨u3, hu3, happ⟩ | ⟨u3, hu3, c1, c2, c3, c4⟩
            · exact hu_not (List.append_left_injective [m] happ ▸ hu3)
            · rw [getLastD_append_singleton] at c3
              exact c2 c3.symm
          by_cases ht : NonIncr u.dropLast
          · have hudec : u.dropLast ++ [u.getLastD d] = u := dropLast_append_getLastD d hu_ne
            have hwsucc_u : wsucc d u = u.getLastD d :: u.dropLast := by
              conv_lhs => rw [← hudec]
              exact wsucc_append_last d ht hudl_ne
            by_cases hv_ne : u.getLastD d = m
            · -- seamless: the trigger letter is the minimum itself
              have hudec2 : u.dropLast ++ [m] = u := by
                rw [← hv_ne]
                exact hudec
              refine ⟨(u ++ [m]) :: Och2, rfl, ?_, ?_, ?_⟩
              · refine stepChain_cons hO2c hentry_nothalt ?_
                rw [hO2h, Option.some_inj, wsucc_trigger_append d hu_ne ht
                  (fun c hc => hm_min c (List.mem_of_mem_erase (hu_permE.mem_iff.mp hc))),
                  ← hstep, hwsucc_u, hv_ne, List.cons_append, hudec2]
              · intro w
                rw [List.mem_cons, innerChar]
                constructor
                · rintro (rfl | hw)
                  · exact Or.inl ⟨u, List.mem_cons_self u _, rfl⟩
                  · exact hmemchar_lift w ((hO2m w).mp hw)
                · rintro (⟨u2, hu2, rfl⟩ | ⟨u2, hu2, c1, c2, c3, c4⟩)
                  · rcases List.mem_cons.mp hu2 with rfl | hu2b
                    · exact Or.inl rfl
                    · exact Or.inr ((hO2m _).mpr (Or.inl ⟨u2, hu2b, rfl⟩))
                  · rcases List.mem_cons.mp hu2 with rfl | hu2b
                    · exact absurd hv_ne c2
                    · exact Or.inr ((hO2m _).mpr (Or.inr ⟨u2, hu2b, c1, c2, c3, c4⟩))
              · rw [List.nodup_cons]
                exact ⟨hum_not_Och2, hO2n⟩
            · -- a complete excursion block for the trigger letter, then continue
              rw [whalt_iff] at hnh
              push_neg at hnh
              have hgt : ¬ (u.getD 0 d ≤ u.getLastD d) := by
                have h9 := hnh ht
                rw [getD_last d hu_ne] at h9
                exact not_le.mpr h9
              have hv_mem_E : u.getLastD d ∈ u0 ++ [m] :=
                List.mem_append_left _ (hu_perm.mem_iff.mp (getLastD_mem d hu_ne))
              have hEvlen : ((u0 ++ [m]).erase (u.getLastD d)).length = n - 1 := by
                rw [List.length_erase_of_mem hv_mem_E, List.length_append,
                  List.length_singleton]
                omega
              have hSE_ni : NonIncr (List.insertionSort (fun a b => a ≥ b)
                  ((u0 ++ [m]).erase (u.getLastD d))) :=
                List.chain'_iff_pairwise.mpr (List.sorted_insertionSort _ _)
              have hSE_perm : List.insertionSort (fun a b => a ≥ b)
                  ((u0 ++ [m]).erase (u.getLastD d)) ~
                  (u0 ++ [m]).erase (u.getLastD d) := List.perm_insertionSort _ _
              have hSE_lenEq : (List.insertionSort (fun a b => a ≥ b)
                  ((u0 ++ [m]).erase (u.getLastD d))).length = n - 1 := by
                rw [hSE_perm.length_eq, hEvlen]
              have hSE_ne : List.insertionSort (fun a b => a ≥ b)
                  ((u0 ++ [m]).erase (u.getLastD d)) ≠ [] := by
                intro hc
                rw [hc] at hSE_lenEq
                simp at hSE_lenEq
                omega
              obtain ⟨B, hBh, hBc, hBp, hBn, hBcov⟩ :=
                ih (n - 1) (by omega) _ hSE_lenEq hSE_ni
              have hSEeq : List.insertionSort (fun a b => a ≥ b)
                  ((u0 ++ [m]).erase (u.getLastD d)) = u.dropLast ++ [m] :=
                sortE_eq_dropLast_append d hm_min hm_mem hu_permE ht rfl hv_ne hu_ne
                  hSE_ni hSE_perm
              have hTailChain : StepChain d ((List.insertionSort (fun a b => a ≥ b)
                  ((u0 ++ [m]).erase (u.getLastD d)) ++ [u.getLastD d]) :: Och2) := by
                refine stepChain_cons hO2c ?_ ?_
                · rw [whalt_append_iff]
                  rintro ⟨_, hle2⟩
                  rw [getD_append_lt _ _ _ _ (List.length_pos.mpr hSE_ne)] at hle2
                  have h6 : u.getD 0 d ∈ List.insertionSort (fun a b => a ≥ b)
                      ((u0 ++ [m]).erase (u.getLastD d)) := by
                    refine hSE_perm.mem_iff.mpr ?_
                    refine (List.mem_erase_of_ne ?_).mpr ?_
                    · intro hc
                      exact hgt (le_of_eq hc)
                    · exact List.mem_of_mem_erase
                        (hu_permE.mem_iff.mp (getD_zero_mem d hu_ne))
                  have h7 := le_getD_zero_of_nonIncr d hSE_ni _ h6
                  exact hgt (le_trans h7 hle2)
                · rw [hO2h, Option.some_inj,
                    wsucc_append_last d hSE_ni hSE_ne, ← hstep, hwsucc_u, hSEeq,
                    List.cons_append]
              obtain ⟨hchain, hmem, hnod⟩ := trigger_block d hnn2 hlen hm_min hm_mem
                hu_permE ht rfl hv_ne hSE_ni hSE_perm hBh hBc hBp hBn hBcov Och2
                hTailChain
              refine ⟨(u ++ [m]) :: ((B.tail ++ [List.insertionSort (fun a b => a ≥ b)
                ((u0 ++ [m]).erase (u.getLastD d))]).map
                  (fun b => b ++ [u.getLastD d]) ++ Och2), rfl, hchain, ?_, ?_⟩
              · intro w
                rw [List.mem_cons, List.mem_append, innerChar]
                constructor
                · rintro (rfl | hw | hw)
                  · exact Or.inl ⟨u, List.mem_cons_self u _, rfl⟩
                  · obtain ⟨h1, h2⟩ := (hmem w).mp hw
                    exact Or.inr ⟨u, List.mem_cons_self u _, ht, hv_ne, h1, h2⟩
                  · exact hmemchar_lift w ((hO2m w).mp hw)
                · rintro (⟨u2, hu2, rfl⟩ | ⟨u2, hu2, c1, c2, c3, c4⟩)
                  · rcases List.mem_cons.mp hu2 with rfl | hu2b
                    · exact Or.inl rfl
                    · exact Or.inr (Or.inr ((hO2m _).mpr (Or.inl ⟨u2, hu2b, rfl⟩)))
                  · rcases List.mem_cons.mp hu2 with rfl | hu2b
                    · exact Or.inr (Or.inl ((hmem w).mpr ⟨c3, c4⟩))
                    · exact Or.inr (Or.inr ((hO2m _).mpr
                        (Or.inr ⟨u2, hu2b, c1, c2, c3, c4⟩)))
              · rw [List.nodup_cons, List.mem_append]
                refine ⟨?_, ?_⟩
                · rintro (hc | hc)
                  · obtain ⟨h1, _⟩ := (hmem _).mp hc
                    rw [getLastD_append_singleton] at h1
                    exact hv_ne h1.symm
                  · exact hum_not_Och2 hc
                · refine List.Nodup.append hnod hO2n ?_
                  intro w hw1 hw2
                  obtain ⟨h1, h2⟩ := (hmem w).mp hw1
                  rcases (hO2m w).mp hw2 with ⟨u3, hu3, rfl⟩ | ⟨u3, hu3, c1, c2, c3, c4⟩
                  · rw [getLastD_append_singleton] at h1
                    exact hv_ne h1.symm
                  · have hu3_mem : u3 ∈ O2 := hsuf2.subset hu3
                    have hu3_perm : u3 ~ u0 := hOp u3 hu3_mem
                    have hu3_ne : u3 ≠ [] := by
                      intro hc
                      rw [hc] at hu3_perm
                      exact hu0ne hu3_perm.symm.eq_nil
                    have hvv : u3.getLastD d = u.getLastD d := by
                      rw [← c3, h1]
                    have hu3_eq : u3 = u := by
                      have hd3 : u3.dropLast ~ u.dropLast := by
                        have e1 : u3.dropLast ~ u3.erase (u3.getLastD d) :=
                          dropLast_perm_erase d hu3_ne
                        have e2 : u.dropLast ~ u.erase (u.getLastD d) :=
                          dropLast_perm_erase d hu_ne
                        have e3 : u3.erase (u3.getLastD d) ~ u0.erase (u.getLastD d) := by
                          rw [hvv]
                          exact hu3_perm.erase _
                        have e4 : u.erase (u.getLastD d) ~ u0.erase (u.getLastD d) :=
                          hu_perm.erase _
                        exact e1.trans (e3.trans (e4.symm.trans e2.symm))
                      have hd4 : u3.dropLast = u.dropLast := nonIncr_unique c1 ht hd3
                      calc u3 = u3.dropLast ++ [u3.getLastD d] :=
                            (dropLast_append_getLastD d hu3_ne).symm
                        _ = u.dropLast ++ [u.getLastD d] := by rw [hd4, hvv]
                        _ = u := dropLast_append_getLastD d hu_ne
                    rw [hu3_eq] at hu3
                    exact hu_not hu3
          · -- no trigger: a single parent step
            refine ⟨(u ++ [m]) :: Och2, rfl, ?_, ?_, ?_⟩
            · refine stepChain_cons hO2c hentry_nothalt ?_
              rw [hO2h, Option.some_inj,
                wsucc_append_step d (fun hc => ht (nonIncr_dropLast hc))
                  (fun hdl => absurd hdl ht), hstep]
            · intro w
              rw [List.mem_cons, innerChar]
              constructor
              · rintro (rfl | hw)
                · exact Or.inl ⟨u, List.mem_cons_self u _, rfl⟩
                · exact hmemchar_lift w ((hO2m w).mp hw)
              · rintro (⟨u2, hu2, rfl⟩ | ⟨u2, hu2, c1, c2, c3, c4⟩)
                · rcases List.mem_cons.mp hu2 with rfl | hu2b
                  · exact Or.inl rfl
                  · exact Or.inr ((hO2m _).mpr (Or.inl ⟨u2, hu2b, rfl⟩))
                · rcases List.mem_cons.mp hu2 with rfl | hu2b
                  · exact absurd c1 ht
                  · exact Or.inr ((hO2m _).mpr (Or.inr ⟨u2, hu2b, c1, c2, c3, c4⟩))
            · rw [List.nodup_cons]
              exact ⟨hum_not_Och2, hO2n⟩
      obtain ⟨O2t, hO2t⟩ : ∃ O2t, O2 = u0 :: O2t := by
        cases O2 with
        | nil => simp at hOh
        | cons a t =>
          rw [List.head?_cons, Option.some_inj] at hOh
          exact ⟨t, by rw [hOh]⟩
      obtain ⟨Och, hOchh, hOchc, hOchm, hOchn⟩ :=
        inner O2t u0 (by rw [hO2t])
      refine ⟨Och, hOchh, hOchc, ?_, hOchn, ?_⟩
      · -- every member is an arrangement
        intro w hw
        rcases (hOchm w).mp hw with ⟨u2, hu2, rfl⟩ | ⟨u2, hu2, _, _, hwl, hwd⟩
        · have : u2 ~ u0 := hOp u2 (by rw [hO2t]; exact hu2)
          exact this.append_right [m]
        · have hv_mem : u2.getLastD d ∈ u0 ++ [m] := by
            have hu2p : u2 ~ u0 := hOp u2 (by rw [hO2t]; exact hu2)
            have hu2ne : u2 ≠ [] := by
              intro hc
              rw [hc] at hu2p
              exact hu0ne hu2p.symm.eq_nil
            exact List.mem_append_left _ (hu2p.mem_iff.mp (getLastD_mem d hu2ne))
          have hwdne : w.dropLast ≠ [] := by
            intro hc
            have h5 := hwd.length_eq
            rw [hc, List.length_erase_of_mem hv_mem, List.length_append,
              List.length_singleton] at h5
            simp at h5
            omega
          have hwne : w ≠ [] := by
            intro hc
            rw [hc] at hwdne
            simp at hwdne
          calc w = w.dropLast ++ [w.getLastD d] := (dropLast_append_getLastD d hwne).symm
            _ ~ w.getLastD d :: w.dropLast := List.perm_append_singleton _ _
            _ ~ u2.getLastD d :: ((u0 ++ [m]).erase (u2.getLastD d)) := by
                rw [hwl]
                exact hwd.cons _
            _ ~ u0 ++ [m] := (List.perm_cons_erase hv_mem).symm
      · -- coverage
        intro y hy
        have hyne : y ≠ [] := by
          intro hc
          rw [hc] at hy
          exact hw0ne hy.symm.eq_nil
        have hydec : y.dropLast ++ [y.getLastD d] = y := dropLast_append_getLastD d hyne
        have hydl_perm : y.dropLast ~ (u0 ++ [m]).erase (y.getLastD d) :=
          (dropLast_perm_erase d hyne).trans (hy.erase _)
        by_cases hz : y.getLastD d = m
        · refine (hOchm y).mpr (Or.inl ⟨y.dropLast, ?_, ?_⟩)
          · rw [hO2t] at hOcov
            refine hOcov _ ?_
            rw [hz] at hydl_perm
            exact hydl_perm.trans hEm_perm
          · rw [← hz]
            exact hydec.symm
        · -- the trigger word for this letter
          have hz_mem_u0 : y.getLastD d ∈ u0 := by
            have h1 : y.getLastD d ∈ u0 ++ [m] := hy.mem_iff.mp (getLastD_mem d hyne)
            rcases List.mem_append.mp h1 with h | h
            · exact h
            · rw [List.mem_singleton] at h
              exact absurd h hz
          refine (hOchm y).mpr (Or.inr
            ⟨List.insertionSort (fun a b => a ≥ b) (u0.erase (y.getLastD d)) ++
                [y.getLastD d], ?_, ?_, ?_, ?_, ?_⟩)
          · rw [hO2t] at hOcov
            refine hOcov _ ?_
            calc List.insertionSort (fun a b => a ≥ b) (u0.erase (y.getLastD d)) ++
                  [y.getLastD d]
                ~ y.getLastD d :: List.insertionSort (fun a b => a ≥ b)
                    (u0.erase (y.getLastD d)) := List.perm_append_singleton _ _
              _ ~ y.getLastD d :: u0.erase (y.getLastD d) :=
                  (List.perm_insertionSort _ _).cons _
              _ ~ u0 := (List.perm_cons_erase hz_mem_u0).symm
          · rw [List.dropLast_concat]
            exact List.chain'_iff_pairwise.mpr (List.sorted_insertionSort _ _)
          · rw [getLastD_append_singleton]
            exact hz
          · rw [getLastD_append_singleton]
          · rw [getLastD_append_singleton]
            exact hydl_perm

/-! ### The machine states reached by the generators -/

theorem dpNext_on_start [LinearOrder α] [Inhabited α] (b : List α) (i : Nat) :
    dpNext ⟨b, true, i⟩ = (some b, ⟨b, false, i⟩) := rfl

theorem dpNext_halt [LinearOrder α] [Inhabited α] {b : List α}
    (hw : whalt default b) :
    dpNext ⟨b, false, widx b⟩ = (none, ⟨b, false, widx b⟩) := by
  rw [dpNext, if_neg (by simp), if_pos]
  exact hw

theorem dpNext_step [LinearOrder α] [Inhabited α] {b : List α}
    (hn : ¬ whalt default b) :
    dpNext ⟨b, false, widx b⟩ =
      (some (wsucc default b),
        ⟨wsucc default b, false, widx (wsucc default b)⟩) := by
  rw [dpNext, if_neg (by simp), if_neg]
  · rw [widx_wsucc default hn]
    rfl
  · exact hn

theorem dpRun_chain [LinearOrder α] [Inhabited α] :
    ∀ (O : List (List α)) (fuel : Nat) (b : List α), StepChain default O →
      O.head? = some b → O.length ≤ fuel + 1 →
      dpRun fuel ⟨b, false, widx b⟩ = O.tail
  | [], _, _, _, hh, _ => by simp at hh
  | [w], fuel, b, hc, hh, _ => by
      have hwb : w = b := by simpa using hh
      subst hwb
      have hw : whalt default w := hc
      cases fuel with
      | zero => rfl
      | succ f =>
          rw [dpRun, dpNext_halt hw]
          rfl
  | w :: w2 :: t, fuel, b, hc, hh, hlen => by
      have hwb : w = b := by simpa using hh
      subst hwb
      obtain ⟨⟨hnh, hstep⟩, hc2⟩ := hc
      cases fuel with
      | zero => simp at hlen
      | succ f =>
          rw [dpRun, dpNext_step hnh]
          show wsucc default w ::
              dpRun f ⟨wsucc default w, false, widx (wsucc default w)⟩
            = (w :: w2 :: t).tail
          rw [hstep]
          have h2 := dpRun_chain (w2 :: t) f w2 hc2 rfl
            (by simp only [List.length_cons] at hlen ⊢; omega)
          simp only [List.tail_cons] at h2 ⊢
          rw [h2]

theorem dpRun_eq_orbit [LinearOrder α] [Inhabited α] (v : List α)
    (O : List (List α)) (hc : StepChain default O)
    (hh : O.head? = some (v.insertionSort (· ≥ ·)))
    (fuel : Nat) (hf : O.length ≤ fuel) :
    dpRun fuel (distinctPermutations v) = O := by
  cases fuel with
  | zero =>
      have hO : O = [] := List.length_eq_zero.mp (Nat.le_zero.mp hf)
      subst hO
      simp at hh
  | succ f =>
      have hni : NonIncr (v.insertionSort (· ≥ ·)) :=
        List.chain'_iff_pairwise.mpr (List.sorted_insertionSort _ _)
      rw [dpRun]
      have hstart : dpNext (distinctPermutations v) =
          (some (v.insertionSort (· ≥ ·)),
            ⟨v.insertionSort (· ≥ ·), false, (v.insertionSort (· ≥ ·)).length - 2⟩) := rfl
      rw [hstart]
      show (v.insertionSort (· ≥ ·)) :: dpRun f
          ⟨v.insertionSort (· ≥ ·), false, (v.insertionSort (· ≥ ·)).length - 2⟩ = O
      rw [show (v.insertionSort (· ≥ ·)).length - 2 =
          widx (v.insertionSort (· ≥ ·)) from (widx_of_nonIncr hni).symm]
      rw [dpRun_chain O f (v.insertionSort (· ≥ ·)) hc hh (by omega)]
      cases O with
      | nil => simp at hh
      | cons w t =>
          have hw : w = v.insertionSort (· ≥ ·) := by simpa using hh
          rw [hw]
          rfl

theorem shiftToFront_map {β : Type} [Inhabited β] (g : Nat → β) (b : List Nat)
    (d2 : β) (s : Nat) (hs : s < b.length) :
    shiftToFront (b.map g) d2 s = (shiftToFront b 0 s).map g := by
  rw [shiftToFront, shiftToFront, List.map_cons, List.map_append, List.map_take,
    List.map_drop]
  congr 1
  rw [List.getD_eq_getElem _ _ (by simpa using hs), List.getD_eq_getElem _ _ hs,
    List.getElem_map]

theorem fpNext_on_start [LinearOrder α] [Inhabited α] (b : List Nat) (vals : List α)
    (i k : Nat) :
    fpNext ⟨b, vals, true, i, k⟩ = (some (vals.take k), ⟨b, vals, false, i, k⟩) := rfl

theorem fpNext_halt [LinearOrder α] [Inhabited α] {b : List Nat} (vals : List α)
    (k : Nat) (hw : whalt 0 b) :
    fpNext ⟨b, vals, false, widx b, k⟩ = (none, ⟨b, vals, false, widx b, k⟩) := by
  rw [fpNext, if_neg (by simp), if_pos]
  exact hw

theorem fpNext_step [LinearOrder α] [Inhabited α] {b : List Nat} (g : Nat → α)
    (k : Nat) (hn : ¬ whalt 0 b) :
    fpNext ⟨b, b.map g, false, widx b, k⟩ =
      (some (((wsucc 0 b).map g).take k),
        ⟨wsucc 0 b, (wsucc 0 b).map g, false, widx (wsucc 0 b), k⟩) := by
  have hst : (wsucc 0 b).map g = shiftToFront (b.map g) default (wshift 0 b) :=
    (shiftToFront_map g b default (wshift 0 b) (wshift_lt 0 hn)).symm
  rw [fpNext, if_neg (by simp), if_neg]
  · rw [widx_wsucc 0 hn, hst]
    rfl
  · exact hn

theorem fpRun_chain [LinearOrder α] [Inhabited α] (g : Nat → α) (k : Nat) :
    ∀ (O : List (List Nat)) (fuel : Nat) (b : List Nat), StepChain 0 O →
      O.head? = some b → O.length ≤ fuel + 1 →
      fpRun fuel ⟨b, b.map g, false, widx b, k⟩ =
        O.tail.map (fun w => (w.map g).take k)
  | [], _, _, _, hh, _ => by simp at hh
  | [w], fuel, b, hc, hh, _ => by
      have hwb : w = b := by simpa using hh
      subst hwb
      have hw : whalt 0 w := hc
      cases fuel with
      | zero => rfl
      | succ f =>
          rw [fpRun, fpNext_halt (w.map g) k hw]
          rfl
  | w :: w2 :: t, fuel, b, hc, hh, hlen => by
      have hwb : w = b := by simpa using hh
      subst hwb
      obtain ⟨⟨hnh, hstep⟩, hc2⟩ := hc
      cases fuel with
      | zero => simp at hlen
      | succ f =>
          rw [fpRun, fpNext_step g k hnh]
          show ((wsucc 0 w).map g).take k ::
              fpRun f ⟨wsucc 0 w, (wsucc 0 w).map g, false, widx (wsucc 0 w), k⟩
            = (w :: w2 :: t).tail.map (fun x => (x.map g).take k)
          rw [hstep]
          have h2 := fpRun_chain g k (w2 :: t) f w2 hc2 rfl
            (by simp only [List.length_cons] at hlen ⊢; omega)
          simp only [List.tail_cons] at h2 ⊢
          rw [h2, List.map_cons]

theorem nonIncr_reverse_range (n : Nat) : NonIncr ((List.range n).reverse) := by
  unfold NonIncr
  rw [List.chain'_iff_pairwise, List.pairwise_reverse]
  exact (List.pairwise_lt_range n).imp (fun h => le_of_lt h)

theorem sorted_eq_map_getD [Inhabited α] (l : List α) :
    l = ((List.range l.length).reverse).map
      (fun p => l.getD (l.length - 1 - p) default) := by
  apply List.ext_getElem
  · simp
  · intro i h1 h2
    simp only [List.getElem_map, List.getElem_reverse, List.getElem_range,
      List.length_range]
    rw [List.getD_eq_getElem _ _
      (show l.length - 1 - (l.length - 1 - i) < l.length by omega)]
    congr 1
    omega

theorem fpRun_play [LinearOrder α] [Inhabited α] (S : List α) (n : Nat)
    (g : Nat → α) (k : Nat) (hg : S = ((List.range n).reverse).map g)
    (O : List (List Nat)) (hc : StepChain 0 O)
    (hh : O.head? = some ((List.range n).reverse))
    (fuel : Nat) (hf : O.length ≤ fuel) :
    fpRun fuel ⟨(List.range n).reverse, S, true, n - 2, k⟩ =
      O.map (fun w => (w.map g).take k) := by
  cases fuel with
  | zero =>
      have hO : O = [] := List.length_eq_zero.mp (Nat.le_zero.mp hf)
      subst hO
      simp at hh
  | succ f =>
      have hni : NonIncr ((List.range n).reverse) := nonIncr_reverse_range n
      rw [fpRun, fpNext_on_start]
      show S.take k :: fpRun f ⟨(List.range n).reverse, S, false, n - 2, k⟩ = _
      rw [show n - 2 = widx ((List.range n).reverse) by
        rw [widx_of_nonIncr hni]
        simp]
      rw [hg]
      rw [fpRun_chain g k O f ((List.range n).reverse) hc hh (by omega)]
      cases O with
      | nil => simp at hh
      | cons w t =>
          have hw : w = (List.range n).reverse := by simpa using hh
          rw [hw, List.map_cons, List.tail_cons]

theorem fpRun_eq_orbit [LinearOrder α] [Inhabited α] (v : List α) (k : Nat)
    (O : List (List Nat)) (hc : StepChain 0 O)
    (hh : O.head? = some ((List.range (v.insertionSort (· ≤ ·)).length).reverse))
    (fuel : Nat) (hf : O.length ≤ fuel) :
    fpRun fuel (fastPermutations v k) =
      O.map (fun w =>
        (w.map (fun p => (v.insertionSort (· ≤ ·)).getD
          ((v.insertionSort (· ≤ ·)).length - 1 - p) default)).take k) := by
  have hdef : fastPermutations v k =
      ⟨(List.range (v.insertionSort (· ≤ ·)).length).reverse,
        v.insertionSort (· ≤ ·), true, (v.insertionSort (· ≤ ·)).length - 2, k⟩ := rfl
  rw [hdef]
  exact fpRun_play (v.insertionSort (· ≤ ·)) (v.insertionSort (· ≤ ·)).length
    (fun p => (v.insertionSort (· ≤ ·)).getD
      ((v.insertionSort (· ≤ ·)).length - 1 - p) default) k
    (sorted_eq_map_getD _) O hc hh fuel hf

theorem ddNextF_start_emit (b : List Nat) (i fuel : Nat) (hr : ddReject b = false) :
    ddNextF (fuel + 1) ⟨b, true, i⟩ = some (some b, ⟨b, false, i⟩) := by
  simp [ddNextF, hr]

theorem ddNextF_start_skip (b : List Nat) (i : Nat) (hr : ddReject b = true) :
    ∀ fuel, ddNextF fuel ⟨b, true, i⟩ = ddNextF fuel ⟨b, false, i⟩
  | 0 => rfl
  | fuel + 1 => by
      simp [ddNextF, hr]

theorem ddNextF_halt {b : List Nat} (fuel : Nat) (hw : whalt 0 b) :
    ddNextF (fuel + 1) ⟨b, false, widx b⟩ = some (none, ⟨b, false, widx b⟩) := by
  simp only [ddNextF]
  rw [if_neg (by simp), if_pos]
  · rfl
  · exact hw

theorem ddNextF_step {b : List Nat} (fuel : Nat) (hn : ¬ whalt 0 b) :
    ddNextF (fuel + 1) ⟨b, false, widx b⟩ =
      if ddReject (wsucc 0 b) = false then
        some (some (wsucc 0 b), ⟨wsucc 0 b, false, widx (wsucc 0 b)⟩)
      else ddNextF fuel ⟨wsucc 0 b, false, widx (wsucc 0 b)⟩ := by
  simp only [ddNextF]
  rw [if_neg (by simp), if_neg]
  · rw [widx_wsucc 0 hn]
    rfl
  · exact hn

theorem dropWhile_head_false {β : Type} (p : β → Bool) :
    ∀ (l : List β) (x : β) (rest : List β), l.dropWhile p = x :: rest →
      p x = false
  | [], x, rest, h => by simp at h
  | a :: t, x, rest, h => by
      rw [List.dropWhile_cons] at h
      by_cases hp : p a = true
      · rw [if_pos hp] at h
        exact dropWhile_head_false p t x rest h
      · rw [if_neg hp] at h
        cases h
        simpa using hp

theorem ddNextF_spec :
    ∀ (O : List (List Nat)) (fuel : Nat) (b : List Nat), StepChain 0 O →
      O.head? = some b → O.length ≤ fuel →
      ((O.tail.dropWhile (fun x => ddReject x)) = [] →
        ∃ s2, ddNextF fuel ⟨b, false, widx b⟩ = some (none, s2)) ∧
      (∀ x rest, O.tail.dropWhile (fun x => ddReject x) = x :: rest →
        ddNextF fuel ⟨b, false, widx b⟩ = some (some x, ⟨x, false, widx x⟩))
  | [], _, _, _, hh, _ => by simp at hh
  | [w], fuel, b, hc, hh, hlen => by
      have hwb : w = b := by simpa using hh
      subst hwb
      have hw : whalt 0 w := hc
      cases fuel with
      | zero => simp at hlen
      | succ f =>
          constructor
          · intro _
            exact ⟨⟨w, false, widx w⟩, ddNextF_halt f hw⟩
          · intro x rest hx
            simp at hx
  | w :: w2 :: t, fuel, b, hc, hh, hlen => by
      have hwb : w = b := by simpa using hh
      subst hwb
      obtain ⟨⟨hnh, hstep⟩, hc2⟩ := hc
      cases fuel with
      | zero => simp at hlen
      | succ f =>
          rw [ddNextF_step f hnh, hstep]
          simp only [List.tail_cons]
          rw [List.dropWhile_cons]
          by_cases hr : ddReject w2 = true
          · rw [if_pos hr, if_neg (by simp [hr])]
            have hIH := ddNextF_spec (w2 :: t) f w2 hc2 rfl
              (by simp only [List.length_cons] at hlen ⊢; omega)
            simpa using hIH
          · rw [if_neg hr, if_pos (by simpa using hr)]
            constructor
            · intro hx
              simp at hx
            · intro x rest hx
              rw [List.cons_eq_cons] at hx
              rw [hx.1]

theorem ddRunF_chain :
    ∀ (LO : Nat) (O : List (List Nat)) (fuel : Nat) (b : List Nat),
      O.length ≤ LO → StepChain 0 O → O.head? = some b → O.length ≤ fuel →
      ddRunF fuel ⟨b, false, widx b⟩ = O.tail.filter (fun x => !ddReject x)
  | LO, O, fuel, b, hLO, hc, hh, hfuel => by
      have hOne : O ≠ [] := by
        intro hcon
        rw [hcon] at hh
        simp at hh
      have hOpos : 0 < O.length := List.length_pos.mpr hOne
      cases fuel with
      | zero => omega
      | succ f =>
          have hspec := ddNextF_spec O (f + 1) b hc hh hfuel
          rw [ddRunF]
          cases hD : O.tail.dropWhile (fun x => ddReject x) with
          | nil =>
              obtain ⟨s2, he⟩ := hspec.1 hD
              rw [he]
              show ([] : List (List Nat)) = O.tail.filter (fun x => !ddReject x)
              have hall : ∀ x ∈ O.tail, ddReject x = true := by
                simpa using List.dropWhile_eq_nil_iff.mp hD
              symm
              rw [List.filter_eq_nil_iff]
              intro a ha
              simp [hall a ha]
          | cons x rest =>
              have he := hspec.2 x rest hD
              rw [he]
              show x :: ddRunF f ⟨x, false, widx x⟩ =
                O.tail.filter (fun x => !ddReject x)
              cases LO with
              | zero => omega
              | succ LO2 =>
                  have hsfx2 : x :: rest <:+ O.tail :=
                    hD ▸ List.dropWhile_suffix (fun x => ddReject x)
                  have hsfx : x :: rest <:+ O := hsfx2.trans (List.tail_suffix O)
                  have hlen2 : (x :: rest).length ≤ O.tail.length :=
                    hsfx2.length_le
                  have hrec := ddRunF_chain LO2 (x :: rest) f x
                    (by simp only [List.length_tail] at hlen2
                        simp only [List.length_cons] at hlen2 ⊢
                        omega)
                    (stepChain_suffix hsfx hc) rfl
                    (by simp only [List.length_tail] at hlen2
                        simp only [List.length_cons] at hlen2 ⊢
                        omega)
                  simp only [List.tail_cons] at hrec
                  rw [hrec]
                  conv_rhs => rw [← List.takeWhile_append_dropWhile
                    (fun x => ddReject x) O.tail, hD]
                  rw [List.filter_append]
                  have htw : (O.tail.takeWhile (fun x => ddReject x)).filter
                      (fun x => !ddReject x) = [] := by
                    rw [List.filter_eq_nil_iff]
                    intro a ha
                    simp [List.mem_takeWhile_imp ha]
                  rw [htw, List.nil_append, List.filter_cons_of_pos]
                  simp [dropWhile_head_false (fun x => ddReject x) O.tail x rest hD]

theorem ddRunF_start_skip (b : List Nat) (i fuel : Nat) (hr : ddReject b = true) :
    ddRunF (fuel + 1) ⟨b, true, i⟩ = ddRunF (fuel + 1) ⟨b, false, i⟩ := by
  rw [ddRunF, ddRunF, ddNextF_start_skip b i hr (fuel + 1)]

theorem ddRunF_eq_orbit (v : List Nat) (O : List (List Nat)) (hc : StepChain 0 O)
    (hh : O.head? = some (v.insertionSort (· ≥ ·))) (fuel : Nat)
    (hf : O.length + 1 ≤ fuel) :
    ddRunF fuel (distinctDerangements v) = O.filter (fun x => !ddReject x) := by
  cases fuel with
  | zero => omega
  | succ f =>
      have hni : NonIncr (v.insertionSort (· ≥ ·)) :=
        List.chain'_iff_pairwise.mpr (List.sorted_insertionSort _ _)
      have hdef : distinctDerangements v =
          ⟨v.insertionSort (· ≥ ·), true, (v.insertionSort (· ≥ ·)).length - 2⟩ := rfl
      rw [hdef]
      cases O with
      | nil => simp at hh
      | cons w t =>
          have hw : w = v.insertionSort (· ≥ ·) := by simpa using hh
          rw [← hw] at hni ⊢
          by_cases hr : ddReject w = true
          · rw [ddRunF_start_skip _ _ f hr]
            rw [show w.length - 2 = widx w from (widx_of_nonIncr hni).symm]
            have hch := ddRunF_chain (w :: t).length (w :: t) (f + 1) w le_rfl hc rfl
              (by simp only [List.length_cons] at hf ⊢; omega)
            simp only [List.tail_cons] at hch
            rw [hch, List.filter_cons_of_neg]
            simp [hr]
          · have hr2 : ddReject w = false := by simpa using hr
            rw [ddRunF, ddNextF_start_emit w _ f hr2]
            show w :: ddRunF f ⟨w, false, w.length - 2⟩ = _
            rw [show w.length - 2 = widx w from (widx_of_nonIncr hni).symm]
            have hch := ddRunF_chain (w :: t).length (w :: t) f w le_rfl hc rfl
              (by simp only [List.length_cons] at hf ⊢; omega)
            simp only [List.tail_cons] at hch
            rw [hch, List.filter_cons_of_pos]
            simp [hr2]

/-! ### Counting permutations in the standard listing -/

theorem insertIdx_eq_take_cons_dropP {β : Type} (v : β) :
    ∀ (j : Nat) (l : List β), j ≤ l.length →
      l.insertIdx j v = l.take j ++ v :: l.drop j := by
  intro j
  induction j with
  | zero =>
      intro l _
      simp [List.insertIdx_zero]
  | succ j ih =>
      intro l hl
      cases l with
      | nil => simp at hl
      | cons a t =>
          rw [List.insertIdx_succ_cons, ih t (by simpa using hl)]
          rfl

theorem insertIdx_eraseIdx_getElemP {β : Type} (l : List β) (j : Nat)
    (h : j < l.length) :
    (l.eraseIdx j).insertIdx j (l[j]) = l := by
  rw [List.eraseIdx_eq_take_drop_succ,
    insertIdx_eq_take_cons_dropP _ j _ (by simp [List.length_take]; omega)]
  have hlt : (l.take j).length = j := by
    simp [List.length_take]
    omega
  have ht : (l.take j ++ l.drop (j + 1)).take j = l.take j := List.take_left' hlt
  have hd : (l.take j ++ l.drop (j + 1)).drop j = l.drop (j + 1) := List.drop_left' hlt
  rw [ht, hd, List.getElem_cons_drop, List.take_append_drop]

theorem count_eq_length_filter_range {β : Type} [BEq β] (x : β) :
    ∀ L : List β,
      L.count x = ((List.range L.length).filter
        (fun i => (L[i]?).any (fun e => e == x))).length
  | [] => rfl
  | c :: T => by
      rw [List.length_cons, List.range_succ_eq_map, List.filter_cons]
      have hcomp : ((List.range T.length).map Nat.succ).filter
          (fun i => ((c :: T)[i]?).any (fun e => e == x)) =
          ((List.range T.length).filter
            (fun i => (T[i]?).any (fun e => e == x))).map Nat.succ := by
        rw [List.filter_map]
        apply congrArg
        apply List.filter_congr
        intro j hj
        simp [Function.comp, List.getElem?_cons_succ]
      rw [hcomp, List.count_cons]
      by_cases hcx : (c == x) = true
      · rw [if_pos hcx,
          if_pos (show (Option.any (fun e => e == x) ((c :: T)[0]?)) = true by
            simp [hcx]),
          List.length_cons, List.length_map, ← count_eq_length_filter_range x T]
      · rw [if_neg hcx,
          if_neg (show ¬ (Option.any (fun e => e == x) ((c :: T)[0]?)) = true by
            simp [hcx]),
          List.length_map, ← count_eq_length_filter_range x T]
        omega

theorem sum_map_add {β : Type} (f g : β → Nat) :
    ∀ L : List β, (L.map (fun w => f w + g w)).sum = (L.map f).sum + (L.map g).sum
  | [] => rfl
  | w :: t => by
      simp only [List.map_cons, List.sum_cons, sum_map_add f g t]
      omega

theorem sum_if_eq_count {β : Type} [BEq β] (y : β) :
    ∀ L : List β, (L.map (fun w => if w == y then 1 else 0)).sum = L.count y
  | [] => rfl
  | w :: t => by
      rw [List.map_cons, List.sum_cons, sum_if_eq_count y t, List.count_cons]
      exact Nat.add_comm _ _

theorem sum_ite_const {β : Type} (c : Nat) (p : β → Bool) :
    ∀ R : List β, (R.map (fun j => if p j then c else 0)).sum =
      c * (R.filter p).length
  | [] => by simp
  | j :: R2 => by
      rw [List.map_cons, List.sum_cons, List.filter_cons, sum_ite_const c p R2]
      by_cases h : p j = true
      · rw [if_pos h, if_pos h, List.length_cons]
        ring
      · rw [if_neg h, if_neg h]
        omega

theorem sum_count_swap {β : Type} [BEq β] (F : Nat → β) (p : Nat → Bool)
    (R : List Nat) :
    ∀ L : List β,
      (L.map (fun w => (R.filter (fun j => p j && (w == F j))).length)).sum =
        (R.map (fun j => if p j then L.count (F j) else 0)).sum
  | [] => by simp
  | w :: L2 => by
      rw [List.map_cons, List.sum_cons, sum_count_swap F p R L2]
      have hsplit : ∀ j ∈ R, (if p j then (w :: L2).count (F j) else 0) =
          (if p j then L2.count (F j) else 0) +
            (if p j && (w == F j) then 1 else 0) := by
        intro j _
        by_cases hp : p j = true
        · rw [if_pos hp, if_pos hp, List.count_cons, hp, Bool.true_and]
        · rw [if_neg hp, if_neg hp, if_neg (by simp [hp])]
      rw [List.map_congr_left hsplit, sum_map_add,
        sum_ite_const 1 (fun j => p j && (w == F j)) R, Nat.one_mul]
      have hsum : (R.map (fun j => if p j then L2.count (F j) else 0)).sum =
          (L2.map (fun x => (R.filter (fun j => p j && (x == F j))).length)).sum :=
        (sum_count_swap F p R L2).symm
      omega

theorem count_flatMap {β γ : Type} [BEq γ] (f : β → List γ) (x : γ) :
    ∀ L : List β, (L.flatMap f).count x = (L.map (fun w => (f w).count x)).sum
  | [] => rfl
  | w :: t => by
      rw [List.flatMap_cons, List.count_append, List.map_cons, List.sum_cons,
        count_flatMap f x t]

theorem perm_count_eq {β : Type} [BEq β] {l1 l2 : List β} (h : l1 ~ l2) (x : β) :
    l1.count x = l2.count x := by
  simp only [List.count]
  exact h.countP_eq _

theorem count_permAux_eq {β : Type} [BEq β] (a : β) (w x : List β) :
    (List.permutations'Aux a w).count x =
      ((List.range (w.length + 1)).filter
        (fun i => w.insertIdx i a == x)).length := by
  rw [count_eq_length_filter_range x (List.permutations'Aux a w),
    List.length_permutations'Aux]
  apply congrArg
  apply List.filter_congr
  intro i hi
  rw [List.mem_range] at hi
  rw [List.getElem?_eq_getElem (by rw [List.length_permutations'Aux]; omega)]
  rw [List.getElem_permutations'Aux w a i (by rw [List.length_permutations'Aux]; omega)]
  rfl

theorem insertIdx_eq_iff {β : Type} (a : β) (w x : List β)
    (hlen : w.length + 1 = x.length) (i : Nat) (hi : i < x.length) :
    w.insertIdx i a = x ↔ x[i]? = some a ∧ x.eraseIdx i = w := by
  constructor
  · rintro rfl
    have hi2 : i ≤ w.length := by omega
    constructor
    · rw [List.getElem?_eq_getElem (by rw [List.length_insertIdx _ _ hi2]; omega)]
      exact congrArg some (List.getElem_insertIdx_self w a i hi2)
    · exact List.eraseIdx_insertIdx i w
  · rintro ⟨h1, h2⟩
    rw [← h2]
    rw [List.getElem?_eq_getElem hi] at h1
    have ha : x[i] = a := Option.some.inj h1
    rw [← ha]
    exact insertIdx_eraseIdx_getElemP x i hi

theorem multProd_cons {β : Type} [DecidableEq β] (a : β) (t : List β) :
    multProd (a :: t) = (t.count a + 1) * multProd t := by
  by_cases h : a ∈ t
  · rw [multProd, multProd, List.dedup_cons_of_mem h]
    have ha : a ∈ t.dedup := List.mem_dedup.mpr h
    have hperm := List.perm_cons_erase ha
    rw [List.Perm.prod_eq (hperm.map (fun c => ((a :: t).count c).factorial)),
      List.Perm.prod_eq (hperm.map (fun c => (t.count c).factorial))]
    rw [List.map_cons, List.prod_cons, List.map_cons, List.prod_cons]
    have hsame : (t.dedup.erase a).map (fun c => ((a :: t).count c).factorial) =
        (t.dedup.erase a).map (fun c => (t.count c).factorial) := by
      apply List.map_congr_left
      intro c hc
      have hca : c ≠ a := ((List.Nodup.mem_erase_iff (List.nodup_dedup t)).mp hc).1
      rw [List.count_cons_of_ne hca]
    rw [hsame, List.count_cons_self, Nat.factorial_succ]
    ring
  · rw [multProd, multProd, List.dedup_cons_of_not_mem h, List.map_cons,
      List.prod_cons]
    have hsame : t.dedup.map (fun c => ((a :: t).count c).factorial) =
        t.dedup.map (fun c => (t.count c).factorial) := by
      apply List.map_congr_left
      intro c hc
      have hca : c ≠ a := by
        intro hcon
        subst hcon
        exact h (List.mem_dedup.mp hc)
      rw [List.count_cons_of_ne hca]
    rw [hsame, List.count_cons_self]
    have hc0 : t.count a = 0 := List.count_eq_zero.mpr h
    rw [hc0]
    simp [Nat.factorial]

theorem count_permutations'_eq {β : Type} [DecidableEq β] :
    ∀ (l x : List β), x ~ l → (List.permutations' l).count x = multProd l
  | [], x, hx => by
      have hxe : x = [] := hx.eq_nil
      subst hxe
      rfl
  | a :: t, x, hx => by
      rw [List.permutations']
      rw [count_flatMap (List.permutations'Aux a) x (List.permutations' t)]
      have hlenx : x.length = t.length + 1 := by
        rw [hx.length_eq]
        simp
      have hcongr : ∀ w ∈ List.permutations' t,
          (List.permutations'Aux a w).count x =
          ((List.range x.length).filter
            (fun i => ((x[i]?).any (fun e => e == a)) && (w == x.eraseIdx i))).length := by
        intro w hw
        have hwt : w ~ t := List.mem_permutations'.mp hw
        rw [count_permAux_eq a w x]
        have hwlen : w.length + 1 = x.length := by
          rw [hwt.length_eq]
          omega
        rw [hwlen]
        apply congrArg
        apply List.filter_congr
        intro i hi
        rw [List.mem_range] at hi
        apply Bool.eq_iff_iff.mpr
        rw [beq_iff_eq, Bool.and_eq_true, beq_iff_eq]
        rw [insertIdx_eq_iff a w x hwlen i hi]
        constructor
        · rintro ⟨h1, h2⟩
          exact ⟨by simp [h1], h2.symm⟩
        · rintro ⟨h1, h2⟩
          rw [List.getElem?_eq_getElem hi] at h1
          have h1b : x[i] = a := by simpa using h1
          exact ⟨by rw [List.getElem?_eq_getElem hi, h1b], h2.symm⟩
      rw [List.map_congr_left hcongr]
      rw [sum_count_swap (fun i => x.eraseIdx i)
        (fun i => (x[i]?).any (fun e => e == a)) (List.range x.length)
        (List.permutations' t)]
      have hpoint : ∀ i ∈ List.range x.length,
          (if (x[i]?).any (fun e => e == a)
            then (List.permutations' t).count (x.eraseIdx i) else 0) =
          (if (x[i]?).any (fun e => e == a) then multProd t else 0) := by
        intro i hi
        rw [List.mem_range] at hi
        by_cases hia : ((x[i]?).any (fun e => e == a)) = true
        · rw [if_pos hia, if_pos hia]
          rw [List.getElem?_eq_getElem hi] at hia
          simp only [Option.any_some, beq_iff_eq] at hia
          have hperm : x.eraseIdx i ~ t := by
            have h1 : x ~ x[i] :: x.eraseIdx i := perm_cons_eraseIdx x i hi
            rw [hia] at h1
            exact (List.perm_cons a).mp (h1.symm.trans hx)
          exact count_permutations'_eq t (x.eraseIdx i) hperm
        · rw [if_neg hia, if_neg hia]
      rw [List.map_congr_left hpoint]
      rw [sum_ite_const (multProd t) (fun i => (x[i]?).any (fun e => e == a))
        (List.range x.length)]
      rw [← count_eq_length_filter_range a x]
      rw [multProd_cons]
      have hcount : x.count a = t.count a + 1 := by
        rw [perm_count_eq hx a, List.count_cons_self]
      rw [hcount]
      ring

theorem count_permutations_eq {β : Type} [DecidableEq β] (l x : List β) :
    (List.permutations l).count x = if x ~ l then multProd l else 0 := by
  rw [perm_count_eq (List.permutations_perm_permutations' l) x]
  by_cases hx : x ~ l
  · rw [if_pos hx]
    exact count_permutations'_eq l x hx
  · rw [if_neg hx]
    rw [List.count_eq_zero]
    intro hmem
    exact hx (List.mem_permutations'.mp hmem)

/-! ### Orbit-level corollaries -/

theorem orbit_perm_permutations [LinearOrder α] {w0 : List α} (hnd : w0.Nodup)
    {O : List (List α)} (hmem : ∀ w ∈ O, w ~ w0) (hnd2 : O.Nodup)
    (hcov : ∀ y, y ~ w0 → y ∈ O) :
    O ~ w0.permutations := by
  apply List.Subperm.antisymm
  · exact List.subperm_of_subset hnd2
      (fun a ha => List.mem_permutations.mpr (hmem a ha))
  · exact List.subperm_of_subset (List.nodup_permutations w0 hnd)
      (fun a ha => hcov a (List.mem_permutations.mp ha))

theorem orbit_length_le [LinearOrder α] {w0 : List α}
    {O : List (List α)} (hmem : ∀ w ∈ O, w ~ w0) (hnd2 : O.Nodup) :
    O.length ≤ Nat.factorial w0.length := by
  have hsub : O <+~ w0.permutations :=
    List.subperm_of_subset hnd2
      (fun a ha => List.mem_permutations.mpr (hmem a ha))
  have := hsub.length_le
  rwa [List.length_permutations] at this

/-- Claim C1 (corrected): over the full run of the generic generator with
`k = length`, the emitted sequence has exactly `length!` entries and each distinct
full-length permutation of the multiset appears exactly `∏ (multiplicity!)` times
(not exactly once); equivalently each of the `length! / ∏(multiplicity!)` distinct
permutations fills `∏(multiplicity!)` of the `length!` slots. -/
theorem C1_full_run_amended [LinearOrder α] [DecidableEq α] [Inhabited α]
    (v : List α) (fuel : Nat) (hf : Nat.factorial v.length ≤ fuel) :
    (fpRun fuel (fastPermutations v v.length)).length = Nat.factorial v.length ∧
    ∀ x : List α, (fpRun fuel (fastPermutations v v.length)).count x =
      if x ~ v then multProd v else 0 := by
  have hSlen : (v.insertionSort (· ≤ ·)).length = v.length :=
    List.length_insertionSort _ v
  obtain ⟨O, hh, hchain, hmem, hndO, hcov⟩ :=
    orbit_exists (0 : Nat) ((List.range (v.insertionSort (· ≤ ·)).length).reverse)
      (nonIncr_reverse_range _)
  have hb0nd : ((List.range (v.insertionSort (· ≤ ·)).length).reverse).Nodup :=
    List.nodup_reverse.mpr (List.nodup_range _)
  have hOperm : O ~
      ((List.range (v.insertionSort (· ≤ ·)).length).reverse).permutations :=
    orbit_perm_permutations hb0nd hmem hndO hcov
  have hOlen : O.length = Nat.factorial v.length := by
    rw [hOperm.length_eq, List.length_permutations, List.length_reverse,
      List.length_range, hSlen]
  have hrun := fpRun_eq_orbit v v.length O hchain hh fuel (by omega)
  have htake : ∀ w ∈ O, ((w.map (fun p => (v.insertionSort (· ≤ ·)).getD
      ((v.insertionSort (· ≤ ·)).length - 1 - p) default)).take v.length) =
      w.map (fun p => (v.insertionSort (· ≤ ·)).getD
        ((v.insertionSort (· ≤ ·)).length - 1 - p) default) := by
    intro w hw
    apply List.take_of_length_le
    rw [List.length_map, (hmem w hw).length_eq, List.length_reverse,
      List.length_range, hSlen]
  rw [List.map_congr_left htake] at hrun
  rw [hrun]
  constructor
  · rw [List.length_map, hOlen]
  · intro x
    have hpermmap : O.map (List.map (fun p => (v.insertionSort (· ≤ ·)).getD
        ((v.insertionSort (· ≤ ·)).length - 1 - p) default)) ~
        v.permutations := by
      refine (hOperm.map _).trans ?_
      rw [List.map_permutations]
      rw [← sorted_eq_map_getD (v.insertionSort (· ≤ ·))]
      exact (List.perm_insertionSort _ v).permutations
    rw [perm_count_eq hpermmap x, count_permutations_eq v x]

/-- Claim C4 (corrected): with `k = 0` the generic generator emits the empty
arrangement once per position-buffer permutation, i.e. `length!` times in total
(so exactly once only when the input has at most one element, e.g. the empty
multiset), then signals exhaustion. -/
theorem C4_k0_amended [LinearOrder α] [Inhabited α] (v : List α) (fuel : Nat)
    (hf : Nat.factorial v.length ≤ fuel) :
    fpRun fuel (fastPermutations v 0) = List.replicate (Nat.factorial v.length) [] := by
  have hSlen : (v.insertionSort (· ≤ ·)).length = v.length :=
    List.length_insertionSort _ v
  obtain ⟨O, hh, hchain, hmem, hndO, hcov⟩ :=
    orbit_exists (0 : Nat) ((List.range (v.insertionSort (· ≤ ·)).length).reverse)
      (nonIncr_reverse_range _)
  have hb0nd : ((List.range (v.insertionSort (· ≤ ·)).length).reverse).Nodup :=
    List.nodup_reverse.mpr (List.nodup_range _)
  have hOlen : O.length = Nat.factorial v.length := by
    rw [(orbit_perm_permutations hb0nd hmem hndO hcov).length_eq,
      List.length_permutations, List.length_reverse, List.length_range, hSlen]
  have hrun := fpRun_eq_orbit v 0 O hchain hh fuel (by omega)
  rw [hrun]
  have htake : ∀ w ∈ O, ((w.map (fun p => (v.insertionSort (· ≤ ·)).getD
      ((v.insertionSort (· ≤ ·)).length - 1 - p) default)).take 0) = ([] : List α) := by
    intro w _
    rfl
  rw [List.map_congr_left htake, List.map_const', hOlen]

theorem fpRun_mem_iff [LinearOrder α] [Inhabited α]
    (v : List α) (fuel : Nat) (hf : Nat.factorial v.length ≤ fuel) (x : List α) :
    x ∈ fpRun fuel (fastPermutations v v.length) ↔ x ~ v := by
  have hSlen : (v.insertionSort (· ≤ ·)).length = v.length :=
    List.length_insertionSort _ v
  obtain ⟨O, hh, hchain, hmem, hndO, hcov⟩ :=
    orbit_exists (0 : Nat) ((List.range (v.insertionSort (· ≤ ·)).length).reverse)
      (nonIncr_reverse_range _)
  have hb0nd : ((List.range (v.insertionSort (· ≤ ·)).length).reverse).Nodup :=
    List.nodup_reverse.mpr (List.nodup_range _)
  have hOlen : O.length = Nat.factorial v.length := by
    rw [(orbit_perm_permutations hb0nd hmem hndO hcov).length_eq,
      List.length_permutations, List.length_reverse, List.length_range, hSlen]
  have hrun := fpRun_eq_orbit v v.length O hchain hh fuel (by omega)
  have htake : ∀ w ∈ O, ((w.map (fun p => (v.insertionSort (· ≤ ·)).getD
      ((v.insertionSort (· ≤ ·)).length - 1 - p) default)).take v.length) =
      w.map (fun p => (v.insertionSort (· ≤ ·)).getD
        ((v.insertionSort (· ≤ ·)).length - 1 - p) default) := by
    intro w hw
    apply List.take_of_length_le
    rw [List.length_map, (hmem w hw).length_eq, List.length_reverse,
      List.length_range, hSlen]
  rw [List.map_congr_left htake] at hrun
  rw [hrun, List.mem_map]
  constructor
  · rintro ⟨w, hw, rfl⟩
    have hwb : w ~ (List.range (v.insertionSort (· ≤ ·)).length).reverse := hmem w hw
    have := hwb.map (fun p => (v.insertionSort (· ≤ ·)).getD
      ((v.insertionSort (· ≤ ·)).length - 1 - p) default)
    refine this.trans ?_
    rw [← sorted_eq_map_getD (v.insertionSort (· ≤ ·))]
    exact List.perm_insertionSort _ v
  · intro hx
    have hxS : x ~ ((List.range (v.insertionSort (· ≤ ·)).length).reverse).map
        (fun p => (v.insertionSort (· ≤ ·)).getD
          ((v.insertionSort (· ≤ ·)).length - 1 - p) default) := by
      rw [← sorted_eq_map_getD (v.insertionSort (· ≤ ·))]
      exact hx.trans (List.perm_insertionSort _ v).symm
    have hxmem : x ∈ (((List.range (v.insertionSort (· ≤ ·)).length).reverse).map
        (fun p => (v.insertionSort (· ≤ ·)).getD
          ((v.insertionSort (· ≤ ·)).length - 1 - p) default)).permutations :=
      List.mem_permutations.mpr hxS
    rw [← List.map_permutations, List.mem_map] at hxmem
    obtain ⟨w, hwmem, hwx⟩ := hxmem
    exact ⟨w, hcov w (List.mem_permutations.mp hwmem), hwx⟩

theorem dpRun_mem_iff [LinearOrder α] [Inhabited α]
    (v : List α) (fuel : Nat) (hf : Nat.factorial v.length ≤ fuel) (x : List α) :
    x ∈ dpRun fuel (distinctPermutations v) ↔ x ~ v := by
  obtain ⟨O, hh, hchain, hmem, hndO, hcov⟩ :=
    orbit_exists (default : α) (v.insertionSort (· ≥ ·))
      (List.chain'_iff_pairwise.mpr (List.sorted_insertionSort _ _))
  have hOlen : O.length ≤ Nat.factorial v.length := by
    have := orbit_length_le hmem hndO
    rwa [List.length_insertionSort] at this
  rw [dpRun_eq_orbit v O hchain hh fuel (by omega)]
  constructor
  · intro hx
    exact ((hmem x hx).trans (List.perm_insertionSort _ v))
  · intro hx
    exact hcov x (hx.trans (List.perm_insertionSort _ v).symm)

theorem ddReject_eq_derangeReject (l : List Nat) :
    derangeReject natTryFrom l = ddReject l := rfl

theorem ddRunF_mem_iff (v : List Nat) (fuel : Nat)
    (hf : Nat.factorial v.length + 1 ≤ fuel) (y : List Nat) :
    y ∈ ddRunF fuel (distinctDerangements v) ↔ y ~ v ∧ ddReject y = false := by
  obtain ⟨O, hh, hchain, hmem, hndO, hcov⟩ :=
    orbit_exists (0 : Nat) (v.insertionSort (· ≥ ·))
      (List.chain'_iff_pairwise.mpr (List.sorted_insertionSort _ _))
  have hOlen : O.length ≤ Nat.factorial v.length := by
    have := orbit_length_le hmem hndO
    rwa [List.length_insertionSort] at this
  rw [ddRunF_eq_orbit v O hchain hh fuel (by omega), List.mem_filter]
  constructor
  · rintro ⟨h1, h2⟩
    refine ⟨(hmem y h1).trans (List.perm_insertionSort _ v), ?_⟩
    simpa using h2
  · rintro ⟨h1, h2⟩
    refine ⟨hcov y (h1.trans (List.perm_insertionSort _ v).symm), ?_⟩
    simp [h2]

/-- Claim C3 (corrected): `distinct_permutations` produces the same *set* of
result sequences as the generic generator at `k = length` (same members, not the
same multiset: on `[0,1,1]` the generic path emits `[1,1,0]` twice but
`distinct_permutations` emits it once), and `distinct_derangements` produces the
same set as the generic generator at `k = length` composed with the
index-derangement filter. -/
theorem C3_same_set_amended [LinearOrder α] [DecidableEq α] [Inhabited α]
    (v : List α) (vN : List Nat) (fuel fuelN : Nat)
    (hf : Nat.factorial v.length ≤ fuel) (hfN : Nat.factorial vN.length + 1 ≤ fuelN) :
    (∀ x : List α, x ∈ dpRun fuel (distinctPermutations v) ↔
        x ∈ fpRun fuel (fastPermutations v v.length)) ∧
    (∀ y : List Nat, y ∈ ddRunF fuelN (distinctDerangements vN) ↔
        y ∈ (fpRun fuelN (fastPermutations vN vN.length)).filter
          (fun w => ! derangeReject natTryFrom w)) := by
  constructor
  · intro x
    rw [dpRun_mem_iff v fuel hf x, fpRun_mem_iff v fuel hf x]
  · intro y
    rw [ddRunF_mem_iff vN fuelN hfN y, List.mem_filter,
      fpRun_mem_iff vN fuelN (by omega) y]
    constructor
    · rintro ⟨h1, h2⟩
      refine ⟨h1, ?_⟩
      rw [ddReject_eq_derangeReject, h2]
      rfl
    · rintro ⟨h1, h2⟩
      refine ⟨h1, ?_⟩
      rw [ddReject_eq_derangeReject] at h2
      simpa using h2

/-- Witness for C1 at the concrete multiset `[0, 1, 1]` with fuel 6. -/
theorem C1_full_run_amended_witness :
    Nat.factorial ([0, 1, 1] : List Nat).length ≤ 6 ∧
    ((fpRun 6 (fastPermutations ([0, 1, 1] : List Nat)
        ([0, 1, 1] : List Nat).length)).length =
          Nat.factorial ([0, 1, 1] : List Nat).length ∧
      ∀ x : List Nat, (fpRun 6 (fastPermutations ([0, 1, 1] : List Nat)
        ([0, 1, 1] : List Nat).length)).count x =
          if x ~ [0, 1, 1] then multProd [0, 1, 1] else 0) :=
  ⟨by decide, C1_full_run_amended [0, 1, 1] 6 (by decide)⟩

/-- Witness for C3 at the multiset `[0, 1, 1]` (fuel 6) and, for the derangement
side, `[0, 1]` (fuel 3). -/
theorem C3_same_set_amended_witness :
    (Nat.factorial ([0, 1, 1] : List Nat).length ≤ 6 ∧
      Nat.factorial ([0, 1] : List Nat).length + 1 ≤ 3) ∧
    ((∀ x : List Nat, x ∈ dpRun 6 (distinctPermutations [0, 1, 1]) ↔
        x ∈ fpRun 6 (fastPermutations ([0, 1, 1] : List Nat)
          ([0, 1, 1] : List Nat).length)) ∧
      (∀ y : List Nat, y ∈ ddRunF 3 (distinctDerangements [0, 1]) ↔
        y ∈ (fpRun 3 (fastPermutations ([0, 1] : List Nat)
          ([0, 1] : List Nat).length)).filter
            (fun w => ! derangeReject natTryFrom w))) :=
  ⟨⟨by decide, by decide⟩,
    C3_same_set_amended [0, 1, 1] [0, 1] 6 3 (by decide) (by decide)⟩

/-- Witness for C4 at the non-empty multiset `[0, 1]` with fuel 2. -/
theorem C4_k0_amended_witness :
    Nat.factorial ([0, 1] : List Nat).length ≤ 2 ∧
    fpRun 2 (fastPermutations ([0, 1] : List Nat) 0) =
      List.replicate (Nat.factorial ([0, 1] : List Nat).length) [] :=
  ⟨by decide, C4_k0_amended [0, 1] 2 (by decide)⟩

end DerangementsLib
